import Mathlib

/-!
# Search server: shallow embedding of `search-server/main.cpp`

The embedding follows the C++ source function by function.

* `std::string` is a list of characters (`Str`); `std::vector` is a `List`
  (`push_back` appends at the end).
* `std::set` and `std::map` are key-ordered lists (`StdSet`, `StdMap`); the
  iteration order of the C++ containers is the order of the list.
* `int` values are integers; `int` arithmetic and `static_cast<int>` wrap to
  32 bits (`wrapInt`).
* `double` is idealised as exact arithmetic: the term frequencies, which the
  code only adds and divides, are rationals; the relevance, which goes through
  `std::log`, lives in an ordered field `R`, and `std::log` is a parameter
  `ln : ℚ → R`.
* `std::map::at` on a missing key throws; the functions that call it return
  an `Option`, `none` standing for the exception.
* `std::sort` is the routine of the GNU C++ library: the introsort loop
  (median-of-three partition, heap sort at the depth limit) on ranges of more
  than 16 elements, then the final insertion sort. The order of documents that
  the comparator does not tell apart is the one this routine leaves.
-/

set_option autoImplicit false
set_option linter.unusedSectionVars false

/-- A `std::string`. -/
abbrev Str := List Char

/-- Two's complement wrap of an integer to the 32-bit `int` range. -/
def wrapInt (x : Int) : Int := (x + 2147483648) % 4294967296 - 2147483648

/-- The conversion `static_cast<int>(n)` of a container size. -/
def static_cast_int (n : Nat) : Int := wrapInt (n : Int)

/-! ## Ordered containers -/

namespace StdSet

variable {K : Type} [LinearOrder K]

/-- `set.insert(k)`: ordered insertion, an element already present is kept. -/
def insert (k : K) : List K → List K
  | [] => [k]
  | x :: xs =>
    if k < x then k :: x :: xs
    else if k = x then x :: xs
    else x :: insert k xs

/-- `set.count(k)`. -/
def count (k : K) (s : List K) : Nat := if k ∈ s then 1 else 0

end StdSet

namespace StdMap

variable {K V : Type} [LinearOrder K]

/-- `map.find(k)`: the value stored under `k`, if any. -/
def find (k : K) : List (K × V) → Option V
  | [] => none
  | (k', v) :: m => if k = k' then some v else find k m

/-- `map.count(k)`. -/
def count (k : K) (m : List (K × V)) : Nat := if (find k m).isSome then 1 else 0

/-- The keys in iteration order. -/
def keys (m : List (K × V)) : List K := m.map Prod.fst

/-- The statement `m[k] = f(m[k])`: `operator[]` inserts the default value `d`
at the ordered position when `k` is absent, then the slot is updated. -/
def modify (k : K) (d : V) (f : V → V) : List (K × V) → List (K × V)
  | [] => [(k, f d)]
  | (k', v) :: m =>
    if k < k' then (k, f d) :: (k', v) :: m
    else if k = k' then (k', f v) :: m
    else (k', v) :: modify k d f m

/-- `map.emplace(k, v)`: ordered insertion, an existing entry is kept. -/
def emplace (k : K) (v : V) : List (K × V) → List (K × V)
  | [] => [(k, v)]
  | (k', v') :: m =>
    if k < k' then (k, v) :: (k', v') :: m
    else if k = k' then (k', v') :: m
    else (k', v') :: emplace k v m

/-- `map.erase(k)`. -/
def erase (k : K) (m : List (K × V)) : List (K × V) :=
  m.filter (fun e => decide (e.1 ≠ k))

end StdMap

/-! ## The program -/

def MAX_RESULT_DOCUMENT_COUNT : Nat := 5

/-- The loop of `SplitIntoWords`: `word` is the word being read, `words` the
words already pushed. The last clause is the code after the loop. -/
def SplitIntoWordsLoop : List Char → Str → List Str → List Str
  | [], word, words => if word ≠ [] then words ++ [word] else words
  | c :: text, word, words =>
    if c = ' ' then
      if word ≠ [] then SplitIntoWordsLoop text [] (words ++ [word])
      else SplitIntoWordsLoop text word words
    else SplitIntoWordsLoop text (word ++ [c]) words

def SplitIntoWords (text : Str) : List Str := SplitIntoWordsLoop text [] []

structure Document (R : Type) where
  id : Int
  relevance : R
  rating : Int
  deriving DecidableEq

inductive DocumentStatus where
  | ACTUAL
  | IRRELEVANT
  | BANNED
  | REMOVED
  deriving DecidableEq

/-- The comparator handed to `std::sort` in `FindTopDocuments`. -/
def compareDocuments {R : Type} [LinearOrderedField R] (lhs rhs : Document R) : Bool :=
  if |lhs.relevance - rhs.relevance| < 1 / 1000000 then
    decide (lhs.rating > rhs.rating)
  else
    decide (lhs.relevance > rhs.relevance)

/-! ### `std::sort`

The routine of the GNU C++ library (`bits/stl_algo.h`, `bits/stl_heap.h`),
function by function. A range is a list and an iterator a position in it; the
functions that the library runs on a part of the vector get that part as their
list. The loops of the library that have no test for the end of the range
(`__unguarded_partition`, `__unguarded_linear_insert`) stop there in the model:
reading outside the vector is undefined behaviour in C++. -/

/-- The comparison `comp(i, j)` of the elements at two positions of the range.
A position outside the range is not read and the comparison counts as false. -/
def compAt {α : Type} (comp : α → α → Bool) (v : List α) (i j : Nat) : Bool :=
  match v[i]?, v[j]? with
  | some x, some y => comp x y
  | _, _ => false

/-- The comparison `comp(i, value)` of the element at a position with a value. -/
def compVal {α : Type} (comp : α → α → Bool) (v : List α) (i : Nat) (value : α) : Bool :=
  match v[i]? with
  | some x => comp x value
  | none => false

/-- The assignment `*i = std::move(*j)`. -/
def moveAt {α : Type} (v : List α) (i j : Nat) : List α :=
  match v[j]? with
  | some y => v.set i y
  | none => v

/-- `std::iter_swap(i, j)`. -/
def iterSwap {α : Type} (v : List α) (i j : Nat) : List α :=
  match v[i]?, v[j]? with
  | some x, some y => (v.set i y).set j x
  | _, _ => v

/-- `std::__lg(n)`: the position of the highest set bit; `fuel` bounds the loop. -/
def lgLoop : Nat → Nat → Nat
  | 0, _ => 0
  | fuel + 1, n => if n < 2 then 0 else lgLoop fuel (n / 2) + 1

def lg (n : Nat) : Nat := lgLoop n n

/-- The loop of `std::__unguarded_linear_insert`: `x` moves left from the end of
the range, past every element that the comparator puts behind it. `rev` is the
range before `x` read from its end. The loop of the source has no test for the
start of the range; here `x` stops there. -/
def linearInsert {α : Type} (comp : α → α → Bool) (x : α) : List α → List α
  | [] => [x]
  | y :: rev => if comp x y then y :: linearInsert comp x rev else x :: y :: rev

/-- One step of `std::__insertion_sort`: an element that the comparator puts
before the first one goes to the front, any other is inserted from the end. -/
def sortInsert {α : Type} (comp : α → α → Bool) (x : α) (sorted : List α) : List α :=
  match sorted with
  | [] => [x]
  | first :: _ =>
    if comp x first then x :: sorted
    else (linearInsert comp x sorted.reverse).reverse

/-- `std::__insertion_sort(first, last, comp)`. -/
def insertionSort {α : Type} (comp : α → α → Bool) (l : List α) : List α :=
  l.foldl (fun sorted x => sortInsert comp x sorted) []

/-- `std::__unguarded_insertion_sort(first, last, comp)`: `sorted` is the range
before `first`, `rest` the range from `first` to `last`. -/
def unguardedInsertionSort {α : Type} (comp : α → α → Bool) (sorted rest : List α) : List α :=
  rest.foldl (fun sorted x => (linearInsert comp x sorted.reverse).reverse) sorted

/-- The constant `_S_threshold`. -/
def S_threshold : Nat := 16

/-- `std::__final_insertion_sort(first, last, comp)`. -/
def finalInsertionSort {α : Type} (comp : α → α → Bool) (l : List α) : List α :=
  if l.length > S_threshold then
    unguardedInsertionSort comp (insertionSort comp (l.take S_threshold)) (l.drop S_threshold)
  else insertionSort comp l

/-- `std::__move_median_to_first(result, a, b, c, comp)`. -/
def moveMedianToFirst {α : Type} (comp : α → α → Bool) (v : List α) (result a b c : Nat) :
    List α :=
  if compAt comp v a b then
    if compAt comp v b c then iterSwap v result b
    else if compAt comp v a c then iterSwap v result c
    else iterSwap v result a
  else if compAt comp v a c then iterSwap v result a
  else if compAt comp v b c then iterSwap v result c
  else iterSwap v result b

/-- The loop `while (comp(first, pivot)) ++first;`, which returns `first`. -/
def scanUp {α : Type} (comp : α → α → Bool) (v : List α) (pivot : Nat) : Nat → Nat → Nat
  | 0, first => first
  | fuel + 1, first =>
    if compAt comp v first pivot then scanUp comp v pivot fuel (first + 1) else first

/-- The loop `while (comp(pivot, last)) --last;`, which returns `last`. -/
def scanDown {α : Type} (comp : α → α → Bool) (v : List α) (pivot : Nat) : Nat → Nat
  | 0 => 0
  | last + 1 =>
    if compAt comp v pivot (last + 1) then scanDown comp v pivot last else last + 1

/-- `std::__unguarded_partition(first, last, pivot, comp)`: the range after the
swaps and the position returned; `fuel` bounds the outer loop. -/
def unguardedPartition {α : Type} (comp : α → α → Bool) (pivot : Nat) :
    Nat → List α → Nat → Nat → List α × Nat
  | 0, v, first, _ => (v, first)
  | fuel + 1, v, first, last =>
    let first := scanUp comp v pivot (v.length - first) first
    let last := scanDown comp v pivot (last - 1)
    if first < last then unguardedPartition comp pivot fuel (iterSwap v first last) (first + 1) last
    else (v, first)

/-- `std::__unguarded_partition_pivot(first, last, comp)` on the range `v`. -/
def unguardedPartitionPivot {α : Type} (comp : α → α → Bool) (v : List α) : List α × Nat :=
  unguardedPartition comp 0 v.length
    (moveMedianToFirst comp v 0 1 (v.length / 2) (v.length - 1)) 1 v.length

/-- `std::__push_heap(first, holeIndex, topIndex, value, comp)`. -/
def pushHeap {α : Type} (comp : α → α → Bool) (topIndex : Nat) (value : α) :
    Nat → List α → Nat → List α
  | 0, v, holeIndex => v.set holeIndex value
  | fuel + 1, v, holeIndex =>
    if holeIndex > topIndex ∧ compVal comp v ((holeIndex - 1) / 2) value = true then
      pushHeap comp topIndex value fuel (moveAt v holeIndex ((holeIndex - 1) / 2))
        ((holeIndex - 1) / 2)
    else v.set holeIndex value

/-- The position of the child that the first loop of `std::__adjust_heap` moves
into the hole. -/
def largerChild {α : Type} (comp : α → α → Bool) (v : List α) (secondChild : Nat) : Nat :=
  if compAt comp v (2 * (secondChild + 1)) (2 * (secondChild + 1) - 1) then
    2 * (secondChild + 1) - 1
  else 2 * (secondChild + 1)

/-- The first loop of `std::__adjust_heap`: the range and the hole after it
(`secondChild` is equal to `holeIndex` there). -/
def adjustHeapLoop {α : Type} (comp : α → α → Bool) (len : Nat) :
    Nat → List α → Nat → List α × Nat
  | 0, v, holeIndex => (v, holeIndex)
  | fuel + 1, v, holeIndex =>
    if holeIndex < (len - 1) / 2 then
      adjustHeapLoop comp len fuel (moveAt v holeIndex (largerChild comp v holeIndex))
        (largerChild comp v holeIndex)
    else (v, holeIndex)

/-- `std::__adjust_heap(first, holeIndex, len, value, comp)`. -/
def adjustHeap {α : Type} (comp : α → α → Bool) (v : List α) (holeIndex len : Nat)
    (value : α) : List α :=
  let r := adjustHeapLoop comp len len v holeIndex
  if len % 2 = 0 ∧ r.2 = (len - 2) / 2 then
    pushHeap comp holeIndex value (2 * (r.2 + 1)) (moveAt r.1 r.2 (2 * (r.2 + 1) - 1))
      (2 * (r.2 + 1) - 1)
  else pushHeap comp holeIndex value (r.2 + 1) r.1 r.2

/-- `std::__pop_heap(first, last, result, comp)`. -/
def popHeap {α : Type} (comp : α → α → Bool) (v : List α) (last result : Nat) : List α :=
  match v[result]? with
  | some value => adjustHeap comp (moveAt v result 0) 0 last value
  | none => v

/-- The loop of `std::__make_heap`, from `parent` down to `0`. -/
def makeHeapLoop {α : Type} (comp : α → α → Bool) (len : Nat) : Nat → List α → List α
  | 0, v =>
    match v[0]? with
    | some value => adjustHeap comp v 0 len value
    | none => v
  | parent + 1, v =>
    match v[parent + 1]? with
    | some value => makeHeapLoop comp len parent (adjustHeap comp v (parent + 1) len value)
    | none => v

/-- `std::__make_heap(first, last, comp)`. -/
def makeHeap {α : Type} (comp : α → α → Bool) (v : List α) : List α :=
  if v.length < 2 then v else makeHeapLoop comp v.length ((v.length - 2) / 2) v

/-- `std::__sort_heap(first, last, comp)`, with `last` as a position. -/
def sortHeap {α : Type} (comp : α → α → Bool) : Nat → List α → List α
  | 0, v => v
  | last + 1, v => if last + 1 > 1 then sortHeap comp last (popHeap comp v last last) else v

/-- `std::__partial_sort(first, last, last, comp)`: the loop of
`std::__heap_select` over the range from `middle` to `last` is empty. -/
def partialSort {α : Type} (comp : α → α → Bool) (v : List α) : List α :=
  sortHeap comp v.length (makeHeap comp v)

/-- `std::__introsort_loop(first, last, depth_limit, comp)` on the range `v`.
The recursive call sorts the range from the cut on, the next round of the loop
the range before the cut, both with the decremented depth limit. -/
def introsortLoop {α : Type} (comp : α → α → Bool) : Nat → List α → List α
  | 0, v => if v.length > S_threshold then partialSort comp v else v
  | depth_limit + 1, v =>
    if v.length > S_threshold then
      introsortLoop comp depth_limit
          ((unguardedPartitionPivot comp v).1.take (unguardedPartitionPivot comp v).2) ++
        introsortLoop comp depth_limit
          ((unguardedPartitionPivot comp v).1.drop (unguardedPartitionPivot comp v).2)
    else v

/-- `std::sort(first, last, comp)` as the GNU C++ library implements it. -/
def stdSort {α : Type} (comp : α → α → Bool) (l : List α) : List α :=
  match l with
  | [] => []
  | _ :: _ => finalInsertionSort comp (introsortLoop comp (lg l.length * 2) l)

structure SearchServer.DocumentData where
  rating : Int
  status : DocumentStatus
  deriving DecidableEq

/-- The private state of the class `SearchServer`. -/
structure SearchServer where
  stop_words_ : List Str := []
  word_to_document_freqs_ : List (Str × List (Int × ℚ)) := []
  documents_ : List (Int × SearchServer.DocumentData) := []

namespace SearchServer

variable {R : Type} [LinearOrderedField R]

structure QueryWord where
  data : Str
  is_minus : Bool
  is_stop : Bool
  deriving DecidableEq

structure Query where
  plus_words : List Str := []
  minus_words : List Str := []
  deriving DecidableEq

def SetStopWords (s : SearchServer) (text : Str) : SearchServer :=
  { s with
    stop_words_ := (SplitIntoWords text).foldl (fun set word => StdSet.insert word set)
      s.stop_words_ }

def IsStopWord (s : SearchServer) (word : Str) : Bool :=
  decide (StdSet.count word s.stop_words_ > 0)

def SplitIntoWordsNoStop (s : SearchServer) (text : Str) : List Str :=
  (SplitIntoWords text).foldl
    (fun words word => if !s.IsStopWord word then words ++ [word] else words) []

def ComputeAverageRating (ratings : List Int) : Int :=
  if ratings.isEmpty then 0
  else
    let rating_sum := ratings.foldl (fun sum rating => wrapInt (sum + rating)) 0
    wrapInt (Int.tdiv rating_sum (static_cast_int ratings.length))

def AddDocument (s : SearchServer) (document_id : Int) (document : Str)
    (status : DocumentStatus) (ratings : List Int) : SearchServer :=
  let words := s.SplitIntoWordsNoStop document
  let inv_word_count : ℚ := 1 / (words.length : ℚ)
  { s with
    word_to_document_freqs_ :=
      words.foldl
        (fun index word =>
          StdMap.modify word []
            (fun freqs => StdMap.modify document_id 0 (fun freq => freq + inv_word_count) freqs)
            index)
        s.word_to_document_freqs_
    documents_ :=
      StdMap.emplace document_id ⟨ComputeAverageRating ratings, status⟩ s.documents_ }

def GetDocumentCount (s : SearchServer) : Int :=
  static_cast_int s.documents_.length

/-- The body of `ParseQueryWord`; `text[0]` of an empty string is the
terminating null character, which is not `-`. -/
def ParseQueryWord (s : SearchServer) (text : Str) : QueryWord :=
  match text with
  | '-' :: rest => ⟨rest, true, s.IsStopWord rest⟩
  | _ => ⟨text, false, s.IsStopWord text⟩

def ParseQuery (s : SearchServer) (text : Str) : Query :=
  (SplitIntoWords text).foldl
    (fun query word =>
      let query_word := s.ParseQueryWord word
      if !query_word.is_stop then
        if query_word.is_minus then
          { query with minus_words := StdSet.insert query_word.data query.minus_words }
        else
          { query with plus_words := StdSet.insert query_word.data query.plus_words }
      else query)
    {}

/-- `ComputeWordInverseDocumentFreq`; `word_to_document_freqs_.at(word)` throws
when the word is absent ("Existence required"). -/
def ComputeWordInverseDocumentFreq (ln : ℚ → R) (s : SearchServer) (word : Str) :
    Option R :=
  match StdMap.find word s.word_to_document_freqs_ with
  | none => none
  | some freqs => some (ln ((s.GetDocumentCount : ℚ) * 1 / (freqs.length : ℚ)))

/-- The inner loop of the first loop of `FindAllDocuments`, over the entries
listed under one word. Both `documents_.at(document_id)` throw when the id has
no metadata. -/
def accumulateWord (s : SearchServer) (keymapper : Int → DocumentStatus → Int → Bool)
    (inverse_document_freq : R) :
    List (Int × ℚ) → List (Int × R) → Option (List (Int × R))
  | [], document_to_relevance => some document_to_relevance
  | (document_id, term_freq) :: freqs, document_to_relevance =>
    match StdMap.find document_id s.documents_ with
    | none => none
    | some data =>
      if keymapper document_id data.status data.rating then
        accumulateWord s keymapper inverse_document_freq freqs
          (StdMap.modify document_id 0
            (fun relevance => relevance + (term_freq : R) * inverse_document_freq)
            document_to_relevance)
      else
        accumulateWord s keymapper inverse_document_freq freqs document_to_relevance

/-- The first loop of `FindAllDocuments`, over the plus words. -/
def accumulatePlusWords (ln : ℚ → R) (s : SearchServer)
    (keymapper : Int → DocumentStatus → Int → Bool) :
    List Str → List (Int × R) → Option (List (Int × R))
  | [], document_to_relevance => some document_to_relevance
  | word :: plus_words, document_to_relevance =>
    if StdMap.count word s.word_to_document_freqs_ = 0 then
      accumulatePlusWords ln s keymapper plus_words document_to_relevance
    else
      match ComputeWordInverseDocumentFreq ln s word,
          StdMap.find word s.word_to_document_freqs_ with
      | some inverse_document_freq, some freqs =>
        match accumulateWord s keymapper inverse_document_freq freqs document_to_relevance with
        | none => none
        | some document_to_relevance' =>
          accumulatePlusWords ln s keymapper plus_words document_to_relevance'
      | _, _ => none

/-- The second loop of `FindAllDocuments`, over the minus words. -/
def eraseMinusWords (s : SearchServer) :
    List Str → List (Int × R) → List (Int × R)
  | [], document_to_relevance => document_to_relevance
  | word :: minus_words, document_to_relevance =>
    match StdMap.find word s.word_to_document_freqs_ with
    | none => eraseMinusWords s minus_words document_to_relevance
    | some freqs =>
      eraseMinusWords s minus_words
        (freqs.foldl (fun relevances entry => StdMap.erase entry.1 relevances)
          document_to_relevance)

/-- The last loop of `FindAllDocuments`, building the result vector. -/
def collectDocuments (s : SearchServer) : List (Int × R) → Option (List (Document R))
  | [] => some []
  | (document_id, relevance) :: document_to_relevance =>
    match StdMap.find document_id s.documents_ with
    | none => none
    | some data =>
      match collectDocuments s document_to_relevance with
      | none => none
      | some matched_documents => some (⟨document_id, relevance, data.rating⟩ :: matched_documents)

def FindAllDocuments (ln : ℚ → R) (s : SearchServer) (query : Query)
    (keymapper : Int → DocumentStatus → Int → Bool) : Option (List (Document R)) :=
  match accumulatePlusWords ln s keymapper query.plus_words [] with
  | none => none
  | some document_to_relevance =>
    collectDocuments s (eraseMinusWords s query.minus_words document_to_relevance)

/-- `FindTopDocuments(raw_query, key_maper)`. -/
def FindTopDocuments (ln : ℚ → R) (s : SearchServer) (raw_query : Str)
    (key_maper : Int → DocumentStatus → Int → Bool) : Option (List (Document R)) :=
  let query := s.ParseQuery raw_query
  match FindAllDocuments ln s query key_maper with
  | none => none
  | some matched_documents =>
    let matched_documents := stdSort compareDocuments matched_documents
    if matched_documents.length > MAX_RESULT_DOCUMENT_COUNT then
      some (matched_documents.take MAX_RESULT_DOCUMENT_COUNT)
    else
      some matched_documents

/-- `FindTopDocuments(raw_query, output_status)`. -/
def FindTopDocumentsStatus (ln : ℚ → R) (s : SearchServer) (raw_query : Str)
    (output_status : DocumentStatus) : Option (List (Document R)) :=
  FindTopDocuments ln s raw_query
    (fun _document_id status _rating => decide (status = output_status))

/-- `FindTopDocuments(raw_query)`, the status argument left to its default. -/
def FindTopDocumentsDefault (ln : ℚ → R) (s : SearchServer) (raw_query : Str) :
    Option (List (Document R)) :=
  FindTopDocumentsStatus ln s raw_query DocumentStatus.ACTUAL

/-- The first loop of `MatchDocument`. -/
def matchPlusWords (s : SearchServer) (document_id : Int) :
    List Str → List Str → List Str
  | [], matched_words => matched_words
  | word :: plus_words, matched_words =>
    match StdMap.find word s.word_to_document_freqs_ with
    | none => matchPlusWords s document_id plus_words matched_words
    | some freqs =>
      if StdMap.count document_id freqs ≠ 0 then
        matchPlusWords s document_id plus_words (matched_words ++ [word])
      else
        matchPlusWords s document_id plus_words matched_words

/-- The second loop of `MatchDocument`; it stops at the first hit. -/
def matchMinusWords (s : SearchServer) (document_id : Int) :
    List Str → List Str → List Str
  | [], matched_words => matched_words
  | word :: minus_words, matched_words =>
    match StdMap.find word s.word_to_document_freqs_ with
    | none => matchMinusWords s document_id minus_words matched_words
    | some freqs =>
      if StdMap.count document_id freqs ≠ 0 then []
      else matchMinusWords s document_id minus_words matched_words

def MatchDocument (s : SearchServer) (raw_query : Str) (document_id : Int) :
    Option (List Str × DocumentStatus) :=
  let query := s.ParseQuery raw_query
  let matched_words :=
    matchMinusWords s document_id query.minus_words
      (matchPlusWords s document_id query.plus_words [])
  match StdMap.find document_id s.documents_ with
  | none => none
  | some data => some (matched_words, data.status)

/-! ## Vocabulary of the statements -/

/-- The document `id` is listed in the inverted index under `word`. -/
def listed (s : SearchServer) (word : Str) (id : Int) : Bool :=
  match StdMap.find word s.word_to_document_freqs_ with
  | none => false
  | some freqs => decide (id ∈ StdMap.keys freqs)

/-- The predicate holds on the id with the status and rating stored for it. -/
def accepts (s : SearchServer) (p : Int → DocumentStatus → Int → Bool) (id : Int) : Bool :=
  match StdMap.find id s.documents_ with
  | none => false
  | some data => p id data.status data.rating

/-- Every id listed in the inverted index has metadata. -/
def IdsStored (s : SearchServer) : Prop :=
  ∀ word id, s.listed word id = true → (StdMap.find id s.documents_).isSome = true

/-- The server states the public interface can produce. -/
inductive Reachable : SearchServer → Prop
  | fresh : Reachable {}
  | setStopWords (s : SearchServer) (text : Str) :
      Reachable s → Reachable (s.SetStopWords text)
  | addDocument (s : SearchServer) (document_id : Int) (document : Str)
      (status : DocumentStatus) (ratings : List Int) :
      Reachable s → Reachable (s.AddDocument document_id document status ratings)

/-- The representation invariant of the three containers of a server. -/
structure WellFormed (s : SearchServer) : Prop where
  index_sorted : (StdMap.keys s.word_to_document_freqs_).Sorted (· < ·)
  freqs_sorted : ∀ word freqs, StdMap.find word s.word_to_document_freqs_ = some freqs →
    (StdMap.keys freqs).Sorted (· < ·)
  freqs_nonempty : ∀ word freqs, StdMap.find word s.word_to_document_freqs_ = some freqs →
    freqs ≠ []
  documents_sorted : (StdMap.keys s.documents_).Sorted (· < ·)
  ids_stored : s.IdsStored

/-- What the index loop of `AddDocument` maintains, for the document `id`. -/
def IndexInv (s : SearchServer) (id : Int) (index : List (Str × List (Int × ℚ))) : Prop :=
  (StdMap.keys index).Sorted (· < ·) ∧
    ∀ word freqs, StdMap.find word index = some freqs →
      (StdMap.keys freqs).Sorted (· < ·) ∧ freqs ≠ [] ∧
        ∀ i ∈ StdMap.keys freqs, i = id ∨ (StdMap.find i s.documents_).isSome = true

/-- The term frequency the inverted index stores for `word` and `id`. -/
def termFreq (s : SearchServer) (word : Str) (id : Int) : ℚ :=
  match StdMap.find word s.word_to_document_freqs_ with
  | none => 0
  | some freqs => (StdMap.find id freqs).getD 0

/-- The number of documents the inverted index lists under `word`. -/
def documentFreq (s : SearchServer) (word : Str) : Nat :=
  match StdMap.find word s.word_to_document_freqs_ with
  | none => 0
  | some freqs => freqs.length

/-- The relevance as the specification words it: the sum, over the plus words
that list the document, of `TF * ln (N / n)`. -/
def relevanceSum (ln : ℚ → R) (s : SearchServer) (plus_words : List Str) (id : Int) : R :=
  ((plus_words.filter (fun word => s.listed word id)).map
    (fun word =>
      (s.termFreq word id : R) *
        ln ((s.GetDocumentCount : ℚ) / (s.documentFreq word : ℚ)))).sum

end SearchServer

/-- The order of two neighbours in a sorted result, as the source states it. -/
def InOrder {R : Type} [LinearOrderedField R] (a b : Document R) : Prop :=
  if |a.relevance - b.relevance| < 1 / 1000000 then a.rating ≥ b.rating
  else a.relevance > b.relevance

/-- The rating as the specification words it: the mean of the ratings with
the quotient truncated toward zero, `0` for no ratings. -/
def truncatedMean (ratings : List Int) : Int :=
  if ratings = [] then 0 else Int.tdiv ratings.sum (ratings.length : Int)

/-- A rational stand-in for the logarithm, to run the model on examples. -/
def sampleLn : ℚ → ℚ := fun x => x - 1

/-- The predicate of the status overload for `DocumentStatus::ACTUAL`. -/
def actualOnly : Int → DocumentStatus → Int → Bool :=
  fun _ status _ => decide (status = DocumentStatus.ACTUAL)

/-- The server of `TestFindDocumentsWithoutMinusWords` and `TestFindDocuments`. -/
def minusWordsServer : SearchServer :=
  ((({} : SearchServer).AddDocument 38 "cat in the city".toList DocumentStatus.ACTUAL
    [5, 1]).AddDocument 3 "the dog is a domesticated descendant of the wolf".toList
    DocumentStatus.ACTUAL [0, 5, 2]).AddDocument 1 "cat playing with cat".toList
    DocumentStatus.ACTUAL [1]

/-- The server of `TestSortingByRelevance`. -/
def sortingServer : SearchServer :=
  ((((({} : SearchServer).SetStopWords "is are was a an in the with near at".toList).AddDocument
    0 "a colorful parrot with green wings and red tail is lost".toList DocumentStatus.ACTUAL
    [2, -5, -4, 6, 3]).AddDocument 5
    "a white cat with long furry tail is found near the red square".toList DocumentStatus.ACTUAL
    [-3, 3, 2, 6]).AddDocument 1
    "a grey hound with black ears is found at the railway station".toList DocumentStatus.ACTUAL
    [7, 9]).AddDocument 38 "cat in the city".toList DocumentStatus.ACTUAL [5, 1]

/-- A server with six documents that all contain the word `cat`. -/
def sixCatsServer : SearchServer :=
  (((((({} : SearchServer).AddDocument 1 "cat".toList DocumentStatus.ACTUAL
    [4]).AddDocument 2 "cat dog".toList DocumentStatus.ACTUAL
    [9]).AddDocument 3 "black cat".toList DocumentStatus.ACTUAL
    [1]).AddDocument 4 "cat cat".toList DocumentStatus.ACTUAL
    [7]).AddDocument 5 "a cat".toList DocumentStatus.ACTUAL
    [3]).AddDocument 6 "cat tail".toList DocumentStatus.ACTUAL [5]

/-- The server of `TestRelevanceCalculation`. -/
def relevanceServer : SearchServer :=
  ((((({} : SearchServer).SetStopWords "is are was a an in the with near at".toList).AddDocument
    0 "a colorful parrot with green wings and red tail is lost cat".toList DocumentStatus.ACTUAL
    [2, -5, -4, 6, 3]).AddDocument 5
    "a white cat with long furry tail is found near the red square".toList DocumentStatus.ACTUAL
    [-3, 3, 2, -6]).AddDocument 1
    "a grey hound with black ears is found at the railway station cat".toList
    DocumentStatus.ACTUAL [7, 9]).AddDocument 38 "cat in the city".toList DocumentStatus.ACTUAL
    [5, 1]

/-- The words as the specification words them: the maximal runs of characters
other than the space, which are the non-empty pieces between spaces. -/
def maximalRuns (text : Str) : List Str :=
  (text.splitOn ' ').filter (fun run => decide (run ≠ []))


/-- The server of `TestSearchingByStatus`. -/
def statusServer : SearchServer :=
  ((((({} : SearchServer).SetStopWords "is are was a an in the with near at".toList).AddDocument
    0 "a colorful parrot with green wings and red tail is lost".toList DocumentStatus.ACTUAL
    [2, -5, -4, 6, 3]).AddDocument 5
    "a white cat with long furry tail is found near the red square".toList DocumentStatus.BANNED
    [-3, 3, 2, -6]).AddDocument 1
    "a grey hound with black ears is found at the railway station".toList
    DocumentStatus.REMOVED [7, 9]).AddDocument 38 "cat in the city".toList
    DocumentStatus.IRRELEVANT [5, 1]

namespace SearchServer

/-- A call of one of the two mutating operations of the public interface. -/
inductive Call where
  | setStopWords (text : Str)
  | addDocument (document_id : Int) (document : Str) (status : DocumentStatus)
      (ratings : List Int)

/-- The state after one call. -/
def applyCall (s : SearchServer) : Call → SearchServer
  | Call.setStopWords text => s.SetStopWords text
  | Call.addDocument document_id document status ratings =>
    s.AddDocument document_id document status ratings

/-- The state after a sequence of calls, first call first. -/
def runCalls (s : SearchServer) (calls : List Call) : SearchServer :=
  calls.foldl applyCall s

/-- The document ids handed to `AddDocument` in a sequence of calls. -/
def addedIds : List Call → List Int
  | [] => []
  | Call.setStopWords _ :: calls => addedIds calls
  | Call.addDocument document_id _ _ _ :: calls => document_id :: addedIds calls


end SearchServer

namespace SearchServer

/-- The frequency that an inverted index stores for `id` under `word`, if any. -/
def indexEntry (index : List (Str × List (Int × ℚ))) (word : Str) (id : Int) : Option ℚ :=
  (StdMap.find word index).bind (fun freqs => StdMap.find id freqs)

/-- The sum, over the terms of an inverted index, of the frequency stored for
`id` (a term that does not list `id` adds nothing). -/
def indexTotal (index : List (Str × List (Int × ℚ))) (id : Int) : ℚ :=
  (index.map (fun e => (StdMap.find id e.2).getD 0)).sum

/-- The frequency that the server stores for `id` under `word`, if any. -/
def storedFreq (s : SearchServer) (word : Str) (id : Int) : Option ℚ :=
  indexEntry s.word_to_document_freqs_ word id

/-- The sum over all terms of the frequency that the server stores for `id`. -/
def totalFreq (s : SearchServer) (id : Int) : ℚ :=
  indexTotal s.word_to_document_freqs_ id

/-- The server states produced by calls of `AddDocument` with pairwise distinct
ids: every call brings an id that is not stored yet. -/
inductive ReachableDistinct : SearchServer → Prop
  | fresh : ReachableDistinct {}
  | setStopWords (s : SearchServer) (text : Str) :
      ReachableDistinct s → ReachableDistinct (s.SetStopWords text)
  | addDocument (s : SearchServer) (document_id : Int) (document : Str)
      (status : DocumentStatus) (ratings : List Int) :
      ReachableDistinct s → StdMap.find document_id s.documents_ = none →
      ReachableDistinct (s.AddDocument document_id document status ratings)


end SearchServer

namespace SearchServer

/-- The ids that the inverted index lists under `word`, in ascending order. -/
def listedIds (s : SearchServer) (word : Str) : List Int :=
  match StdMap.find word s.word_to_document_freqs_ with
  | none => []
  | some freqs => StdMap.keys freqs

/-- The ids listed under `word` whose stored status is `ACTUAL`. -/
def actualListedIds (s : SearchServer) (word : Str) : List Int :=
  (s.listedIds word).filter (fun id => s.accepts actualOnly id)

/-- A server where the id `1` is added twice, first as `BANNED`. -/
def duplicateIdServer : SearchServer :=
  (({} : SearchServer).AddDocument 1 "dog".toList DocumentStatus.BANNED [1]).AddDocument 1
    "cat".toList DocumentStatus.ACTUAL [5]


end SearchServer

/-- Two documents whose relevances differ by less than `1e-6`: the case where
the comparator of the sort looks at the ratings. -/
def tied {R : Type} [LinearOrderedField R] (a b : Document R) : Prop :=
  |a.relevance - b.relevance| < 1 / 1000000

namespace SearchServer

/-- An ill-formed server: the index lists an id without metadata. No sequence
of calls produces it. -/
def danglingServer : SearchServer :=
  { word_to_document_freqs_ := [("cat".toList, [(1, 1)])] }

end SearchServer

namespace SearchServer

/-- The calls `AddDocument(i, "cat", ACTUAL, {rating i})` for `i` from 1 to 17:
one document more than the threshold of the sort. -/
def seventeenCats (rating : Int → Int) : List Call :=
  (List.range 17).map (fun i =>
    Call.addDocument ((i : Int) + 1) "cat".toList DocumentStatus.ACTUAL [rating ((i : Int) + 1)])

end SearchServer

/-- Seventeen documents that the comparator does not tell apart. -/
def tiedServer : SearchServer :=
  SearchServer.runCalls {} (SearchServer.seventeenCats (fun _ => 1))

/-- Seventeen documents of equal relevance with the ratings `i % 5`. -/
def ratedServer : SearchServer :=
  SearchServer.runCalls {} (SearchServer.seventeenCats (fun i => i % 5))

/-- Documents with the ids 1, 2, ..., from pairs of a relevance in units of
`0.3e-6` and a rating. -/
def sampleDocuments (l : List (Int × Int)) : List (Document ℚ) :=
  (List.range l.length).zipWith
    (fun i p => ⟨(i : Int) + 1, (p.1 : ℚ) * 3 / 10000000, p.2⟩) l

/-! ## Facts about `int` arithmetic -/

theorem wrapInt_add_wrapInt (x y : Int) : wrapInt (wrapInt x + y) = wrapInt (x + y) := by
  unfold wrapInt
  omega

theorem wrapInt_of_range (x : Int) (h1 : -2147483648 ≤ x) (h2 : x < 2147483648) :
    wrapInt x = x := by
  unfold wrapInt
  omega

theorem foldl_wrapInt (ratings : List Int) (a : Int) :
    ratings.foldl (fun sum rating => wrapInt (sum + rating)) (wrapInt a) =
      wrapInt (a + ratings.sum) := by
  induction ratings generalizing a with
  | nil => simp
  | cons r rs ih =>
    simp only [List.foldl_cons, List.sum_cons]
    rw [wrapInt_add_wrapInt, ih, add_assoc]

theorem tdiv_range (a b : Int) (hb : 0 < b) (h1 : -2147483648 ≤ a) (h2 : a < 2147483648) :
    -2147483648 ≤ Int.tdiv a b ∧ Int.tdiv a b < 2147483648 := by
  rcases le_or_lt 0 a with ha | ha
  · rw [Int.tdiv_eq_ediv ha (le_of_lt hb)]
    have h3 := Int.ediv_nonneg ha (le_of_lt hb)
    have h4 := Int.ediv_le_self b ha
    omega
  · have hneg : a = -(-a) := by omega
    rw [hneg, Int.neg_tdiv, Int.tdiv_eq_ediv (by omega) (le_of_lt hb)]
    have h3 := Int.ediv_nonneg (show (0 : Int) ≤ -a by omega) (le_of_lt hb)
    have h4 := Int.ediv_le_self b (show (0 : Int) ≤ -a by omega)
    omega

theorem computeAverageRating_eq (ratings : List Int) (hlen : ratings.length < 2147483648)
    (hsum : -2147483648 ≤ ratings.sum ∧ ratings.sum < 2147483648) :
    SearchServer.ComputeAverageRating ratings = truncatedMean ratings := by
  unfold SearchServer.ComputeAverageRating truncatedMean
  cases ratings with
  | nil => simp
  | cons r rs =>
    have h0 : (0 : Int) = wrapInt 0 := by decide
    have hcast : static_cast_int (r :: rs).length = ((r :: rs).length : Int) := by
      unfold static_cast_int
      exact wrapInt_of_range _ (by omega) (by omega)
    simp only [List.isEmpty_cons, Bool.false_eq_true, if_false, reduceCtorEq]
    rw [hcast]
    conv_lhs => rw [h0, foldl_wrapInt, zero_add, wrapInt_of_range _ hsum.1 hsum.2]
    have hpos : (0 : Int) < ((r :: rs).length : Int) := by simp
    have := tdiv_range (r :: rs).sum _ hpos hsum.1 hsum.2
    exact wrapInt_of_range _ this.1 this.2

theorem eq_singleton_of_sorted {l : List Int} (a : Int) (hs : l.Sorted (· < ·))
    (hall : ∀ x ∈ l, x = a) (hmem : a ∈ l) : l = [a] := by
  match l, hs, hall, hmem with
  | [], _, _, hmem => simp at hmem
  | [x], _, hall, _ => rw [hall x (List.mem_singleton_self x)]
  | x :: y :: rest, hs, hall, _ =>
    have hx := hall x (List.mem_cons_self _ _)
    have hy := hall y (List.mem_cons_of_mem _ (List.mem_cons_self _ _))
    have hlt : x < y := List.rel_of_sorted_cons hs y (List.mem_cons_self _ _)
    omega

/-- The value of the example of the relevance test: `ln 4 / 9` is `0.154033`
within `1e-6`. -/
theorem log_four_ninth : |(1 : ℝ) / 9 * Real.log 4 - 0.154033| < 1 / 1000000 := by
  have h4 : Real.log 4 = 2 * Real.log 2 := by
    have : (4 : ℝ) = 2 ^ 2 := by norm_num
    rw [this, Real.log_pow]
    norm_num
  have h1 := Real.log_two_gt_d9
  have h2 := Real.log_two_lt_d9
  rw [h4, abs_lt]
  constructor <;> norm_num at h1 h2 ⊢ <;> linarith

/-! ## Facts about the ordered containers -/

namespace StdSet

variable {K : Type} [LinearOrder K]

theorem mem_insert (k x : K) (s : List K) : x ∈ insert k s ↔ x = k ∨ x ∈ s := by
  induction s with
  | nil => simp [insert]
  | cons y ys ih =>
    unfold insert
    split_ifs with h1 h2
    · simp
    · subst h2; simp
    · simp only [List.mem_cons, ih]; tauto

theorem sorted_insert (k : K) (s : List K) (hs : s.Sorted (· < ·)) :
    (insert k s).Sorted (· < ·) := by
  induction s with
  | nil => simp [insert]
  | cons y ys ih =>
    have hy := List.rel_of_sorted_cons hs
    have hys := List.Sorted.of_cons hs
    unfold insert
    split_ifs with h1 h2
    · refine List.sorted_cons.2 ⟨?_, hs⟩
      intro b hb
      rcases List.mem_cons.1 hb with rfl | hb
      · exact h1
      · exact lt_trans h1 (hy b hb)
    · exact hs
    · refine List.sorted_cons.2 ⟨?_, ih hys⟩
      intro b hb
      rcases (mem_insert k b ys).1 hb with rfl | hb
      · exact lt_of_le_of_ne (not_lt.1 h1) (Ne.symm h2)
      · exact hy b hb

end StdSet

namespace StdMap

variable {K V : Type} [LinearOrder K]

theorem find_eq_none_iff (k : K) (m : List (K × V)) : find k m = none ↔ k ∉ keys m := by
  induction m with
  | nil => simp [find, keys]
  | cons e m ih =>
    obtain ⟨k', v⟩ := e
    unfold find
    by_cases h : k = k'
    · simp [h, keys]
    · simp only [h, if_false, ih]
      simp [keys, h]

theorem find_isSome_iff (k : K) (m : List (K × V)) : (find k m).isSome ↔ k ∈ keys m := by
  rw [← not_iff_not, ← find_eq_none_iff]
  cases find k m <;> simp

theorem mem_of_find_eq_some {k : K} {v : V} {m : List (K × V)} (h : find k m = some v) :
    (k, v) ∈ m := by
  induction m with
  | nil => simp [find] at h
  | cons e m ih =>
    obtain ⟨k', v'⟩ := e
    unfold find at h
    by_cases hk : k = k'
    · simp only [hk, if_true, Option.some.injEq] at h
      subst hk; subst h; exact List.mem_cons_self _ _
    · simp only [hk, if_false] at h
      exact List.mem_cons_of_mem _ (ih h)

theorem find_eq_some_of_mem {k : K} {v : V} {m : List (K × V)}
    (hm : (keys m).Nodup) (h : (k, v) ∈ m) : find k m = some v := by
  induction m with
  | nil => simp at h
  | cons e m ih =>
    obtain ⟨k', v'⟩ := e
    simp only [keys, List.map_cons, List.nodup_cons] at hm
    unfold find
    rcases List.mem_cons.1 h with heq | hmem
    · simp only [Prod.mk.injEq] at heq
      simp [heq.1, heq.2]
    · have hne : k ≠ k' := by
        rintro rfl
        exact hm.1 (List.mem_map_of_mem Prod.fst hmem)
      simp only [hne, if_false]
      exact ih hm.2 hmem

theorem keys_modify (k : K) (d : V) (f : V → V) (m : List (K × V)) :
    keys (modify k d f m) = StdSet.insert k (keys m) := by
  induction m with
  | nil => simp [modify, keys, StdSet.insert]
  | cons e m ih =>
    obtain ⟨k', v⟩ := e
    unfold modify
    simp only [keys, List.map_cons, StdSet.insert] at ih ⊢
    split_ifs <;> simp [ih]

theorem keys_emplace (k : K) (v : V) (m : List (K × V)) :
    keys (emplace k v m) = StdSet.insert k (keys m) := by
  induction m with
  | nil => simp [emplace, keys, StdSet.insert]
  | cons e m ih =>
    obtain ⟨k', v'⟩ := e
    unfold emplace
    simp only [keys, List.map_cons, StdSet.insert] at ih ⊢
    split_ifs <;> simp [ih]

theorem mem_keys_modify (k x : K) (d : V) (f : V → V) (m : List (K × V)) :
    x ∈ keys (modify k d f m) ↔ x = k ∨ x ∈ keys m := by
  rw [keys_modify, StdSet.mem_insert]

theorem find_modify_ne {k x : K} (h : x ≠ k) (d : V) (f : V → V) (m : List (K × V)) :
    find x (modify k d f m) = find x m := by
  induction m with
  | nil => simp [modify, find, h]
  | cons e m ih =>
    obtain ⟨k', v⟩ := e
    unfold modify
    split_ifs with h1 h2
    · simp [find, h]
    · subst h2; simp [find, h]
    · simp only [find, ih]

theorem find_modify_self (k : K) (d : V) (f : V → V) (m : List (K × V))
    (hm : (keys m).Sorted (· < ·)) :
    find k (modify k d f m) = some (f ((find k m).getD d)) := by
  induction m with
  | nil => simp [modify, find]
  | cons e m ih =>
    obtain ⟨k', v⟩ := e
    have hy : ∀ b ∈ keys m, k' < b := List.rel_of_sorted_cons hm
    have hys : (keys m).Sorted (· < ·) := List.Sorted.of_cons hm
    unfold modify
    split_ifs with h1 h2
    · have hnot : k ∉ keys ((k', v) :: m) := by
        intro hmem
        rcases List.mem_cons.1 hmem with heq | hmem
        · exact (ne_of_lt h1) heq
        · exact lt_asymm h1 (hy k hmem)
      rw [(find_eq_none_iff k _).2 hnot]
      simp [find]
    · subst h2; simp [find]
    · simp only [find, h2, if_false]
      exact ih hys

theorem find_emplace_ne {k x : K} (h : x ≠ k) (v : V) (m : List (K × V)) :
    find x (emplace k v m) = find x m := by
  induction m with
  | nil => simp [emplace, find, h]
  | cons e m ih =>
    obtain ⟨k', v'⟩ := e
    unfold emplace
    split_ifs with h1 h2
    · simp [find, h]
    · rfl
    · simp only [find, ih]

theorem find_emplace_self (k : K) (v : V) (m : List (K × V)) :
    (find k (emplace k v m)).isSome := by
  rw [find_isSome_iff, keys_emplace, StdSet.mem_insert]
  exact Or.inl rfl

theorem find_emplace_new (k : K) (v : V) (m : List (K × V)) (h : find k m = none) :
    find k (emplace k v m) = some v := by
  induction m with
  | nil => simp [emplace, find]
  | cons e m ih =>
    obtain ⟨k', v'⟩ := e
    unfold find at h
    by_cases hk : k = k'
    · simp [hk] at h
    · simp only [hk, if_false] at h
      unfold emplace
      split_ifs with h1
      · simp [find]
      · simp only [find, hk, if_false]
        exact ih h

theorem mem_erase (k : K) (e : K × V) (m : List (K × V)) :
    e ∈ erase k m ↔ e ∈ m ∧ e.1 ≠ k := by
  simp [erase]

theorem mem_keys_erase (k x : K) (m : List (K × V)) :
    x ∈ keys (erase k m) ↔ x ∈ keys m ∧ x ≠ k := by
  simp only [keys, List.mem_map, mem_erase]
  constructor
  · rintro ⟨e, ⟨he, hne⟩, rfl⟩
    exact ⟨⟨e, he, rfl⟩, hne⟩
  · rintro ⟨⟨e, he, rfl⟩, hne⟩
    exact ⟨e, ⟨he, hne⟩, rfl⟩

theorem sorted_keys_erase (k : K) (m : List (K × V)) (hm : (keys m).Sorted (· < ·)) :
    (keys (erase k m)).Sorted (· < ·) := by
  have h : (keys (erase k m)).Sublist (keys m) :=
    List.Sublist.map Prod.fst (List.filter_sublist m)
  exact List.Pairwise.sublist h hm

end StdMap

theorem StdSet.mem_foldl_insert {K : Type} [LinearOrder K] (words set : List K) (x : K) :
    x ∈ words.foldl (fun set word => StdSet.insert word set) set ↔ x ∈ set ∨ x ∈ words := by
  induction words generalizing set with
  | nil => simp
  | cons w ws ih =>
    simp only [List.foldl_cons, ih, StdSet.mem_insert, List.mem_cons]
    tauto

/-! ## Facts about the sort -/

theorem perm_cons_eraseIdx {α : Type} (l : List α) (i : Nat) (x : α) (h : l[i]? = some x) :
    l.Perm (x :: l.eraseIdx i) := by
  induction l generalizing i with
  | nil => simp at h
  | cons y ys ih =>
    cases i with
    | zero =>
      simp only [List.getElem?_cons_zero, Option.some.injEq] at h
      subst h
      exact List.Perm.refl _
    | succ i =>
      simp only [List.getElem?_cons_succ] at h
      simp only [List.eraseIdx_cons_succ]
      exact (List.Perm.cons y (ih i h)).trans (List.Perm.swap x y _)

theorem set_perm_cons_eraseIdx {α : Type} (l : List α) (i : Nat) (a : α) (h : i < l.length) :
    (l.set i a).Perm (a :: l.eraseIdx i) := by
  induction l generalizing i with
  | nil => simp at h
  | cons y ys ih =>
    cases i with
    | zero => exact List.Perm.refl _
    | succ i =>
      simp only [List.set_cons_succ, List.eraseIdx_cons_succ]
      have h' : i < ys.length := by simpa using h
      exact (List.Perm.cons y (ih i h')).trans (List.Perm.swap a y _)

theorem length_moveAt {α : Type} (v : List α) (i j : Nat) : (moveAt v i j).length = v.length := by
  unfold moveAt
  cases v[j]? with
  | none => rfl
  | some y => simp

/-- Moving the element at `child` into the hole leaves the elements outside
the hole as they were, up to order. -/
theorem eraseIdx_moveAt_perm {α : Type} (v : List α) (hole child : Nat)
    (hh : hole < v.length) (hc : child < v.length) :
    ((moveAt v hole child).eraseIdx child).Perm (v.eraseIdx hole) := by
  have hy : v[child]? = some v[child] := List.getElem?_eq_getElem hc
  unfold moveAt
  rw [hy]
  simp only
  have h1 : (v.set hole v[child])[child]? = some v[child] := by
    by_cases heq : hole = child
    · subst heq
      rw [List.getElem?_set_self hh]
    · rw [List.getElem?_set_ne heq]
      exact hy
  have p1 := perm_cons_eraseIdx (v.set hole v[child]) child v[child] h1
  have p2 := set_perm_cons_eraseIdx v hole v[child] hh
  exact List.Perm.cons_inv (p1.symm.trans p2)

theorem iterSwap_perm {α : Type} (v : List α) (i j : Nat) : (iterSwap v i j).Perm v := by
  unfold iterSwap
  cases hi : v[i]? with
  | none => exact List.Perm.refl _
  | some x =>
    cases hj : v[j]? with
    | none => exact List.Perm.refl _
    | some y =>
      simp only
      have hil : i < v.length := (List.getElem?_eq_some_iff.1 hi).1
      have hjl : j < v.length := (List.getElem?_eq_some_iff.1 hj).1
      have hm : moveAt v i j = v.set i y := by
        unfold moveAt
        rw [hj]
      have p1 := set_perm_cons_eraseIdx (v.set i y) j x (by simpa using hjl)
      have p2 := eraseIdx_moveAt_perm v i j hil hjl
      rw [hm] at p2
      exact (p1.trans (List.Perm.cons x p2)).trans (perm_cons_eraseIdx v i x hi).symm

theorem moveMedianToFirst_perm {α : Type} (comp : α → α → Bool) (v : List α)
    (result a b c : Nat) : (moveMedianToFirst comp v result a b c).Perm v := by
  unfold moveMedianToFirst
  split_ifs <;> exact iterSwap_perm _ _ _

theorem unguardedPartition_perm {α : Type} (comp : α → α → Bool) (pivot fuel : Nat)
    (v : List α) (first last : Nat) :
    (unguardedPartition comp pivot fuel v first last).1.Perm v := by
  induction fuel generalizing v first last with
  | zero => exact List.Perm.refl _
  | succ fuel ih =>
    unfold unguardedPartition
    simp only
    split_ifs
    · exact (ih _ _ _).trans (iterSwap_perm _ _ _)
    · exact List.Perm.refl _

theorem unguardedPartitionPivot_perm {α : Type} (comp : α → α → Bool) (v : List α) :
    (unguardedPartitionPivot comp v).1.Perm v :=
  (unguardedPartition_perm comp _ _ _ _ _).trans (moveMedianToFirst_perm comp v _ _ _ _)

theorem pushHeap_perm {α : Type} (comp : α → α → Bool) (topIndex : Nat) (value : α)
    (fuel : Nat) (v : List α) (holeIndex : Nat) (hh : holeIndex < v.length) :
    (pushHeap comp topIndex value fuel v holeIndex).Perm (value :: v.eraseIdx holeIndex) := by
  induction fuel generalizing v holeIndex with
  | zero => exact set_perm_cons_eraseIdx v holeIndex value hh
  | succ fuel ih =>
    unfold pushHeap
    split_ifs
    · have hp : (holeIndex - 1) / 2 < v.length := by omega
      refine (ih _ _ (by rw [length_moveAt]; exact hp)).trans ?_
      exact List.Perm.cons value (eraseIdx_moveAt_perm v holeIndex _ hh hp)
    · exact set_perm_cons_eraseIdx v holeIndex value hh

theorem largerChild_lt {α : Type} (comp : α → α → Bool) (v : List α) (len holeIndex : Nat)
    (h : holeIndex < (len - 1) / 2) : largerChild comp v holeIndex < len := by
  unfold largerChild
  split_ifs <;> omega

theorem adjustHeapLoop_spec {α : Type} (comp : α → α → Bool) (len fuel : Nat) (v : List α)
    (holeIndex : Nat) (hlen : len ≤ v.length) (hh : holeIndex < len) :
    (adjustHeapLoop comp len fuel v holeIndex).1.length = v.length ∧
    (adjustHeapLoop comp len fuel v holeIndex).2 < len ∧
    ((adjustHeapLoop comp len fuel v holeIndex).1.eraseIdx
      (adjustHeapLoop comp len fuel v holeIndex).2).Perm (v.eraseIdx holeIndex) := by
  induction fuel generalizing v holeIndex with
  | zero => exact ⟨rfl, hh, List.Perm.refl _⟩
  | succ fuel ih =>
    unfold adjustHeapLoop
    split_ifs with hc
    · have hl := largerChild_lt comp v len holeIndex hc
      obtain ⟨h1, h2, h3⟩ := ih (moveAt v holeIndex (largerChild comp v holeIndex))
        (largerChild comp v holeIndex) (by rw [length_moveAt]; exact hlen) hl
      refine ⟨by rw [h1, length_moveAt], h2, h3.trans ?_⟩
      exact eraseIdx_moveAt_perm v holeIndex _ (by omega) (by omega)
    · exact ⟨rfl, hh, List.Perm.refl _⟩

theorem adjustHeap_perm {α : Type} (comp : α → α → Bool) (v : List α) (holeIndex len : Nat)
    (value : α) (hlen : len ≤ v.length) (hh : holeIndex < len) :
    (adjustHeap comp v holeIndex len value).Perm (value :: v.eraseIdx holeIndex) := by
  obtain ⟨h1, h2, h3⟩ := adjustHeapLoop_spec comp len len v holeIndex hlen hh
  unfold adjustHeap
  simp only
  split_ifs with hc
  · have hchild : 2 * ((adjustHeapLoop comp len len v holeIndex).2 + 1) - 1 < len := by omega
    refine (pushHeap_perm comp _ _ _ _ _ (by rw [length_moveAt, h1]; omega)).trans ?_
    refine List.Perm.cons value ((eraseIdx_moveAt_perm _ _ _ (by omega) (by omega)).trans h3)
  · exact (pushHeap_perm comp _ _ _ _ _ (by omega)).trans (List.Perm.cons value h3)

theorem adjustHeap_self_perm {α : Type} (comp : α → α → Bool) (v : List α)
    (holeIndex len : Nat) (value : α) (hlen : len ≤ v.length) (hh : holeIndex < len)
    (hv : v[holeIndex]? = some value) : (adjustHeap comp v holeIndex len value).Perm v :=
  (adjustHeap_perm comp v holeIndex len value hlen hh).trans
    (perm_cons_eraseIdx v holeIndex value hv).symm

theorem popHeap_perm {α : Type} (comp : α → α → Bool) (v : List α) (last result : Nat)
    (hpos : 0 < last) (hlen : last ≤ v.length) : (popHeap comp v last result).Perm v := by
  unfold popHeap
  cases hr : v[result]? with
  | none => exact List.Perm.refl _
  | some value =>
    simp only
    have hrl : result < v.length := (List.getElem?_eq_some_iff.1 hr).1
    refine (adjustHeap_perm comp _ 0 last value (by rw [length_moveAt]; exact hlen) hpos).trans ?_
    refine (List.Perm.cons value (eraseIdx_moveAt_perm v result 0 hrl (by omega))).trans ?_
    exact (perm_cons_eraseIdx v result value hr).symm

theorem makeHeapLoop_perm {α : Type} (comp : α → α → Bool) (len parent : Nat) (v : List α)
    (hlen : len = v.length) (hp : parent < len) : (makeHeapLoop comp len parent v).Perm v := by
  induction parent generalizing v with
  | zero =>
    unfold makeHeapLoop
    cases hv : v[0]? with
    | none => exact List.Perm.refl _
    | some value => exact adjustHeap_self_perm comp v 0 len value (by omega) hp hv
  | succ parent ih =>
    unfold makeHeapLoop
    cases hv : v[parent + 1]? with
    | none => exact List.Perm.refl _
    | some value =>
      simp only
      have p := adjustHeap_self_perm comp v (parent + 1) len value (by omega) hp hv
      exact (ih _ (by rw [p.length_eq]; exact hlen) (by omega)).trans p

theorem makeHeap_perm {α : Type} (comp : α → α → Bool) (v : List α) :
    (makeHeap comp v).Perm v := by
  unfold makeHeap
  split_ifs with h
  · exact List.Perm.refl _
  · exact makeHeapLoop_perm comp _ _ v rfl (by omega)

theorem sortHeap_perm {α : Type} (comp : α → α → Bool) (last : Nat) (v : List α)
    (hlen : last ≤ v.length) : (sortHeap comp last v).Perm v := by
  induction last generalizing v with
  | zero => exact List.Perm.refl _
  | succ last ih =>
    unfold sortHeap
    split_ifs with h
    · have p := popHeap_perm comp v last last (by omega) (by omega)
      exact (ih _ (by rw [p.length_eq]; omega)).trans p
    · exact List.Perm.refl _

theorem partialSort_perm {α : Type} (comp : α → α → Bool) (v : List α) :
    (partialSort comp v).Perm v := by
  unfold partialSort
  have p := makeHeap_perm comp v
  exact (sortHeap_perm comp _ _ (by rw [p.length_eq])).trans p

theorem introsortLoop_perm {α : Type} (comp : α → α → Bool) (depth_limit : Nat) (v : List α) :
    (introsortLoop comp depth_limit v).Perm v := by
  induction depth_limit generalizing v with
  | zero =>
    unfold introsortLoop
    split_ifs
    · exact partialSort_perm comp v
    · exact List.Perm.refl _
  | succ depth_limit ih =>
    unfold introsortLoop
    split_ifs
    · refine ((ih _).append (ih _)).trans ?_
      rw [List.take_append_drop]
      exact unguardedPartitionPivot_perm comp v
    · exact List.Perm.refl _

theorem linearInsert_perm {α : Type} (comp : α → α → Bool) (x : α) (rev : List α) :
    (linearInsert comp x rev).Perm (x :: rev) := by
  induction rev with
  | nil => simp [linearInsert]
  | cons y ys ih =>
    unfold linearInsert
    split_ifs
    · exact (List.Perm.cons y ih).trans (List.Perm.swap x y ys)
    · exact List.Perm.refl _

theorem sortInsert_perm {α : Type} (comp : α → α → Bool) (x : α) (l : List α) :
    (sortInsert comp x l).Perm (x :: l) := by
  unfold sortInsert
  cases l with
  | nil => exact List.Perm.refl _
  | cons first rest =>
    simp only
    split_ifs
    · exact List.Perm.refl _
    · refine (List.reverse_perm _).trans ((linearInsert_perm comp x _).trans ?_)
      exact List.Perm.cons x (List.reverse_perm _)

theorem foldl_sortInsert_perm {α : Type} (comp : α → α → Bool) (l sorted : List α) :
    (l.foldl (fun sorted x => sortInsert comp x sorted) sorted).Perm (sorted ++ l) := by
  induction l generalizing sorted with
  | nil => simp
  | cons x xs ih =>
    simp only [List.foldl_cons]
    refine (ih _).trans ?_
    refine (List.Perm.append_right xs (sortInsert_perm comp x sorted)).trans ?_
    exact (List.perm_middle : (sorted ++ x :: xs).Perm (x :: (sorted ++ xs))).symm

theorem insertionSort_perm {α : Type} (comp : α → α → Bool) (l : List α) :
    (insertionSort comp l).Perm l := by
  simpa [insertionSort] using foldl_sortInsert_perm comp l []

theorem unguardedInsertionSort_perm {α : Type} (comp : α → α → Bool) (sorted rest : List α) :
    (unguardedInsertionSort comp sorted rest).Perm (sorted ++ rest) := by
  unfold unguardedInsertionSort
  induction rest generalizing sorted with
  | nil => simp
  | cons x xs ih =>
    simp only [List.foldl_cons]
    refine (ih _).trans ?_
    have p : ((linearInsert comp x sorted.reverse).reverse).Perm (x :: sorted) :=
      (List.reverse_perm _).trans
        ((linearInsert_perm comp x _).trans (List.Perm.cons x (List.reverse_perm _)))
    refine (List.Perm.append_right xs p).trans ?_
    exact (List.perm_middle : (sorted ++ x :: xs).Perm (x :: (sorted ++ xs))).symm

theorem finalInsertionSort_perm {α : Type} (comp : α → α → Bool) (l : List α) :
    (finalInsertionSort comp l).Perm l := by
  unfold finalInsertionSort
  split_ifs
  · refine (unguardedInsertionSort_perm comp _ _).trans ?_
    refine (List.Perm.append_right _ (insertionSort_perm comp _)).trans ?_
    rw [List.take_append_drop]
  · exact insertionSort_perm comp l

theorem stdSort_perm {α : Type} (comp : α → α → Bool) (l : List α) :
    (stdSort comp l).Perm l := by
  unfold stdSort
  cases l with
  | nil => exact List.Perm.refl _
  | cons x xs =>
    simp only
    exact (finalInsertionSort_perm comp _).trans (introsortLoop_perm comp _ _)
theorem mem_stdSort {α : Type} (comp : α → α → Bool) (x : α) (l : List α) :
    x ∈ stdSort comp l ↔ x ∈ l :=
  (stdSort_perm comp l).mem_iff

theorem length_stdSort {α : Type} (comp : α → α → Bool) (l : List α) :
    (stdSort comp l).length = l.length :=
  (stdSort_perm comp l).length_eq

theorem head?_linearInsert {α : Type} (comp : α → α → Bool) (x : α) (rev : List α) :
    ∀ z ∈ (linearInsert comp x rev).head?, z = x ∨ z ∈ rev.head? := by
  intro z hz
  cases rev with
  | nil => simp [linearInsert] at hz; exact Or.inl hz.symm
  | cons y ys =>
    unfold linearInsert at hz
    split_ifs at hz
    · right; simpa using hz
    · left; simp at hz; exact hz.symm

/-- The inner loop keeps neighbours in order when the comparator is
asymmetric; the range is read from its end. -/
theorem chain_linearInsert {α : Type} (comp : α → α → Bool)
    (hasym : ∀ a b, comp a b = true → comp b a = false) (x : α) (rev : List α)
    (h : rev.Chain' (fun a b => comp a b = false)) :
    (linearInsert comp x rev).Chain' (fun a b => comp a b = false) := by
  induction rev with
  | nil => simp [linearInsert]
  | cons y ys ih =>
    rw [List.chain'_cons'] at h
    unfold linearInsert
    split_ifs with hc
    · rw [List.chain'_cons']
      refine ⟨?_, ih h.2⟩
      intro z hz
      rcases head?_linearInsert comp x ys z hz with rfl | hz
      · exact hasym _ _ hc
      · exact h.1 z hz
    · rw [List.chain'_cons']
      refine ⟨?_, List.chain'_cons'.2 h⟩
      intro z hz
      simp only [List.head?_cons, Option.mem_def, Option.some.injEq] at hz
      subst hz
      simpa using hc

/-- An insertion from the end keeps neighbours in order when the comparator is
asymmetric. -/
theorem chain_reverse_linearInsert {α : Type} (comp : α → α → Bool)
    (hasym : ∀ a b, comp a b = true → comp b a = false) (x : α) (l : List α)
    (h : l.Chain' (fun a b => comp b a = false)) :
    ((linearInsert comp x l.reverse).reverse).Chain' (fun a b => comp b a = false) := by
  rw [List.chain'_reverse]
  apply chain_linearInsert comp hasym
  rw [List.chain'_reverse]
  exact h

/-- An insertion keeps neighbours in order when the comparator is asymmetric. -/
theorem chain_sortInsert {α : Type} (comp : α → α → Bool)
    (hasym : ∀ a b, comp a b = true → comp b a = false) (x : α) (l : List α)
    (h : l.Chain' (fun a b => comp b a = false)) :
    (sortInsert comp x l).Chain' (fun a b => comp b a = false) := by
  unfold sortInsert
  cases l with
  | nil => simp
  | cons first rest =>
    simp only
    split_ifs with hc
    · rw [List.chain'_cons']
      refine ⟨?_, h⟩
      intro z hz
      simp only [List.head?_cons, Option.mem_def, Option.some.injEq] at hz
      subst hz
      exact hasym _ _ hc
    · exact chain_reverse_linearInsert comp hasym x _ h

theorem chain_insertionSort {α : Type} (comp : α → α → Bool)
    (hasym : ∀ a b, comp a b = true → comp b a = false) (l : List α) :
    (insertionSort comp l).Chain' (fun a b => comp b a = false) := by
  have key : ∀ (l sorted : List α), sorted.Chain' (fun a b => comp b a = false) →
      (l.foldl (fun sorted x => sortInsert comp x sorted) sorted).Chain'
        (fun a b => comp b a = false) := by
    intro l
    induction l with
    | nil => intro sorted h; simpa using h
    | cons x xs ih =>
      intro sorted h
      simp only [List.foldl_cons]
      exact ih _ (chain_sortInsert comp hasym x sorted h)
  exact key l [] List.chain'_nil

theorem chain_unguardedInsertionSort {α : Type} (comp : α → α → Bool)
    (hasym : ∀ a b, comp a b = true → comp b a = false) (sorted rest : List α)
    (h : sorted.Chain' (fun a b => comp b a = false)) :
    (unguardedInsertionSort comp sorted rest).Chain' (fun a b => comp b a = false) := by
  unfold unguardedInsertionSort
  induction rest generalizing sorted with
  | nil => simpa using h
  | cons x xs ih =>
    simp only [List.foldl_cons]
    exact ih _ (chain_reverse_linearInsert comp hasym x sorted h)

/-- The last pass of the sort puts every two neighbours in order when the
comparator is asymmetric, whatever the passes before it have done. -/
theorem chain_finalInsertionSort {α : Type} (comp : α → α → Bool)
    (hasym : ∀ a b, comp a b = true → comp b a = false) (l : List α) :
    (finalInsertionSort comp l).Chain' (fun a b => comp b a = false) := by
  unfold finalInsertionSort
  split_ifs
  · exact chain_unguardedInsertionSort comp hasym _ _ (chain_insertionSort comp hasym _)
  · exact chain_insertionSort comp hasym l

theorem chain_stdSort {α : Type} (comp : α → α → Bool)
    (hasym : ∀ a b, comp a b = true → comp b a = false) (l : List α) :
    (stdSort comp l).Chain' (fun a b => comp b a = false) := by
  unfold stdSort
  cases l with
  | nil => exact List.chain'_nil
  | cons x xs => exact chain_finalInsertionSort comp hasym _

/-- The model on three ranges of more than 16 documents, with the orders that
the routines of the GNU C++ library (version 12) leave: `std::sort` on 17
documents that the comparator does not tell apart, `std::partial_sort` up to
the end of a range (the heap sort of the introsort loop), and `std::sort` on a
range where the comparator is not transitive. -/
theorem stdSort_samples :
    (stdSort compareDocuments (sampleDocuments (List.replicate 17 (0, 1)))).map Document.id =
      [9, 17, 16, 15, 14, 13, 12, 11, 10, 1, 8, 7, 6, 5, 4, 3, 2] ∧
    (partialSort compareDocuments (sampleDocuments
      [(2, 0), (3, 2), (0, 0), (6, 2), (0, 1), (4, 0), (4, 0), (0, 0), (3, 1), (0, 0), (0, 2),
        (3, 0), (6, 2), (0, 0), (5, 2), (4, 0), (4, 2), (3, 0), (1, 0), (4, 0)])).map
      Document.id =
      [4, 17, 2, 13, 15, 11, 9, 20, 5, 8, 18, 19, 16, 6, 12, 1, 7, 10, 3, 14] ∧
    (stdSort compareDocuments (sampleDocuments
      [(4, 3), (2, 0), (4, 1), (1, 1), (5, 0), (8, 0), (0, 1), (7, 3), (5, 3), (7, 2), (4, 1),
        (2, 1), (1, 2), (8, 3), (5, 3), (4, 0), (1, 3), (2, 2), (2, 3), (6, 0), (1, 2), (5, 2),
        (7, 3), (1, 0)])).map Document.id =
      [14, 1, 23, 19, 15, 8, 9, 22, 10, 6, 18, 13, 11, 12, 5, 17, 7, 4, 3, 20, 21, 24, 16,
        2] := by
  refine ⟨by decide!, by decide!, by decide!⟩

section Compare

variable {R : Type} [LinearOrderedField R]

theorem compareDocuments_asymm (a b : Document R) (h : compareDocuments a b = true) :
    compareDocuments b a = false := by
  unfold compareDocuments at h ⊢
  rw [abs_sub_comm b.relevance a.relevance]
  split_ifs at h ⊢ with hc
  · simp only [gt_iff_lt, decide_eq_true_eq, decide_eq_false_iff_not, not_lt] at h ⊢
    exact le_of_lt h
  · simp only [gt_iff_lt, decide_eq_true_eq, decide_eq_false_iff_not, not_lt] at h ⊢
    exact le_of_lt h

theorem inOrder_of_compare (a b : Document R) (h : compareDocuments b a = false) :
    InOrder a b := by
  unfold compareDocuments at h
  unfold InOrder
  rw [abs_sub_comm b.relevance a.relevance] at h
  split_ifs at h ⊢ with hc
  · simpa using h
  · simp only [gt_iff_lt, decide_eq_false_iff_not, not_lt] at h
    refine lt_of_le_of_ne h ?_
    intro heq
    apply hc
    rw [heq, sub_self, abs_zero]
    norm_num

end Compare

/-! ## Facts about the server -/

namespace SearchServer

variable {R : Type} [LinearOrderedField R]

theorem findTop_eq (ln : ℚ → R) (s : SearchServer) (raw_query : Str)
    (p : Int → DocumentStatus → Int → Bool) :
    FindTopDocuments ln s raw_query p =
      (FindAllDocuments ln s (s.ParseQuery raw_query) p).map
        (fun m => (stdSort compareDocuments m).take MAX_RESULT_DOCUMENT_COUNT) := by
  simp only [FindTopDocuments]
  cases hm : FindAllDocuments ln s (s.ParseQuery raw_query) p with
  | none => rfl
  | some m =>
    simp only [Option.map_some']
    split_ifs with h
    · rfl
    · rw [List.take_of_length_le (not_lt.1 h)]

theorem listed_iff (s : SearchServer) (word : Str) (id : Int) :
    s.listed word id = true ↔
      ∃ freqs, StdMap.find word s.word_to_document_freqs_ = some freqs ∧
        id ∈ StdMap.keys freqs := by
  unfold listed
  cases StdMap.find word s.word_to_document_freqs_ <;> simp

theorem accepts_iff (s : SearchServer) (p : Int → DocumentStatus → Int → Bool) (id : Int) :
    s.accepts p id = true ↔
      ∃ data, StdMap.find id s.documents_ = some data ∧ p id data.status data.rating = true := by
  unfold accepts
  cases StdMap.find id s.documents_ <;> simp

/-! ### The first loop of `FindAllDocuments` -/

theorem accumulateWord_keys (s : SearchServer) (p : Int → DocumentStatus → Int → Bool)
    (idf : R) (freqs : List (Int × ℚ)) (acc acc' : List (Int × R))
    (h : accumulateWord s p idf freqs acc = some acc') (id : Int) :
    id ∈ StdMap.keys acc' ↔
      id ∈ StdMap.keys acc ∨ (id ∈ StdMap.keys freqs ∧ s.accepts p id = true) := by
  induction freqs generalizing acc with
  | nil =>
    simp only [accumulateWord, Option.some.injEq] at h
    subst h
    simp [StdMap.keys]
  | cons e freqs ih =>
    obtain ⟨document_id, term_freq⟩ := e
    unfold accumulateWord at h
    cases hd : StdMap.find document_id s.documents_ with
    | none => simp [hd] at h
    | some data =>
      simp only [hd] at h
      have hacc : s.accepts p document_id = p document_id data.status data.rating := by
        simp [accepts, hd]
      split_ifs at h with hp
      · rw [ih _ h, StdMap.mem_keys_modify]
        simp only [StdMap.keys, List.map_cons, List.mem_cons]
        constructor
        · rintro ((rfl | h1) | ⟨h1, h2⟩)
          · exact Or.inr ⟨Or.inl rfl, by rw [hacc]; exact hp⟩
          · exact Or.inl h1
          · exact Or.inr ⟨Or.inr h1, h2⟩
        · rintro (h1 | ⟨rfl | h1, h2⟩)
          · exact Or.inl (Or.inr h1)
          · exact Or.inl (Or.inl rfl)
          · exact Or.inr ⟨h1, h2⟩
      · rw [ih _ h]
        simp only [StdMap.keys, List.map_cons, List.mem_cons]
        constructor
        · rintro (h1 | ⟨h1, h2⟩)
          · exact Or.inl h1
          · exact Or.inr ⟨Or.inr h1, h2⟩
        · rintro (h1 | ⟨rfl | h1, h2⟩)
          · exact Or.inl h1
          · rw [hacc] at h2; exact absurd h2 hp
          · exact Or.inr ⟨h1, h2⟩

theorem accumulateWord_isSome (s : SearchServer) (p : Int → DocumentStatus → Int → Bool)
    (idf : R) (freqs : List (Int × ℚ)) (acc : List (Int × R))
    (h : ∀ id ∈ StdMap.keys freqs, (StdMap.find id s.documents_).isSome = true) :
    (accumulateWord s p idf freqs acc).isSome = true := by
  induction freqs generalizing acc with
  | nil => simp [accumulateWord]
  | cons e freqs ih =>
    obtain ⟨document_id, term_freq⟩ := e
    have hd := h document_id (by simp [StdMap.keys])
    have hrest : ∀ id ∈ StdMap.keys freqs, (StdMap.find id s.documents_).isSome = true :=
      fun id hid => h id (by simp only [StdMap.keys, List.map_cons]; exact List.mem_cons_of_mem _ hid)
    unfold accumulateWord
    cases hf : StdMap.find document_id s.documents_ with
    | none => simp [hf] at hd
    | some data =>
      simp only
      split_ifs
      · exact ih _ hrest
      · exact ih _ hrest

theorem accumulatePlusWords_cons (ln : ℚ → R) (s : SearchServer)
    (p : Int → DocumentStatus → Int → Bool) (word : Str) (plus_words : List Str)
    (acc : List (Int × R)) :
    accumulatePlusWords ln s p (word :: plus_words) acc =
      match StdMap.find word s.word_to_document_freqs_ with
      | none => accumulatePlusWords ln s p plus_words acc
      | some freqs =>
        (accumulateWord s p
          (ln ((s.GetDocumentCount : ℚ) * 1 / (freqs.length : ℚ))) freqs acc).bind
          (accumulatePlusWords ln s p plus_words) := by
  rw [accumulatePlusWords]
  unfold StdMap.count ComputeWordInverseDocumentFreq
  cases hf : StdMap.find word s.word_to_document_freqs_ with
  | none => simp
  | some freqs =>
    simp only [Option.isSome_some, if_true, one_ne_zero, if_false]
    cases accumulateWord s p (ln ((s.GetDocumentCount : ℚ) * 1 / (freqs.length : ℚ))) freqs acc
      <;> rfl

theorem accumulatePlusWords_keys (ln : ℚ → R) (s : SearchServer)
    (p : Int → DocumentStatus → Int → Bool) (plus_words : List Str)
    (acc acc' : List (Int × R))
    (h : accumulatePlusWords ln s p plus_words acc = some acc') (id : Int) :
    id ∈ StdMap.keys acc' ↔
      id ∈ StdMap.keys acc ∨
        ((∃ word ∈ plus_words, s.listed word id = true) ∧ s.accepts p id = true) := by
  induction plus_words generalizing acc with
  | nil =>
    simp only [accumulatePlusWords, Option.some.injEq] at h
    subst h
    simp
  | cons word plus_words ih =>
    rw [accumulatePlusWords_cons] at h
    cases hf : StdMap.find word s.word_to_document_freqs_ with
    | none =>
      simp only [hf] at h
      rw [ih _ h]
      have hl : s.listed word id = false := by simp [listed, hf]
      simp [hl]
    | some freqs =>
      simp only [hf] at h
      cases hw : accumulateWord s p (ln ((s.GetDocumentCount : ℚ) * 1 / (freqs.length : ℚ)))
          freqs acc with
      | none => rw [hw] at h; exact absurd h (by simp)
      | some acc1 =>
        rw [hw] at h
        simp only [Option.some_bind] at h
        rw [ih _ h, accumulateWord_keys s p _ freqs acc acc1 hw]
        have hl : s.listed word id = true ↔ id ∈ StdMap.keys freqs := by
          simp [listed, hf]
        simp only [List.mem_cons, exists_eq_or_imp, hl]
        tauto

theorem accumulatePlusWords_isSome (ln : ℚ → R) (s : SearchServer) (hs : s.IdsStored)
    (p : Int → DocumentStatus → Int → Bool) (plus_words : List Str) (acc : List (Int × R)) :
    (accumulatePlusWords ln s p plus_words acc).isSome = true := by
  induction plus_words generalizing acc with
  | nil => simp [accumulatePlusWords]
  | cons word plus_words ih =>
    rw [accumulatePlusWords_cons]
    cases hf : StdMap.find word s.word_to_document_freqs_ with
    | none => exact ih _
    | some freqs =>
      simp only
      have hw := accumulateWord_isSome s p
        (ln ((s.GetDocumentCount : ℚ) * 1 / (freqs.length : ℚ))) freqs acc
        (fun id hid => hs word id ((listed_iff s word id).2 ⟨freqs, hf, hid⟩))
      cases hacc : accumulateWord s p (ln ((s.GetDocumentCount : ℚ) * 1 / (freqs.length : ℚ)))
          freqs acc with
      | none => rw [hacc] at hw; exact absurd hw (by simp)
      | some acc1 => simpa using ih acc1

/-! ### The second loop of `FindAllDocuments` -/

theorem foldl_erase_mem (ids : List (Int × ℚ)) (acc : List (Int × R)) (e : Int × R) :
    e ∈ ids.foldl (fun relevances entry => StdMap.erase entry.1 relevances) acc ↔
      e ∈ acc ∧ e.1 ∉ StdMap.keys ids := by
  induction ids generalizing acc with
  | nil => simp [StdMap.keys]
  | cons x xs ih =>
    simp only [List.foldl_cons]
    rw [ih, StdMap.mem_erase]
    simp only [StdMap.keys, List.map_cons, List.mem_cons, not_or]
    tauto

theorem eraseMinusWords_mem (s : SearchServer) (minus_words : List Str)
    (acc : List (Int × R)) (e : Int × R) :
    e ∈ eraseMinusWords s minus_words acc ↔
      e ∈ acc ∧ ∀ word ∈ minus_words, s.listed word e.1 = false := by
  induction minus_words generalizing acc with
  | nil => simp [eraseMinusWords]
  | cons word minus_words ih =>
    unfold eraseMinusWords
    cases hf : StdMap.find word s.word_to_document_freqs_ with
    | none =>
      simp only
      rw [ih]
      have hl : s.listed word e.1 = false := by simp [listed, hf]
      simp [hl]
    | some freqs =>
      simp only
      rw [ih, foldl_erase_mem]
      have hl : s.listed word e.1 = false ↔ e.1 ∉ StdMap.keys freqs := by
        simp [listed, hf]
      simp only [List.mem_cons, forall_eq_or_imp, hl]
      tauto

/-! ### The last loop of `FindAllDocuments` -/

theorem collectDocuments_mem (s : SearchServer) (acc : List (Int × R))
    (docs : List (Document R)) (h : collectDocuments s acc = some docs) (d : Document R) :
    d ∈ docs ↔ (d.id, d.relevance) ∈ acc ∧
      ∃ data, StdMap.find d.id s.documents_ = some data ∧ d.rating = data.rating := by
  induction acc generalizing docs with
  | nil =>
    simp only [collectDocuments, Option.some.injEq] at h
    subst h
    simp
  | cons e acc ih =>
    obtain ⟨document_id, relevance⟩ := e
    unfold collectDocuments at h
    cases hd : StdMap.find document_id s.documents_ with
    | none => simp [hd] at h
    | some data =>
      simp only [hd] at h
      cases hc : collectDocuments s acc with
      | none => simp [hc] at h
      | some rest =>
        simp only [hc, Option.some.injEq] at h
        subst h
        simp only [List.mem_cons, ih rest hc, Prod.mk.injEq]
        constructor
        · rintro (rfl | ⟨h1, h2⟩)
          · exact ⟨Or.inl ⟨rfl, rfl⟩, data, hd, rfl⟩
          · exact ⟨Or.inr h1, h2⟩
        · rintro ⟨⟨h1, h2⟩ | h1, data', h3, h4⟩
          · left
            rw [h1, hd] at h3
            cases d
            simp only [Option.some.injEq] at h3
            subst h3
            simp_all
          · exact Or.inr ⟨h1, data', h3, h4⟩

theorem collectDocuments_isSome (s : SearchServer) (acc : List (Int × R))
    (h : ∀ id ∈ StdMap.keys acc, (StdMap.find id s.documents_).isSome = true) :
    (collectDocuments s acc).isSome = true := by
  induction acc with
  | nil => simp [collectDocuments]
  | cons e acc ih =>
    obtain ⟨document_id, relevance⟩ := e
    have hd := h document_id (by simp [StdMap.keys])
    have hrest := ih (fun id hid =>
      h id (by simp only [StdMap.keys, List.map_cons]; exact List.mem_cons_of_mem _ hid))
    unfold collectDocuments
    cases hf : StdMap.find document_id s.documents_ with
    | none => simp [hf] at hd
    | some data =>
      cases hc : collectDocuments s acc with
      | none => simp [hc] at hrest
      | some rest => simp


/-! ### Reachable states are well formed -/

theorem indexInv_of_wellFormed (s : SearchServer) (hs : s.WellFormed) (id : Int) :
    IndexInv s id s.word_to_document_freqs_ := by
  refine ⟨hs.index_sorted, ?_⟩
  intro word freqs hf
  refine ⟨hs.freqs_sorted word freqs hf, hs.freqs_nonempty word freqs hf, ?_⟩
  intro i hi
  exact Or.inr (hs.ids_stored word i ((listed_iff s word i).2 ⟨freqs, hf, hi⟩))

theorem indexInv_step (s : SearchServer) (id : Int) (inv : ℚ)
    (index : List (Str × List (Int × ℚ))) (h : IndexInv s id index) (w : Str) :
    IndexInv s id
      (StdMap.modify w []
        (fun freqs => StdMap.modify id 0 (fun freq => freq + inv) freqs) index) := by
  obtain ⟨h1, h2⟩ := h
  refine ⟨?_, ?_⟩
  · rw [StdMap.keys_modify]
    exact StdSet.sorted_insert w _ h1
  · intro word freqs hf
    by_cases hw : word = w
    · subst hw
      rw [StdMap.find_modify_self _ _ _ _ h1] at hf
      simp only [Option.some.injEq] at hf
      subst hf
      have hold : (StdMap.keys ((StdMap.find word index).getD [])).Sorted (· < ·) ∧
          ∀ i ∈ StdMap.keys ((StdMap.find word index).getD []),
            i = id ∨ (StdMap.find i s.documents_).isSome = true := by
        cases ho : StdMap.find word index with
        | none => simp [StdMap.keys]
        | some old => exact ⟨(h2 word old ho).1, (h2 word old ho).2.2⟩
      refine ⟨?_, ?_, ?_⟩
      · rw [StdMap.keys_modify]
        exact StdSet.sorted_insert id _ hold.1
      · intro hnil
        have hmem : id ∈ StdMap.keys
            (StdMap.modify id 0 (fun freq => freq + inv) ((StdMap.find word index).getD [])) :=
          (StdMap.mem_keys_modify id id 0 _ _).2 (Or.inl rfl)
        rw [hnil] at hmem
        simp [StdMap.keys] at hmem
      · intro i hi
        rcases (StdMap.mem_keys_modify id i 0 _ _).1 hi with rfl | hi
        · exact Or.inl rfl
        · exact hold.2 i hi
    · rw [StdMap.find_modify_ne hw] at hf
      exact h2 word freqs hf

theorem indexInv_foldl (s : SearchServer) (id : Int) (inv : ℚ) (words : List Str)
    (index : List (Str × List (Int × ℚ))) (h : IndexInv s id index) :
    IndexInv s id
      (words.foldl
        (fun index word =>
          StdMap.modify word []
            (fun freqs => StdMap.modify id 0 (fun freq => freq + inv) freqs) index)
        index) := by
  induction words generalizing index with
  | nil => simpa using h
  | cons w words ih =>
    simp only [List.foldl_cons]
    exact ih _ (indexInv_step s id inv index h w)

theorem wellFormed_fresh : ({} : SearchServer).WellFormed := by
  refine ⟨?_, ?_, ?_, ?_, ?_⟩
  · simp [StdMap.keys]
  · intro word freqs hf; simp [StdMap.find] at hf
  · intro word freqs hf; simp [StdMap.find] at hf
  · simp [StdMap.keys]
  · intro word id h; simp [listed, StdMap.find] at h

theorem wellFormed_setStopWords (s : SearchServer) (text : Str) (hs : s.WellFormed) :
    (s.SetStopWords text).WellFormed :=
  ⟨hs.index_sorted, hs.freqs_sorted, hs.freqs_nonempty, hs.documents_sorted, hs.ids_stored⟩

theorem wellFormed_addDocument (s : SearchServer) (document_id : Int) (document : Str)
    (status : DocumentStatus) (ratings : List Int) (hs : s.WellFormed) :
    (s.AddDocument document_id document status ratings).WellFormed := by
  have hinv := indexInv_foldl s document_id
    (1 / ((s.SplitIntoWordsNoStop document).length : ℚ)) (s.SplitIntoWordsNoStop document)
    s.word_to_document_freqs_ (indexInv_of_wellFormed s hs document_id)
  refine ⟨hinv.1, fun word freqs hf => (hinv.2 word freqs hf).1,
    fun word freqs hf => (hinv.2 word freqs hf).2.1, ?_, ?_⟩
  · show (StdMap.keys (StdMap.emplace document_id _ s.documents_)).Sorted (· < ·)
    rw [StdMap.keys_emplace]
    exact StdSet.sorted_insert _ _ hs.documents_sorted
  · intro word i hl
    obtain ⟨freqs, hf, hi⟩ := (listed_iff _ word i).1 hl
    show (StdMap.find i (StdMap.emplace document_id _ s.documents_)).isSome = true
    by_cases hid : i = document_id
    · subst hid
      exact StdMap.find_emplace_self _ _ _
    · rw [StdMap.find_emplace_ne hid]
      rcases (hinv.2 word freqs hf).2.2 i hi with h | h
      · exact absurd h hid
      · exact h

theorem Reachable.wellFormed {s : SearchServer} (h : Reachable s) : s.WellFormed := by
  induction h with
  | fresh => exact wellFormed_fresh
  | setStopWords s text _ ih => exact wellFormed_setStopWords s text ih
  | addDocument s document_id document status ratings _ ih =>
    exact wellFormed_addDocument s document_id document status ratings ih

/-! ### `FindAllDocuments` and `FindTopDocuments` -/

theorem findAll_isSome (ln : ℚ → R) (s : SearchServer) (hs : s.IdsStored) (query : Query)
    (p : Int → DocumentStatus → Int → Bool) :
    (FindAllDocuments ln s query p).isSome = true := by
  unfold FindAllDocuments
  have h1 := accumulatePlusWords_isSome ln s hs p query.plus_words []
  cases hacc : accumulatePlusWords ln s p query.plus_words [] with
  | none => rw [hacc] at h1; exact absurd h1 (by simp)
  | some acc =>
    simp only
    apply collectDocuments_isSome
    intro id hid
    simp only [StdMap.keys, List.mem_map] at hid
    obtain ⟨e, he, rfl⟩ := hid
    have he' := ((eraseMinusWords_mem s query.minus_words acc e).1 he).1
    have hk : e.1 ∈ StdMap.keys acc := List.mem_map_of_mem Prod.fst he'
    rcases (accumulatePlusWords_keys ln s p query.plus_words [] acc hacc e.1).1 hk with h | h
    · simp [StdMap.keys] at h
    · obtain ⟨data, hd, -⟩ := (accepts_iff s p e.1).1 h.2
      simp [hd]

theorem findTop_isSome (ln : ℚ → R) (s : SearchServer) (hs : Reachable s) (raw_query : Str)
    (p : Int → DocumentStatus → Int → Bool) :
    (FindTopDocuments ln s raw_query p).isSome = true := by
  rw [findTop_eq, Option.isSome_map']
  exact findAll_isSome ln s hs.wellFormed.ids_stored _ p

/-- The candidates are the ids that are listed under a plus word, accepted by
the predicate and listed under no minus word. -/
theorem findAll_mem_ids (ln : ℚ → R) (s : SearchServer) (query : Query)
    (p : Int → DocumentStatus → Int → Bool) (docs : List (Document R))
    (h : FindAllDocuments ln s query p = some docs) (id : Int) :
    id ∈ docs.map Document.id ↔
      (∃ word ∈ query.plus_words, s.listed word id = true) ∧ s.accepts p id = true ∧
        ∀ word ∈ query.minus_words, s.listed word id = false := by
  unfold FindAllDocuments at h
  cases hacc : accumulatePlusWords ln s p query.plus_words [] with
  | none => rw [hacc] at h; exact absurd h (by simp)
  | some acc =>
    rw [hacc] at h
    simp only at h
    have hkeys := accumulatePlusWords_keys ln s p query.plus_words [] acc hacc id
    simp only [StdMap.keys, List.map_nil, List.not_mem_nil, false_or] at hkeys
    constructor
    · intro hid
      obtain ⟨d, hd, rfl⟩ := List.mem_map.1 hid
      obtain ⟨hmem, -⟩ := (collectDocuments_mem s _ docs h d).1 hd
      obtain ⟨hacc', hminus⟩ := (eraseMinusWords_mem s query.minus_words acc _).1 hmem
      have := hkeys.1 (List.mem_map_of_mem Prod.fst hacc')
      exact ⟨this.1, this.2, hminus⟩
    · rintro ⟨hplus, hp, hminus⟩
      obtain ⟨e, he, heid⟩ := List.mem_map.1 (hkeys.2 ⟨hplus, hp⟩)
      obtain ⟨data, hdata, -⟩ := (accepts_iff s p id).1 hp
      have hmem : (id, e.2) ∈ eraseMinusWords s query.minus_words acc := by
        rw [eraseMinusWords_mem]
        refine ⟨?_, hminus⟩
        rw [← heid]
        exact he
      have hd : (⟨id, e.2, data.rating⟩ : Document R) ∈ docs :=
        (collectDocuments_mem s _ docs h _).2 ⟨hmem, data, hdata, rfl⟩
      exact List.mem_map.2 ⟨_, hd, rfl⟩

/-- Every entry of a result carries the rating stored for its id. -/
theorem findAll_rating (ln : ℚ → R) (s : SearchServer) (query : Query)
    (p : Int → DocumentStatus → Int → Bool) (docs : List (Document R))
    (h : FindAllDocuments ln s query p = some docs) (d : Document R) (hd : d ∈ docs) :
    ∃ data, StdMap.find d.id s.documents_ = some data ∧ d.rating = data.rating := by
  unfold FindAllDocuments at h
  cases hacc : accumulatePlusWords ln s p query.plus_words [] with
  | none => rw [hacc] at h; exact absurd h (by simp)
  | some acc =>
    rw [hacc] at h
    exact ((collectDocuments_mem s _ docs h d).1 hd).2

theorem findTop_sub (ln : ℚ → R) (s : SearchServer) (raw_query : Str)
    (p : Int → DocumentStatus → Int → Bool) (l : List (Document R))
    (h : FindTopDocuments ln s raw_query p = some l) :
    ∃ docs, FindAllDocuments ln s (s.ParseQuery raw_query) p = some docs ∧
      l = (stdSort compareDocuments docs).take MAX_RESULT_DOCUMENT_COUNT ∧
      ∀ d ∈ l, d ∈ docs := by
  rw [findTop_eq] at h
  cases hall : FindAllDocuments ln s (s.ParseQuery raw_query) p with
  | none => rw [hall] at h; exact absurd h (by simp)
  | some docs =>
    rw [hall] at h
    simp only [Option.map_some', Option.some.injEq] at h
    refine ⟨docs, rfl, h.symm, ?_⟩
    intro d hd
    rw [← h] at hd
    exact (mem_stdSort compareDocuments d docs).1 (List.mem_of_mem_take hd)

/-! ### `ParseQuery` and `MatchDocument` -/

theorem parseQuery_sorted (s : SearchServer) (text : Str) :
    (s.ParseQuery text).plus_words.Sorted (· < ·) ∧
      (s.ParseQuery text).minus_words.Sorted (· < ·) := by
  unfold ParseQuery
  have key : ∀ (words : List Str) (query : Query),
      query.plus_words.Sorted (· < ·) ∧ query.minus_words.Sorted (· < ·) →
      (words.foldl
        (fun query word =>
          let query_word := s.ParseQueryWord word
          if !query_word.is_stop then
            if query_word.is_minus then
              { query with minus_words := StdSet.insert query_word.data query.minus_words }
            else
              { query with plus_words := StdSet.insert query_word.data query.plus_words }
          else query)
        query).plus_words.Sorted (· < ·) ∧
      (words.foldl
        (fun query word =>
          let query_word := s.ParseQueryWord word
          if !query_word.is_stop then
            if query_word.is_minus then
              { query with minus_words := StdSet.insert query_word.data query.minus_words }
            else
              { query with plus_words := StdSet.insert query_word.data query.plus_words }
          else query)
        query).minus_words.Sorted (· < ·) := by
    intro words
    induction words with
    | nil => intro query h; simpa using h
    | cons w ws ih =>
      intro query h
      simp only [List.foldl_cons]
      apply ih
      split_ifs
      · exact ⟨h.1, StdSet.sorted_insert _ _ h.2⟩
      · exact ⟨StdSet.sorted_insert _ _ h.1, h.2⟩
      · exact h
  exact key _ _ ⟨List.sorted_nil, List.sorted_nil⟩

theorem count_ne_zero_iff (id : Int) (freqs : List (Int × ℚ)) :
    StdMap.count id freqs ≠ 0 ↔ id ∈ StdMap.keys freqs := by
  unfold StdMap.count
  rw [← StdMap.find_isSome_iff]
  split_ifs with h <;> simp [h]

theorem matchPlusWords_eq (s : SearchServer) (id : Int) (plus_words matched : List Str) :
    matchPlusWords s id plus_words matched =
      matched ++ plus_words.filter (fun word => s.listed word id) := by
  induction plus_words generalizing matched with
  | nil => simp [matchPlusWords]
  | cons word plus_words ih =>
    unfold matchPlusWords
    cases hf : StdMap.find word s.word_to_document_freqs_ with
    | none =>
      have hl : s.listed word id = false := by simp [listed, hf]
      simp only [ih, List.filter_cons, hl]
      simp
    | some freqs =>
      simp only
      by_cases hc : id ∈ StdMap.keys freqs
      · have hl : s.listed word id = true := by simp [listed, hf, hc]
        rw [if_pos ((count_ne_zero_iff id freqs).2 hc), ih]
        simp [List.filter_cons, hl]
      · have hl : s.listed word id = false := by simp [listed, hf, hc]
        rw [if_neg (fun h => hc ((count_ne_zero_iff id freqs).1 h)), ih]
        simp [List.filter_cons, hl]

theorem matchMinusWords_hit (s : SearchServer) (id : Int) (minus_words matched : List Str)
    (h : ∃ word ∈ minus_words, s.listed word id = true) :
    matchMinusWords s id minus_words matched = [] := by
  induction minus_words with
  | nil => simp at h
  | cons word minus_words ih =>
    unfold matchMinusWords
    cases hf : StdMap.find word s.word_to_document_freqs_ with
    | none =>
      simp only
      apply ih
      obtain ⟨w, hw, hl⟩ := h
      rcases List.mem_cons.1 hw with rfl | hw
      · simp [listed, hf] at hl
      · exact ⟨w, hw, hl⟩
    | some freqs =>
      simp only
      by_cases hc : id ∈ StdMap.keys freqs
      · rw [if_pos ((count_ne_zero_iff id freqs).2 hc)]
      · rw [if_neg (fun h => hc ((count_ne_zero_iff id freqs).1 h))]
        apply ih
        obtain ⟨w, hw, hl⟩ := h
        rcases List.mem_cons.1 hw with rfl | hw
        · simp [listed, hf, hc] at hl
        · exact ⟨w, hw, hl⟩

theorem matchMinusWords_miss (s : SearchServer) (id : Int) (minus_words matched : List Str)
    (h : ∀ word ∈ minus_words, s.listed word id = false) :
    matchMinusWords s id minus_words matched = matched := by
  induction minus_words with
  | nil => simp [matchMinusWords]
  | cons word minus_words ih =>
    have hw := h word (List.mem_cons_self _ _)
    have hrest := ih (fun w hw => h w (List.mem_cons_of_mem _ hw))
    unfold matchMinusWords
    cases hf : StdMap.find word s.word_to_document_freqs_ with
    | none => exact hrest
    | some freqs =>
      simp only
      have hc : id ∉ StdMap.keys freqs := by
        intro hc
        simp [listed, hf, hc] at hw
      rw [if_neg (fun h => hc ((count_ne_zero_iff id freqs).1 h))]
      exact hrest

/-! ### Stop words and `AddDocument` -/

theorem isStopWord_iff (s : SearchServer) (word : Str) :
    s.IsStopWord word = true ↔ word ∈ s.stop_words_ := by
  unfold IsStopWord StdSet.count
  split_ifs with h <;> simp [h]

theorem isStopWord_setStopWords (s : SearchServer) (text word : Str) :
    (s.SetStopWords text).IsStopWord word = true ↔
      s.IsStopWord word = true ∨ word ∈ SplitIntoWords text := by
  rw [isStopWord_iff, isStopWord_iff]
  exact StdSet.mem_foldl_insert _ _ _

theorem splitIntoWordsNoStop_eq (s : SearchServer) (text : Str) :
    s.SplitIntoWordsNoStop text =
      (SplitIntoWords text).filter (fun word => !s.IsStopWord word) := by
  unfold SplitIntoWordsNoStop
  have key : ∀ (l words : List Str),
      l.foldl (fun words word => if !s.IsStopWord word then words ++ [word] else words) words =
        words ++ l.filter (fun word => !s.IsStopWord word) := by
    intro l
    induction l with
    | nil => intro words; simp
    | cons w ws ih =>
      intro words
      simp only [List.foldl_cons, ih, List.filter_cons]
      split_ifs <;> simp
  simpa using key (SplitIntoWords text) []

theorem find_foldl_modify_of_not_mem (document_id : Int) (inv : ℚ) (words : List Str)
    (index : List (Str × List (Int × ℚ))) (word : Str) (h : word ∉ words) :
    StdMap.find word
      (words.foldl
        (fun index word =>
          StdMap.modify word []
            (fun freqs => StdMap.modify document_id 0 (fun freq => freq + inv) freqs) index)
        index) = StdMap.find word index := by
  induction words generalizing index with
  | nil => rfl
  | cons w ws ih =>
    simp only [List.foldl_cons]
    rw [ih _ (fun hmem => h (List.mem_cons_of_mem _ hmem))]
    exact StdMap.find_modify_ne (fun heq => h (by rw [heq]; exact List.mem_cons_self _ _)) _ _ _

/-! ### The relevance accumulated by `FindAllDocuments` -/

theorem accumulateWord_find (s : SearchServer) (p : Int → DocumentStatus → Int → Bool)
    (idf : R) (freqs : List (Int × ℚ)) (acc acc' : List (Int × R))
    (hfreqs : (StdMap.keys freqs).Nodup) (hacc : (StdMap.keys acc).Sorted (· < ·))
    (h : accumulateWord s p idf freqs acc = some acc') :
    (StdMap.keys acc').Sorted (· < ·) ∧
      ∀ id, (StdMap.find id acc').getD 0 =
        (StdMap.find id acc).getD 0 +
          (if id ∈ StdMap.keys freqs ∧ s.accepts p id = true then
            (((StdMap.find id freqs).getD 0 : ℚ) : R) * idf else 0) := by
  induction freqs generalizing acc with
  | nil =>
    simp only [accumulateWord, Option.some.injEq] at h
    subst h
    exact ⟨hacc, fun id => by simp [StdMap.keys]⟩
  | cons e freqs ih =>
    obtain ⟨document_id, term_freq⟩ := e
    simp only [StdMap.keys, List.map_cons, List.nodup_cons] at hfreqs
    have hnot : document_id ∉ StdMap.keys freqs := hfreqs.1
    unfold accumulateWord at h
    cases hd : StdMap.find document_id s.documents_ with
    | none => rw [hd] at h; exact absurd h (by simp)
    | some data =>
      rw [hd] at h
      simp only at h
      have hacc_id : s.accepts p document_id = p document_id data.status data.rating := by
        simp [accepts, hd]
      have hkeys : ∀ id, id ∈ StdMap.keys ((document_id, term_freq) :: freqs) ↔
          id = document_id ∨ id ∈ StdMap.keys freqs := by
        intro id; simp [StdMap.keys]
      split_ifs at h with hp
      · have hsorted : (StdMap.keys (StdMap.modify document_id 0
            (fun relevance => relevance + (term_freq : R) * idf) acc)).Sorted (· < ·) := by
          rw [StdMap.keys_modify]
          exact StdSet.sorted_insert _ _ hacc
        obtain ⟨h1, h2⟩ := ih _ hfreqs.2 hsorted h
        refine ⟨h1, ?_⟩
        intro id
        rw [h2 id]
        by_cases hid : id = document_id
        · subst hid
          rw [StdMap.find_modify_self _ _ _ _ hacc]
          simp [hkeys, hnot, hacc_id, hp, StdMap.find]
        · rw [StdMap.find_modify_ne hid]
          simp [hkeys, hid, StdMap.find]
      · obtain ⟨h1, h2⟩ := ih _ hfreqs.2 hacc h
        refine ⟨h1, ?_⟩
        intro id
        rw [h2 id]
        by_cases hid : id = document_id
        · subst hid
          simp [hkeys, hnot, hacc_id, hp]
        · simp [hkeys, hid, StdMap.find]

theorem relevanceSum_cons (ln : ℚ → R) (s : SearchServer) (word : Str)
    (plus_words : List Str) (id : Int) :
    relevanceSum ln s (word :: plus_words) id =
      (if s.listed word id = true then
        (s.termFreq word id : R) *
          ln ((s.GetDocumentCount : ℚ) / (s.documentFreq word : ℚ))
       else 0) + relevanceSum ln s plus_words id := by
  unfold relevanceSum
  rw [List.filter_cons]
  split_ifs <;> simp

theorem accumulatePlusWords_find (ln : ℚ → R) (s : SearchServer)
    (hs : ∀ word freqs, StdMap.find word s.word_to_document_freqs_ = some freqs →
      (StdMap.keys freqs).Nodup)
    (p : Int → DocumentStatus → Int → Bool) (plus_words : List Str)
    (acc acc' : List (Int × R)) (hacc : (StdMap.keys acc).Sorted (· < ·))
    (h : accumulatePlusWords ln s p plus_words acc = some acc') :
    (StdMap.keys acc').Sorted (· < ·) ∧
      ∀ id, (StdMap.find id acc').getD 0 =
        (StdMap.find id acc).getD 0 +
          (if s.accepts p id = true then relevanceSum ln s plus_words id else 0) := by
  induction plus_words generalizing acc with
  | nil =>
    simp only [accumulatePlusWords, Option.some.injEq] at h
    subst h
    exact ⟨hacc, fun id => by simp [relevanceSum]⟩
  | cons word plus_words ih =>
    rw [accumulatePlusWords_cons] at h
    cases hf : StdMap.find word s.word_to_document_freqs_ with
    | none =>
      simp only [hf] at h
      obtain ⟨h1, h2⟩ := ih _ hacc h
      refine ⟨h1, ?_⟩
      intro id
      have hl : s.listed word id = false := by simp [listed, hf]
      rw [h2 id, relevanceSum_cons, hl]
      simp
    | some freqs =>
      simp only [hf] at h
      cases hw : accumulateWord s p (ln ((s.GetDocumentCount : ℚ) * 1 / (freqs.length : ℚ)))
          freqs acc with
      | none => rw [hw] at h; exact absurd h (by simp)
      | some acc1 =>
        rw [hw] at h
        simp only [Option.some_bind] at h
        obtain ⟨h1, h2⟩ := accumulateWord_find s p _ freqs acc acc1 (hs word freqs hf) hacc hw
        obtain ⟨h3, h4⟩ := ih _ h1 h
        refine ⟨h3, ?_⟩
        intro id
        rw [h4 id, h2 id, relevanceSum_cons]
        have hl : (s.listed word id = true) ↔ id ∈ StdMap.keys freqs := by
          simp [listed, hf]
        have htf : s.termFreq word id = (StdMap.find id freqs).getD 0 := by
          simp [termFreq, hf]
        have hdf : s.documentFreq word = freqs.length := by
          simp [documentFreq, hf]
        rw [htf, hdf, mul_one]
        by_cases ha : s.accepts p id = true
        · by_cases hk : id ∈ StdMap.keys freqs
          · simp [ha, hk, hl.2 hk, add_assoc]
          · have : ¬ (s.listed word id = true) := fun h => hk (hl.1 h)
            simp [ha, hk, this]
        · simp [ha]

/-- The relevance of every candidate is the sum of the specification. -/
theorem findAll_relevance (ln : ℚ → R) (s : SearchServer) (hs : s.WellFormed) (query : Query)
    (p : Int → DocumentStatus → Int → Bool) (docs : List (Document R))
    (h : FindAllDocuments ln s query p = some docs) (d : Document R) (hd : d ∈ docs) :
    d.relevance = relevanceSum ln s query.plus_words d.id := by
  unfold FindAllDocuments at h
  cases hacc : accumulatePlusWords ln s p query.plus_words [] with
  | none => rw [hacc] at h; exact absurd h (by simp)
  | some acc =>
    rw [hacc] at h
    simp only at h
    obtain ⟨hsorted, hfind⟩ := accumulatePlusWords_find ln s
      (fun word freqs hf => (hs.freqs_sorted word freqs hf).nodup) p query.plus_words [] acc
      (by simp [StdMap.keys]) hacc
    obtain ⟨hmem, -⟩ := (collectDocuments_mem s _ docs h d).1 hd
    have hmem' := ((eraseMinusWords_mem s query.minus_words acc _).1 hmem).1
    have hkey : d.id ∈ StdMap.keys acc := List.mem_map_of_mem Prod.fst hmem'
    have haccepts : s.accepts p d.id = true := by
      rcases (accumulatePlusWords_keys ln s p query.plus_words [] acc hacc d.id).1 hkey with h | h
      · simp [StdMap.keys] at h
      · exact h.2
    have := hfind d.id
    rw [StdMap.find_eq_some_of_mem hsorted.nodup hmem'] at this
    simpa [StdMap.find, haccepts] using this

theorem collectDocuments_ids (s : SearchServer) (acc : List (Int × R))
    (docs : List (Document R)) (h : collectDocuments s acc = some docs) :
    docs.map Document.id = StdMap.keys acc := by
  induction acc generalizing docs with
  | nil =>
    simp only [collectDocuments, Option.some.injEq] at h
    subst h
    rfl
  | cons e acc ih =>
    obtain ⟨document_id, relevance⟩ := e
    unfold collectDocuments at h
    cases hd : StdMap.find document_id s.documents_ with
    | none => rw [hd] at h; exact absurd h (by simp)
    | some data =>
      rw [hd] at h
      cases hc : collectDocuments s acc with
      | none => rw [hc] at h; exact absurd h (by simp)
      | some rest =>
        rw [hc] at h
        simp only [Option.some.injEq] at h
        subst h
        show document_id :: rest.map Document.id = document_id :: StdMap.keys acc
        rw [ih rest hc]

theorem eraseMinusWords_sorted (s : SearchServer) (minus_words : List Str)
    (acc : List (Int × R)) (h : (StdMap.keys acc).Sorted (· < ·)) :
    (StdMap.keys (eraseMinusWords s minus_words acc)).Sorted (· < ·) := by
  induction minus_words generalizing acc with
  | nil => exact h
  | cons word minus_words ih =>
    unfold eraseMinusWords
    cases hf : StdMap.find word s.word_to_document_freqs_ with
    | none => exact ih acc h
    | some freqs =>
      simp only
      apply ih
      have key : ∀ (ids : List (Int × ℚ)) (acc : List (Int × R)),
          (StdMap.keys acc).Sorted (· < ·) →
          (StdMap.keys (ids.foldl (fun relevances entry => StdMap.erase entry.1 relevances)
            acc)).Sorted (· < ·) := by
        intro ids
        induction ids with
        | nil => intro acc h; exact h
        | cons x xs ihx =>
          intro acc h
          simp only [List.foldl_cons]
          exact ihx _ (StdMap.sorted_keys_erase _ _ h)
      exact key freqs acc h

/-- The candidates come in strictly ascending order of their ids. -/
theorem findAll_ids_sorted (ln : ℚ → R) (s : SearchServer) (hs : s.WellFormed) (query : Query)
    (p : Int → DocumentStatus → Int → Bool) (docs : List (Document R))
    (h : FindAllDocuments ln s query p = some docs) :
    (docs.map Document.id).Sorted (· < ·) := by
  unfold FindAllDocuments at h
  cases hacc : accumulatePlusWords ln s p query.plus_words [] with
  | none => rw [hacc] at h; exact absurd h (by simp)
  | some acc =>
    rw [hacc] at h
    simp only at h
    obtain ⟨hsorted, -⟩ := accumulatePlusWords_find ln s
      (fun word freqs hf => (hs.freqs_sorted word freqs hf).nodup) p query.plus_words [] acc
      (by simp [StdMap.keys]) hacc
    rw [collectDocuments_ids s _ docs h]
    exact eraseMinusWords_sorted s _ acc hsorted

end SearchServer

/-! ## The example servers -/

theorem minusWordsServer_reachable : SearchServer.Reachable minusWordsServer :=
  .addDocument _ _ _ _ _ (.addDocument _ _ _ _ _ (.addDocument _ _ _ _ _ .fresh))

theorem sortingServer_reachable : SearchServer.Reachable sortingServer :=
  .addDocument _ _ _ _ _ (.addDocument _ _ _ _ _ (.addDocument _ _ _ _ _
    (.addDocument _ _ _ _ _ (.setStopWords _ _ .fresh))))

theorem take_min_length {α : Type} (n : Nat) (l : List α) :
    l.take n = l.take (min n l.length) := by
  rcases le_total n l.length with h | h
  · rw [min_eq_left h]
  · rw [min_eq_right h, List.take_of_length_le h, List.take_of_length_le le_rfl]

theorem sixCatsServer_reachable : SearchServer.Reachable sixCatsServer :=
  .addDocument _ _ _ _ _ (.addDocument _ _ _ _ _ (.addDocument _ _ _ _ _
    (.addDocument _ _ _ _ _ (.addDocument _ _ _ _ _ (.addDocument _ _ _ _ _ .fresh)))))

theorem relevanceServer_reachable : SearchServer.Reachable relevanceServer :=
  .addDocument _ _ _ _ _ (.addDocument _ _ _ _ _ (.addDocument _ _ _ _ _
    (.addDocument _ _ _ _ _ (.setStopWords _ _ .fresh))))

/-! ## Facts about `SplitIntoWords` -/

theorem splitIntoWordsLoop_eq (text word : Str) (words : List Str) :
    SplitIntoWordsLoop text word words =
      words ++ (((text.splitOn ' ').modifyHead (fun run => word ++ run)).filter
        (fun run => decide (run ≠ []))) := by
  induction text generalizing word words with
  | nil =>
    unfold SplitIntoWordsLoop
    by_cases h : word = [] <;> simp [List.splitOn, List.modifyHead, h]
  | cons c text ih =>
    unfold SplitIntoWordsLoop
    have hne : (text.splitOn ' ') ≠ [] := List.splitOnP_ne_nil _ _
    obtain ⟨head, rest, hsplit⟩ : ∃ head rest, text.splitOn ' ' = head :: rest := by
      cases hs : text.splitOn ' ' with
      | nil => exact absurd hs hne
      | cons head rest => exact ⟨head, rest, rfl⟩
    by_cases hc : c = ' '
    · subst hc
      have hcons : (' ' :: text).splitOn ' ' = [] :: text.splitOn ' ' := by
        simp [List.splitOn]
      rw [hcons]
      by_cases hw : word = []
      · subst hw
        simp only [ne_eq, not_true_eq_false, if_false, if_true]
        rw [ih, hsplit]
        simp [List.modifyHead]
      · simp only [ne_eq, hw, not_false_eq_true, if_true]
        rw [ih, hsplit]
        simp [List.modifyHead, hw]
    · have hcons : (c :: text).splitOn ' ' =
          (text.splitOn ' ').modifyHead (List.cons c) := by
        simp [List.splitOn, hc]
      rw [hcons, if_neg hc, ih, hsplit]
      simp [List.modifyHead]

theorem splitIntoWords_eq_maximalRuns (text : Str) : SplitIntoWords text = maximalRuns text := by
  unfold SplitIntoWords maximalRuns
  rw [splitIntoWordsLoop_eq]
  have hne : (text.splitOn ' ') ≠ [] := List.splitOnP_ne_nil _ _
  cases hs : text.splitOn ' ' with
  | nil => exact absurd hs hne
  | cons head rest => simp [List.modifyHead]

theorem splitIntoWordsLoop_wordlike (text word : Str) (words : List Str)
    (hword : ' ' ∉ word) (hwords : ∀ w ∈ words, w ≠ [] ∧ ' ' ∉ w) :
    ∀ w ∈ SplitIntoWordsLoop text word words, w ≠ [] ∧ ' ' ∉ w := by
  induction text generalizing word words with
  | nil =>
    unfold SplitIntoWordsLoop
    split_ifs with h
    · intro w hw
      rcases List.mem_append.1 hw with hw | hw
      · exact hwords w hw
      · rw [List.mem_singleton] at hw
        subst hw
        exact ⟨h, hword⟩
    · exact hwords
  | cons c text ih =>
    unfold SplitIntoWordsLoop
    split_ifs with hc h
    · apply ih
      · simp
      · intro w hw
        rcases List.mem_append.1 hw with hw | hw
        · exact hwords w hw
        · rw [List.mem_singleton] at hw
          subst hw
          exact ⟨h, hword⟩
    · exact ih _ _ hword hwords
    · apply ih _ _ _ hwords
      intro hmem
      rcases List.mem_append.1 hmem with hmem | hmem
      · exact hword hmem
      · rw [List.mem_singleton] at hmem
        exact hc hmem.symm

theorem splitIntoWordsLoop_flatten (text word : Str) (words : List Str) :
    (SplitIntoWordsLoop text word words).flatten =
      words.flatten ++ word ++ text.filter (fun c => decide (c ≠ ' ')) := by
  induction text generalizing word words with
  | nil =>
    unfold SplitIntoWordsLoop
    split_ifs with h
    · simp
    · have : word = [] := by simpa using h
      simp [this]
  | cons c text ih =>
    unfold SplitIntoWordsLoop
    split_ifs with hc h
    · rw [ih]
      simp [hc]
    · have : word = [] := by simpa using h
      rw [ih]
      simp [hc, this]
    · rw [ih]
      simp [hc]

theorem splitIntoWordsLoop_spaces (text : Str) (words : List Str)
    (h : ∀ c ∈ text, c = ' ') : SplitIntoWordsLoop text [] words = words := by
  induction text with
  | nil => simp [SplitIntoWordsLoop]
  | cons c text ih =>
    unfold SplitIntoWordsLoop
    rw [if_pos (h c (List.mem_cons_self _ _))]
    simp only [ne_eq, not_true_eq_false, if_false]
    exact ih (fun d hd => h d (List.mem_cons_of_mem _ hd))

theorem splitIntoWordsLoop_word (text word : Str) (words : List Str)
    (h : ' ' ∉ text) (hne : word ++ text ≠ []) :
    SplitIntoWordsLoop text word words = words ++ [word ++ text] := by
  induction text generalizing word with
  | nil =>
    unfold SplitIntoWordsLoop
    have : word ≠ [] := by simpa using hne
    simp [this]
  | cons c text ih =>
    unfold SplitIntoWordsLoop
    have hc : c ≠ ' ' := fun hc => h (hc ▸ List.mem_cons_self _ _)
    rw [if_neg hc, ih (word ++ [c]) (fun hm => h (List.mem_cons_of_mem _ hm)) (by simp)]
    simp


theorem statusServer_reachable : SearchServer.Reachable statusServer :=
  .addDocument _ _ _ _ _ (.addDocument _ _ _ _ _ (.addDocument _ _ _ _ _
    (.addDocument _ _ _ _ _ (.setStopWords _ _ .fresh))))

namespace SearchServer

variable {R : Type} [LinearOrderedField R]

/-! ### The sets of `ParseQuery` -/

theorem parseQueryWord_minus (s : SearchServer) (rest : Str) :
    s.ParseQueryWord ('-' :: rest) = ⟨rest, true, s.IsStopWord rest⟩ := by
  simp [ParseQueryWord]

theorem parseQueryWord_plus (s : SearchServer) (text : Str) (h : text.head? ≠ some '-') :
    s.ParseQueryWord text = ⟨text, false, s.IsStopWord text⟩ := by
  unfold ParseQueryWord
  split
  · simp at h
  · rfl

/-- The loop of `ParseQuery` from any starting query. -/
theorem parseQuery_foldl_mem (s : SearchServer) (tokens : List Str) (query : Query) (w : Str) :
    (w ∈ (tokens.foldl
        (fun query word =>
          let query_word := s.ParseQueryWord word
          if !query_word.is_stop then
            if query_word.is_minus then
              { query with minus_words := StdSet.insert query_word.data query.minus_words }
            else
              { query with plus_words := StdSet.insert query_word.data query.plus_words }
          else query)
        query).plus_words ↔
      w ∈ query.plus_words ∨
        (w ∈ tokens ∧ w.head? ≠ some '-' ∧ s.IsStopWord w = false)) ∧
    (w ∈ (tokens.foldl
        (fun query word =>
          let query_word := s.ParseQueryWord word
          if !query_word.is_stop then
            if query_word.is_minus then
              { query with minus_words := StdSet.insert query_word.data query.minus_words }
            else
              { query with plus_words := StdSet.insert query_word.data query.plus_words }
          else query)
        query).minus_words ↔
      w ∈ query.minus_words ∨ (('-' :: w) ∈ tokens ∧ s.IsStopWord w = false)) := by
  induction tokens generalizing query with
  | nil => simp
  | cons t tokens ih =>
    simp only [List.foldl_cons]
    by_cases ht : t.head? = some '-'
    · obtain ⟨rest, rfl⟩ : ∃ rest, t = '-' :: rest := by
        cases t with
        | nil => simp at ht
        | cons c rest =>
          simp only [List.head?_cons, Option.some.injEq] at ht
          exact ⟨rest, by rw [ht]⟩
      rw [parseQueryWord_minus]
      by_cases hstop : s.IsStopWord rest = true
      · simp only [hstop, Bool.not_true, Bool.false_eq_true, if_false]
        rw [(ih query).1, (ih query).2]
        constructor
        · apply or_congr_right
          constructor
          · rintro ⟨h1, h2, h3⟩
            exact ⟨List.mem_cons_of_mem _ h1, h2, h3⟩
          · rintro ⟨h1, h2, h3⟩
            rcases List.mem_cons.1 h1 with rfl | h1
            · simp at h2
            · exact ⟨h1, h2, h3⟩
        · apply or_congr_right
          constructor
          · rintro ⟨h1, h2⟩
            exact ⟨List.mem_cons_of_mem _ h1, h2⟩
          · rintro ⟨h1, h2⟩
            rcases List.mem_cons.1 h1 with heq | h1
            · simp only [List.cons.injEq, true_and] at heq
              rw [heq, hstop] at h2
              exact absurd h2 (by simp)
            · exact ⟨h1, h2⟩
      · have hstop' : s.IsStopWord rest = false := by simpa using hstop
        simp only [hstop', Bool.not_false, if_true]
        rw [(ih _).1, (ih _).2]
        simp only [StdSet.mem_insert]
        constructor
        · apply or_congr_right
          constructor
          · rintro ⟨h1, h2, h3⟩
            exact ⟨List.mem_cons_of_mem _ h1, h2, h3⟩
          · rintro ⟨h1, h2, h3⟩
            rcases List.mem_cons.1 h1 with rfl | h1
            · simp at h2
            · exact ⟨h1, h2, h3⟩
        · constructor
          · rintro ((rfl | h) | ⟨h1, h2⟩)
            · exact Or.inr ⟨List.mem_cons_self _ _, hstop'⟩
            · exact Or.inl h
            · exact Or.inr ⟨List.mem_cons_of_mem _ h1, h2⟩
          · rintro (h | ⟨h1, h2⟩)
            · exact Or.inl (Or.inr h)
            · rcases List.mem_cons.1 h1 with heq | h1
              · simp only [List.cons.injEq, true_and] at heq
                exact Or.inl (Or.inl heq)
              · exact Or.inr ⟨h1, h2⟩
    · rw [parseQueryWord_plus s t ht]
      by_cases hstop : s.IsStopWord t = true
      · simp only [hstop, Bool.not_true, Bool.false_eq_true, if_false]
        rw [(ih query).1, (ih query).2]
        constructor
        · apply or_congr_right
          constructor
          · rintro ⟨h1, h2, h3⟩
            exact ⟨List.mem_cons_of_mem _ h1, h2, h3⟩
          · rintro ⟨h1, h2, h3⟩
            rcases List.mem_cons.1 h1 with rfl | h1
            · rw [hstop] at h3
              exact absurd h3 (by simp)
            · exact ⟨h1, h2, h3⟩
        · apply or_congr_right
          constructor
          · rintro ⟨h1, h2⟩
            exact ⟨List.mem_cons_of_mem _ h1, h2⟩
          · rintro ⟨h1, h2⟩
            rcases List.mem_cons.1 h1 with heq | h1
            · rw [← heq] at ht
              simp at ht
            · exact ⟨h1, h2⟩
      · have hstop' : s.IsStopWord t = false := by simpa using hstop
        simp only [hstop', Bool.not_false, if_true, Bool.false_eq_true, if_false]
        rw [(ih _).1, (ih _).2]
        simp only [StdSet.mem_insert]
        constructor
        · constructor
          · rintro ((rfl | h) | ⟨h1, h2, h3⟩)
            · exact Or.inr ⟨List.mem_cons_self _ _, ht, hstop'⟩
            · exact Or.inl h
            · exact Or.inr ⟨List.mem_cons_of_mem _ h1, h2, h3⟩
          · rintro (h | ⟨h1, h2, h3⟩)
            · exact Or.inl (Or.inr h)
            · rcases List.mem_cons.1 h1 with rfl | h1
              · exact Or.inl (Or.inl rfl)
              · exact Or.inr ⟨h1, h2, h3⟩
        · apply or_congr_right
          constructor
          · rintro ⟨h1, h2⟩
            exact ⟨List.mem_cons_of_mem _ h1, h2⟩
          · rintro ⟨h1, h2⟩
            rcases List.mem_cons.1 h1 with heq | h1
            · rw [← heq] at ht
              simp at ht
            · exact ⟨h1, h2⟩

theorem parseQuery_mem (s : SearchServer) (text w : Str) :
    (w ∈ (s.ParseQuery text).plus_words ↔
      w ∈ SplitIntoWords text ∧ w.head? ≠ some '-' ∧ s.IsStopWord w = false) ∧
    (w ∈ (s.ParseQuery text).minus_words ↔
      ('-' :: w) ∈ SplitIntoWords text ∧ s.IsStopWord w = false) := by
  have h := parseQuery_foldl_mem s (SplitIntoWords text) {} w
  simp only [List.not_mem_nil, false_or] at h
  exact h

end SearchServer

theorem StdSet.insert_of_mem {K : Type} [LinearOrder K] (k : K) (s : List K)
    (hs : s.Sorted (· < ·)) (hk : k ∈ s) : StdSet.insert k s = s := by
  induction s with
  | nil => simp at hk
  | cons x xs ih =>
    have hx := List.rel_of_sorted_cons hs
    unfold StdSet.insert
    split_ifs with h1 h2
    · exfalso
      rcases List.mem_cons.1 hk with rfl | hk
      · exact lt_irrefl _ h1
      · exact lt_asymm h1 (hx k hk)
    · rfl
    · rcases List.mem_cons.1 hk with rfl | hk
      · exact absurd rfl h2
      · rw [ih (List.Sorted.of_cons hs) hk]

theorem StdSet.sorted_foldl_insert {K : Type} [LinearOrder K] (words set : List K)
    (hs : set.Sorted (· < ·)) :
    (words.foldl (fun set word => StdSet.insert word set) set).Sorted (· < ·) := by
  induction words generalizing set with
  | nil => exact hs
  | cons w ws ih => exact ih _ (StdSet.sorted_insert w set hs)

theorem StdSet.foldl_insert_of_mem {K : Type} [LinearOrder K] (words set : List K)
    (hs : set.Sorted (· < ·)) (h : ∀ w ∈ words, w ∈ set) :
    words.foldl (fun set word => StdSet.insert word set) set = set := by
  induction words with
  | nil => rfl
  | cons w ws ih =>
    simp only [List.foldl_cons]
    rw [StdSet.insert_of_mem w set hs (h w (List.mem_cons_self _ _))]
    exact ih (fun x hx => h x (List.mem_cons_of_mem _ hx))

namespace SearchServer

variable {R : Type} [LinearOrderedField R]

/-! ### The stop-word set -/

theorem mem_stop_words_setStopWords (s : SearchServer) (text w : Str) :
    w ∈ (s.SetStopWords text).stop_words_ ↔ w ∈ s.stop_words_ ∨ w ∈ SplitIntoWords text :=
  StdSet.mem_foldl_insert _ _ _

theorem Reachable.stop_words_sorted {s : SearchServer} (h : Reachable s) :
    s.stop_words_.Sorted (· < ·) := by
  induction h with
  | fresh => exact List.sorted_nil
  | setStopWords s text _ ih => exact StdSet.sorted_foldl_insert _ _ ih
  | addDocument s document_id document status ratings _ ih => exact ih

theorem setStopWords_eq_self (t : SearchServer) (text : Str)
    (h : (SplitIntoWords text).foldl (fun set word => StdSet.insert word set) t.stop_words_ =
      t.stop_words_) : t.SetStopWords text = t := by
  cases t
  simp only [SetStopWords] at h ⊢
  rw [h]

theorem setStopWords_twice (s : SearchServer) (text : Str)
    (hs : s.stop_words_.Sorted (· < ·)) :
    (s.SetStopWords text).SetStopWords text = s.SetStopWords text :=
  setStopWords_eq_self _ text
    (StdSet.foldl_insert_of_mem _ _ (StdSet.sorted_foldl_insert _ _ hs)
      (fun w hw => (mem_stop_words_setStopWords s text w).2 (Or.inr hw)))


/-! ### Sequences of calls -/

theorem reachable_runCalls (s : SearchServer) (hs : Reachable s) (calls : List Call) :
    Reachable (runCalls s calls) := by
  induction calls generalizing s with
  | nil => exact hs
  | cons c calls ih =>
    cases c with
    | setStopWords text => exact ih _ (Reachable.setStopWords s text hs)
    | addDocument document_id document status ratings =>
      exact ih _ (Reachable.addDocument s document_id document status ratings hs)

theorem mem_keys_documents_runCalls (s : SearchServer) (calls : List Call) (id : Int) :
    id ∈ StdMap.keys (runCalls s calls).documents_ ↔
      id ∈ StdMap.keys s.documents_ ∨ id ∈ addedIds calls := by
  induction calls generalizing s with
  | nil => simp [runCalls, addedIds]
  | cons c calls ih =>
    cases c with
    | setStopWords text =>
      show id ∈ StdMap.keys (runCalls (s.SetStopWords text) calls).documents_ ↔ _
      rw [ih]
      rfl
    | addDocument document_id document status ratings =>
      show id ∈ StdMap.keys
        (runCalls (s.AddDocument document_id document status ratings) calls).documents_ ↔ _
      rw [ih]
      show id ∈ StdMap.keys (StdMap.emplace document_id _ s.documents_) ∨ _ ↔ _
      rw [StdMap.keys_emplace, StdSet.mem_insert]
      simp only [addedIds, List.mem_cons]
      tauto

theorem length_documents_runCalls (calls : List Call) :
    (runCalls {} calls).documents_.length = (addedIds calls).toFinset.card := by
  have hsorted := (reachable_runCalls {} Reachable.fresh calls).wellFormed.documents_sorted
  have hlen : (runCalls {} calls).documents_.length =
      (StdMap.keys (runCalls {} calls).documents_).length := by
    simp [StdMap.keys]
  rw [hlen, ← List.toFinset_card_of_nodup hsorted.nodup]
  congr 1
  ext id
  rw [List.mem_toFinset, List.mem_toFinset, mem_keys_documents_runCalls]
  simp [StdMap.keys]

end SearchServer

namespace SearchServer

variable {R : Type} [LinearOrderedField R]

/-! ### The frequencies written by `AddDocument` -/

theorem listed_eq_isSome (s : SearchServer) (word : Str) (id : Int) :
    s.listed word id = (s.storedFreq word id).isSome := by
  unfold listed storedFreq indexEntry
  cases StdMap.find word s.word_to_document_freqs_ with
  | none => rfl
  | some freqs =>
    simp only [Option.some_bind]
    rw [Bool.eq_iff_iff, decide_eq_true_eq, StdMap.find_isSome_iff]

theorem termFreq_eq_getD (s : SearchServer) (word : Str) (id : Int) :
    s.termFreq word id = (s.storedFreq word id).getD 0 := by
  unfold termFreq storedFreq indexEntry
  cases StdMap.find word s.word_to_document_freqs_ <;> rfl

theorem indexEntry_step (id : Int) (inv : ℚ) (index : List (Str × List (Int × ℚ)))
    (h1 : (StdMap.keys index).Sorted (· < ·))
    (h2 : ∀ word freqs, StdMap.find word index = some freqs →
      (StdMap.keys freqs).Sorted (· < ·))
    (w t : Str) (i : Int) :
    indexEntry
      (StdMap.modify w []
        (fun freqs => StdMap.modify id 0 (fun freq => freq + inv) freqs) index) t i =
      if t = w ∧ i = id then some ((indexEntry index w id).getD 0 + inv)
      else indexEntry index t i := by
  unfold indexEntry
  by_cases ht : t = w
  · subst ht
    rw [StdMap.find_modify_self _ _ _ _ h1]
    simp only [Option.some_bind, true_and]
    have hold : (StdMap.keys ((StdMap.find t index).getD [])).Sorted (· < ·) := by
      cases ho : StdMap.find t index with
      | none => simp [StdMap.keys]
      | some old => exact h2 t old ho
    by_cases hi : i = id
    · subst hi
      rw [StdMap.find_modify_self _ _ _ _ hold, if_pos rfl]
      cases StdMap.find t index <;> simp [StdMap.find]
    · rw [StdMap.find_modify_ne hi, if_neg hi]
      cases StdMap.find t index <;> simp [StdMap.find]
  · rw [StdMap.find_modify_ne ht]
    simp [ht]

theorem indexEntry_foldl (s : SearchServer) (id : Int) (inv : ℚ) (words : List Str)
    (index : List (Str × List (Int × ℚ))) (h : IndexInv s id index) (t : Str) (i : Int) :
    indexEntry
      (words.foldl
        (fun index word =>
          StdMap.modify word []
            (fun freqs => StdMap.modify id 0 (fun freq => freq + inv) freqs) index)
        index) t i =
      if i = id ∧ t ∈ words then
        some ((indexEntry index t id).getD 0 + (words.count t : ℚ) * inv)
      else indexEntry index t i := by
  induction words generalizing index with
  | nil => simp
  | cons w words ih =>
    simp only [List.foldl_cons]
    rw [ih _ (indexInv_step s id inv index h w)]
    rw [indexEntry_step id inv index h.1 (fun word freqs hf => (h.2 word freqs hf).1),
      indexEntry_step id inv index h.1 (fun word freqs hf => (h.2 word freqs hf).1)]
    by_cases hi : i = id
    · subst hi
      by_cases htw : t = w
      · subst htw
        simp only [and_self, if_true, Option.getD_some, List.count_cons_self,
          List.mem_cons, true_or, true_and, Nat.cast_add, Nat.cast_one]
        by_cases hmem : t ∈ words
        · simp only [hmem, if_true, Option.some.injEq]
          ring
        · simp only [hmem, if_false, List.count_eq_zero_of_not_mem hmem, Nat.cast_zero,
            Option.some.injEq]
          ring
      · have hwt : ¬ w = t := fun h => htw h.symm
        simp only [htw, false_and, if_false, and_true, List.mem_cons, false_or, true_and,
          List.count_cons, beq_iff_eq, hwt, add_zero]
    · simp [hi]

/-- What `AddDocument` writes into the index for its own id and leaves for the
other ids. -/
theorem storedFreq_addDocument (s : SearchServer) (hs : s.WellFormed) (document_id : Int)
    (document : Str) (status : DocumentStatus) (ratings : List Int) (t : Str) (i : Int) :
    (s.AddDocument document_id document status ratings).storedFreq t i =
      if i = document_id ∧ t ∈ s.SplitIntoWordsNoStop document then
        some ((s.storedFreq t document_id).getD 0 +
          ((s.SplitIntoWordsNoStop document).count t : ℚ) *
            (1 / ((s.SplitIntoWordsNoStop document).length : ℚ)))
      else s.storedFreq t i :=
  indexEntry_foldl s document_id _ _ _ (indexInv_of_wellFormed s hs document_id) t i

theorem storedFreq_of_not_stored (s : SearchServer) (hs : s.WellFormed) (id : Int)
    (hnew : StdMap.find id s.documents_ = none) (t : Str) : s.storedFreq t id = none := by
  cases h : s.storedFreq t id with
  | none => rfl
  | some q =>
    have hl : s.listed t id = true := by rw [listed_eq_isSome, h]; rfl
    have := hs.ids_stored t id hl
    rw [hnew] at this
    exact absurd this (by simp)

end SearchServer

theorem sortingServer_distinct : SearchServer.ReachableDistinct sortingServer :=
  .addDocument _ _ _ _ _ (.addDocument _ _ _ _ _ (.addDocument _ _ _ _ _
    (.addDocument _ _ _ _ _ (.setStopWords _ _ .fresh) (by decide)) (by decide)) (by decide))
    (by decide)

namespace SearchServer

variable {R : Type} [LinearOrderedField R]

/-! ### The sum of the frequencies of a document -/

theorem rowFreq_modify (id i : Int) (inv : ℚ) (freqs : List (Int × ℚ))
    (h : (StdMap.keys freqs).Sorted (· < ·)) :
    (StdMap.find i (StdMap.modify id 0 (fun freq => freq + inv) freqs)).getD 0 =
      (StdMap.find i freqs).getD 0 + (if i = id then inv else 0) := by
  by_cases hi : i = id
  · subst hi
    rw [StdMap.find_modify_self _ _ _ _ h]
    simp
  · rw [StdMap.find_modify_ne hi]
    simp [hi]

theorem indexTotal_cons (e : Str × List (Int × ℚ)) (index : List (Str × List (Int × ℚ)))
    (i : Int) : indexTotal (e :: index) i = (StdMap.find i e.2).getD 0 + indexTotal index i := by
  simp [indexTotal]

theorem indexTotal_step (id i : Int) (inv : ℚ) (index : List (Str × List (Int × ℚ)))
    (h : ∀ e ∈ index, (StdMap.keys e.2).Sorted (· < ·)) (w : Str) :
    indexTotal
      (StdMap.modify w []
        (fun freqs => StdMap.modify id 0 (fun freq => freq + inv) freqs) index) i =
      indexTotal index i + (if i = id then inv else 0) := by
  have hnew : (StdMap.find i (StdMap.modify id 0 (fun freq => freq + inv) [])).getD 0 =
      (if i = id then inv else 0) := by
    rw [rowFreq_modify id i inv [] (by simp [StdMap.keys])]
    simp [StdMap.find]
  generalize (if i = id then inv else 0) = δ at hnew ⊢
  induction index with
  | nil =>
    show indexTotal [(w, StdMap.modify id 0 (fun freq => freq + inv) [])] i = _
    rw [indexTotal_cons, hnew]
    simp [indexTotal]
  | cons e index ih =>
    obtain ⟨k, v⟩ := e
    have hv : (StdMap.keys v).Sorted (· < ·) := h (k, v) (List.mem_cons_self _ _)
    have hrest : ∀ e ∈ index, (StdMap.keys e.2).Sorted (· < ·) :=
      fun e he => h e (List.mem_cons_of_mem _ he)
    unfold StdMap.modify
    by_cases h1 : w < k
    · rw [if_pos h1, indexTotal_cons, hnew]
      ring
    · rw [if_neg h1]
      by_cases h2 : w = k
      · rw [if_pos h2, indexTotal_cons, indexTotal_cons]
        show (StdMap.find i (StdMap.modify id 0 (fun freq => freq + inv) v)).getD 0 + _ = _
        have hrow := rowFreq_modify id i inv v hv
        have hnew' := rowFreq_modify id i inv [] (by simp [StdMap.keys])
        rw [hnew] at hnew'
        simp only [StdMap.find, Option.getD_none, zero_add] at hnew'
        rw [hrow, ← hnew']
        ring
      · rw [if_neg h2, indexTotal_cons, indexTotal_cons, ih hrest]
        ring

theorem rows_sorted_of_indexInv (s : SearchServer) (id : Int)
    (index : List (Str × List (Int × ℚ))) (h : IndexInv s id index) :
    ∀ e ∈ index, (StdMap.keys e.2).Sorted (· < ·) := by
  intro e he
  have hf : StdMap.find e.1 index = some e.2 :=
    StdMap.find_eq_some_of_mem h.1.nodup (by simpa using he)
  exact (h.2 e.1 e.2 hf).1

theorem indexTotal_foldl (s : SearchServer) (id i : Int) (inv : ℚ) (words : List Str)
    (index : List (Str × List (Int × ℚ))) (h : IndexInv s id index) :
    indexTotal
      (words.foldl
        (fun index word =>
          StdMap.modify word []
            (fun freqs => StdMap.modify id 0 (fun freq => freq + inv) freqs) index)
        index) i =
      indexTotal index i + (if i = id then (words.length : ℚ) * inv else 0) := by
  induction words generalizing index with
  | nil => simp
  | cons w words ih =>
    simp only [List.foldl_cons]
    rw [ih _ (indexInv_step s id inv index h w),
      indexTotal_step id i inv index (rows_sorted_of_indexInv s id index h) w]
    split_ifs
    · simp only [List.length_cons, Nat.cast_add, Nat.cast_one]
      ring
    · ring

theorem totalFreq_addDocument (s : SearchServer) (hs : s.WellFormed) (document_id : Int)
    (document : Str) (status : DocumentStatus) (ratings : List Int) (i : Int) :
    (s.AddDocument document_id document status ratings).totalFreq i =
      s.totalFreq i +
        (if i = document_id then
          ((s.SplitIntoWordsNoStop document).length : ℚ) *
            (1 / ((s.SplitIntoWordsNoStop document).length : ℚ))
        else 0) :=
  indexTotal_foldl s document_id i _ _ _ (indexInv_of_wellFormed s hs document_id)

theorem totalFreq_of_not_listed (s : SearchServer) (hs : s.WellFormed) (id : Int)
    (h : ∀ word, s.listed word id = false) : s.totalFreq id = 0 := by
  unfold totalFreq indexTotal
  apply List.sum_eq_zero
  intro x hx
  obtain ⟨e, he, rfl⟩ := List.mem_map.1 hx
  have hf : StdMap.find e.1 s.word_to_document_freqs_ = some e.2 :=
    StdMap.find_eq_some_of_mem hs.index_sorted.nodup (by simpa using he)
  have hl := h e.1
  unfold listed at hl
  rw [hf] at hl
  have hnot : id ∉ StdMap.keys e.2 := by simpa using hl
  rw [(StdMap.find_eq_none_iff id e.2).2 hnot]
  rfl

theorem ReachableDistinct.reachable {s : SearchServer} (h : ReachableDistinct s) :
    Reachable s := by
  induction h with
  | fresh => exact Reachable.fresh
  | setStopWords s text _ ih => exact Reachable.setStopWords s text ih
  | addDocument s document_id document status ratings _ _ ih =>
    exact Reachable.addDocument s document_id document status ratings ih

end SearchServer

theorem StdMap.find_emplace_of_isSome {K V : Type} [LinearOrder K] (k k' : K) (v' : V)
    (m : List (K × V)) (hm : (StdMap.keys m).Sorted (· < ·))
    (h : (StdMap.find k m).isSome = true) :
    StdMap.find k (StdMap.emplace k' v' m) = StdMap.find k m := by
  by_cases hk : k = k'
  · subst hk
    induction m with
    | nil => simp [StdMap.find] at h
    | cons e m ih =>
      obtain ⟨x, v⟩ := e
      have hx : ∀ b ∈ StdMap.keys m, x < b := List.rel_of_sorted_cons hm
      unfold StdMap.emplace
      by_cases h1 : k < x
      · exfalso
        rw [StdMap.find_isSome_iff] at h
        rcases List.mem_cons.1 h with heq | hmem
        · exact (ne_of_lt h1) heq
        · exact lt_asymm h1 (hx k hmem)
      · rw [if_neg h1]
        by_cases h2 : k = x
        · rw [if_pos h2]
        · rw [if_neg h2]
          simp only [StdMap.find, h2, if_false] at h ⊢
          exact ih (List.Sorted.of_cons hm) h
  · exact StdMap.find_emplace_ne hk v' m

theorem eq_of_sorted_of_mem_iff {l₁ l₂ : List Int} (h₁ : l₁.Sorted (· < ·))
    (h₂ : l₂.Sorted (· < ·)) (h : ∀ x, x ∈ l₁ ↔ x ∈ l₂) : l₁ = l₂ :=
  List.eq_of_perm_of_sorted ((List.perm_ext_iff_of_nodup h₁.nodup h₂.nodup).2 h) h₁ h₂

theorem splitIntoWords_token (w : Str) (hne : w ≠ []) (hsp : ' ' ∉ w) :
    SplitIntoWords w = [w] := by
  unfold SplitIntoWords
  rw [splitIntoWordsLoop_word w [] [] hsp (by simpa using hne)]
  simp

namespace SearchServer

variable {R : Type} [LinearOrderedField R]

/-! ### A document and its own words -/

theorem parseQuery_token (s : SearchServer) (w : Str) (hne : w ≠ []) (hsp : ' ' ∉ w)
    (hminus : w.head? ≠ some '-') (hstop : s.IsStopWord w = false) :
    s.ParseQuery w = ⟨[w], []⟩ := by
  unfold ParseQuery
  rw [splitIntoWords_token w hne hsp]
  simp only [List.foldl_cons, List.foldl_nil]
  rw [parseQueryWord_plus s w hminus]
  simp [hstop, StdSet.insert]

theorem mem_stop_words_applyCall (s : SearchServer) (c : Call) (w : Str)
    (h : w ∈ s.stop_words_) : w ∈ (applyCall s c).stop_words_ := by
  cases c with
  | setStopWords text => exact (mem_stop_words_setStopWords s text w).2 (Or.inl h)
  | addDocument document_id document status ratings => exact h

theorem mem_stop_words_runCalls (s : SearchServer) (calls : List Call) (w : Str)
    (h : w ∈ s.stop_words_) : w ∈ (runCalls s calls).stop_words_ := by
  induction calls generalizing s with
  | nil => exact h
  | cons c calls ih => exact ih _ (mem_stop_words_applyCall s c w h)

theorem stop_words_nil_of_runCalls (s : SearchServer) (calls : List Call)
    (h : (runCalls s calls).stop_words_ = []) : s.stop_words_ = [] := by
  cases hs : s.stop_words_ with
  | nil => rfl
  | cons w ws =>
    have := mem_stop_words_runCalls s calls w (by rw [hs]; exact List.mem_cons_self _ _)
    rw [h] at this
    simp at this

/-- Later calls keep the entries of the index and the stored metadata. -/
theorem stored_runCalls (s : SearchServer) (hs : Reachable s) (calls : List Call)
    (word : Str) (id : Int) (data : DocumentData)
    (hl : s.listed word id = true) (hd : StdMap.find id s.documents_ = some data) :
    (runCalls s calls).listed word id = true ∧
      StdMap.find id (runCalls s calls).documents_ = some data := by
  induction calls generalizing s with
  | nil => exact ⟨hl, hd⟩
  | cons c calls ih =>
    cases c with
    | setStopWords text =>
      exact ih (s.SetStopWords text) (Reachable.setStopWords s text hs) hl hd
    | addDocument document_id document status ratings =>
      apply ih (s.AddDocument document_id document status ratings)
        (Reachable.addDocument s document_id document status ratings hs)
      · rw [listed_eq_isSome, storedFreq_addDocument s hs.wellFormed]
        split_ifs
        · rfl
        · rw [← listed_eq_isSome]; exact hl
      · show StdMap.find id (StdMap.emplace document_id _ s.documents_) = some data
        rw [StdMap.find_emplace_of_isSome _ _ _ _ hs.wellFormed.documents_sorted
          (by rw [hd]; rfl)]
        exact hd

theorem mem_listedIds (s : SearchServer) (word : Str) (id : Int) :
    id ∈ s.listedIds word ↔ s.listed word id = true := by
  unfold listedIds listed
  cases StdMap.find word s.word_to_document_freqs_ <;> simp

theorem listedIds_sorted (s : SearchServer) (hs : s.WellFormed) (word : Str) :
    (s.listedIds word).Sorted (· < ·) := by
  unfold listedIds
  cases hf : StdMap.find word s.word_to_document_freqs_ with
  | none => exact List.sorted_nil
  | some freqs => exact hs.freqs_sorted word freqs hf

/-- The candidates of a query of one plus word. -/
theorem findAll_single_word (ln : ℚ → R) (s : SearchServer) (hs : s.WellFormed) (w : Str)
    (p : Int → DocumentStatus → Int → Bool) (docs : List (Document R))
    (h : FindAllDocuments ln s ⟨[w], []⟩ p = some docs) :
    docs.map Document.id = (s.listedIds w).filter (fun id => s.accepts p id) := by
  apply eq_of_sorted_of_mem_iff (findAll_ids_sorted ln s hs _ p docs h)
    ((listedIds_sorted s hs w).filter _)
  intro id
  rw [findAll_mem_ids ln s _ p docs h id, List.mem_filter, mem_listedIds]
  simp

end SearchServer

namespace SearchServer

variable {R : Type} [LinearOrderedField R]

/-! ### A word that every document holds -/

theorem documentFreq_eq_length (s : SearchServer) (hs : s.WellFormed) (w : Str)
    (hpos : s.documents_ ≠ [])
    (hall : ∀ id ∈ StdMap.keys s.documents_, s.listed w id = true) :
    s.documentFreq w = s.documents_.length ∧
      ∃ freqs, StdMap.find w s.word_to_document_freqs_ = some freqs ∧
        freqs.length = s.documents_.length := by
  have hids : s.listedIds w = StdMap.keys s.documents_ := by
    apply eq_of_sorted_of_mem_iff (listedIds_sorted s hs w) hs.documents_sorted
    intro id
    rw [mem_listedIds]
    constructor
    · intro hl
      exact (StdMap.find_isSome_iff id s.documents_).1 (hs.ids_stored w id hl)
    · exact hall id
  have hlen : (s.listedIds w).length = s.documents_.length := by
    rw [hids]
    simp [StdMap.keys]
  cases hf : StdMap.find w s.word_to_document_freqs_ with
  | none =>
    exfalso
    rw [listedIds, hf, List.length_nil] at hlen
    exact hpos (List.length_eq_zero.1 hlen.symm)
  | some freqs =>
    have hfl : freqs.length = s.documents_.length := by
      rw [listedIds, hf] at hlen
      simpa [StdMap.keys] using hlen
    exact ⟨by rw [documentFreq, hf]; exact hfl, freqs, rfl, hfl⟩

theorem getDocumentCount_eq_length (s : SearchServer)
    (hN : s.documents_.length < 2147483648) :
    s.GetDocumentCount = (s.documents_.length : Int) := by
  unfold GetDocumentCount static_cast_int
  exact wrapInt_of_range _ (by omega) (by omega)

end SearchServer

theorem StdMap.emplace_of_mem {K V : Type} [LinearOrder K] (k : K) (v : V) (m : List (K × V))
    (hm : (StdMap.keys m).Sorted (· < ·)) (hk : k ∈ StdMap.keys m) :
    StdMap.emplace k v m = m := by
  induction m with
  | nil => simp [StdMap.keys] at hk
  | cons e m ih =>
    obtain ⟨k', v'⟩ := e
    have hm' : ((k' :: StdMap.keys m).Sorted (· < ·)) := hm
    rw [List.sorted_cons] at hm'
    unfold StdMap.emplace
    have hk' : k = k' ∨ k ∈ StdMap.keys m := by
      simpa [StdMap.keys] using hk
    by_cases heq : k = k'
    · rw [if_neg (by rw [heq]; exact lt_irrefl _), if_pos heq]
    · have hmem : k ∈ StdMap.keys m := hk'.resolve_left heq
      have hlt : k' < k := hm'.1 k hmem
      rw [if_neg (not_lt.2 hlt.le), if_neg heq, ih hm'.2 hmem]

theorem StdMap.length_emplace_new {K V : Type} [LinearOrder K] (k : K) (v : V)
    (m : List (K × V)) (hk : StdMap.find k m = none) :
    (StdMap.emplace k v m).length = m.length + 1 := by
  induction m with
  | nil => rfl
  | cons e m ih =>
    obtain ⟨k', v'⟩ := e
    unfold StdMap.find at hk
    unfold StdMap.emplace
    by_cases heq : k = k'
    · rw [if_pos heq] at hk
      exact absurd hk (by simp)
    · rw [if_neg heq] at hk
      by_cases hlt : k < k'
      · rw [if_pos hlt]
        rfl
      · rw [if_neg hlt, if_neg heq, List.length_cons, ih hk]
        rfl

theorem mem_splitIntoWords_ne_nil (text w : Str) (hw : w ∈ SplitIntoWords text) : w ≠ [] :=
  (splitIntoWordsLoop_wordlike text [] [] (by simp) (by simp) w hw).1

theorem compareDocuments_of_tied {R : Type} [LinearOrderedField R] (a b : Document R)
    (h : tied a b) : compareDocuments a b = decide (a.rating > b.rating) := by
  unfold tied at h
  unfold compareDocuments
  rw [if_pos h]

theorem compareDocuments_of_not_tied {R : Type} [LinearOrderedField R] (a b : Document R)
    (h : ¬ tied a b) : compareDocuments a b = decide (a.relevance > b.relevance) := by
  unfold tied at h
  unfold compareDocuments
  rw [if_neg h]

theorem compareDocuments_irrefl {R : Type} [LinearOrderedField R] (a : Document R) :
    compareDocuments a a = false := by
  cases h : compareDocuments a a with
  | false => rfl
  | true => rw [compareDocuments_asymm a a h] at h; exact absurd h (by simp)

namespace SearchServer

variable {R : Type} [LinearOrderedField R]

/-! ### Queries without plus words -/

theorem eraseMinusWords_nil (s : SearchServer) (minus_words : List Str) :
    eraseMinusWords s minus_words ([] : List (Int × R)) = [] := by
  apply List.eq_nil_iff_forall_not_mem.2
  intro e he
  have := ((eraseMinusWords_mem s minus_words [] e).1 he).1
  simp at this

theorem findAll_no_plus_words (ln : ℚ → R) (s : SearchServer) (query : Query)
    (h : query.plus_words = []) (p : Int → DocumentStatus → Int → Bool) :
    FindAllDocuments ln s query p = some [] := by
  unfold FindAllDocuments
  rw [h]
  simp only [accumulatePlusWords]
  rw [eraseMinusWords_nil]
  rfl

theorem splitIntoWordsNoStop_eq_nil (s : SearchServer) (text : Str) :
    s.SplitIntoWordsNoStop text = [] ↔ ∀ w ∈ SplitIntoWords text, s.IsStopWord w = true := by
  rw [splitIntoWordsNoStop_eq, List.filter_eq_nil_iff]
  constructor
  · intro h w hw
    simpa using h w hw
  · intro h w hw
    simpa using h w hw

theorem listed_eq_true_iff (s : SearchServer) (word : Str) (id : Int) :
    s.listed word id = true ↔
      ∃ freqs, StdMap.find word s.word_to_document_freqs_ = some freqs ∧
        id ∈ StdMap.keys freqs := by
  unfold listed
  cases StdMap.find word s.word_to_document_freqs_ with
  | none => simp
  | some freqs => simp

theorem Reachable.nil_not_stop_word {s : SearchServer} (h : Reachable s) :
    ([] : Str) ∉ s.stop_words_ := by
  induction h with
  | fresh => simp
  | setStopWords s text _ ih =>
    rw [mem_stop_words_setStopWords]
    rintro (hmem | hmem)
    · exact ih hmem
    · exact mem_splitIntoWords_ne_nil text [] hmem rfl
  | addDocument s document_id document status ratings _ ih => exact ih

theorem Reachable.nil_not_indexed {s : SearchServer} (h : Reachable s) :
    StdMap.find ([] : Str) s.word_to_document_freqs_ = none := by
  induction h with
  | fresh => rfl
  | setStopWords s text _ ih => exact ih
  | addDocument s document_id document status ratings _ ih =>
    show StdMap.find ([] : Str) (List.foldl _ s.word_to_document_freqs_
      (s.SplitIntoWordsNoStop document)) = none
    rw [find_foldl_modify_of_not_mem, ih]
    rw [splitIntoWordsNoStop_eq]
    intro hmem
    exact mem_splitIntoWords_ne_nil document [] (List.mem_filter.1 hmem).1 rfl

theorem Reachable.storedFreq_pos {s : SearchServer} (h : Reachable s) (t : Str) (i : Int)
    (q : ℚ) (hq : s.storedFreq t i = some q) : 0 < q := by
  induction h generalizing t i q with
  | fresh => exact absurd hq (by simp [storedFreq, indexEntry, StdMap.find])
  | setStopWords s text _ ih => exact ih t i q hq
  | addDocument s document_id document status ratings hs ih =>
    rw [storedFreq_addDocument s hs.wellFormed] at hq
    by_cases hc : i = document_id ∧ t ∈ s.SplitIntoWordsNoStop document
    · rw [if_pos hc] at hq
      have hq' := Option.some.inj hq
      have hold : 0 ≤ (s.storedFreq t document_id).getD 0 := by
        cases hst : s.storedFreq t document_id with
        | none => exact le_refl _
        | some q₀ => exact (ih t document_id q₀ hst).le
      have hcount : 0 < ((s.SplitIntoWordsNoStop document).count t : ℚ) := by
        exact_mod_cast List.count_pos_iff.2 hc.2
      have hlen : 0 < ((s.SplitIntoWordsNoStop document).length : ℚ) := by
        exact_mod_cast List.length_pos_of_mem hc.2
      have hinv : 0 < 1 / ((s.SplitIntoWordsNoStop document).length : ℚ) :=
        one_div_pos.2 hlen
      rw [← hq']
      have := mul_pos hcount hinv
      linarith
    · rw [if_neg hc] at hq
      exact ih t i q hq

theorem length_freqs_le (s : SearchServer) (hs : s.WellFormed) (word : Str)
    (freqs : List (Int × ℚ)) (hf : StdMap.find word s.word_to_document_freqs_ = some freqs) :
    1 ≤ freqs.length ∧ freqs.length ≤ s.documents_.length := by
  constructor
  · exact List.length_pos.2 (hs.freqs_nonempty word freqs hf)
  · have hnodup : (StdMap.keys freqs).Nodup := (hs.freqs_sorted word freqs hf).nodup
    have hsub : StdMap.keys freqs ⊆ StdMap.keys s.documents_ := by
      intro id hid
      have hl : s.listed word id = true := by
        unfold listed
        rw [hf]
        exact decide_eq_true hid
      exact (StdMap.find_isSome_iff _ _).1 (hs.ids_stored word id hl)
    have hle := (List.subperm_of_subset hnodup hsub).length_le
    simpa [StdMap.keys] using hle

theorem ratio_ge_one (s : SearchServer) (hs : s.WellFormed)
    (hN : s.documents_.length < 2147483648) (word : Str)
    (freqs : List (Int × ℚ)) (hf : StdMap.find word s.word_to_document_freqs_ = some freqs) :
    1 ≤ (s.GetDocumentCount : ℚ) / (freqs.length : ℚ) := by
  obtain ⟨h1, h2⟩ := length_freqs_le s hs word freqs hf
  rw [getDocumentCount_eq_length s hN, Int.cast_natCast]
  have hpos : (0 : ℚ) < (freqs.length : ℚ) := by exact_mod_cast h1
  rw [le_div_iff₀ hpos, one_mul]
  exact_mod_cast h2

theorem relevanceSum_nonneg (ln : ℚ → R) (hln : ∀ x : ℚ, 1 ≤ x → 0 ≤ ln x)
    (s : SearchServer) (hs : Reachable s) (hN : s.documents_.length < 2147483648)
    (plus_words : List Str) (id : Int) : 0 ≤ relevanceSum ln s plus_words id := by
  unfold relevanceSum
  apply List.sum_nonneg
  intro x hx
  obtain ⟨word, hword, rfl⟩ := List.mem_map.1 hx
  have hl : s.listed word id = true := (List.mem_filter.1 hword).2
  have htf : (0 : ℚ) ≤ s.termFreq word id := by
    rw [termFreq_eq_getD]
    cases hst : s.storedFreq word id with
    | none => exact le_refl _
    | some q => exact (hs.storedFreq_pos word id q hst).le
  have hidf : 0 ≤ ln ((s.GetDocumentCount : ℚ) / (s.documentFreq word : ℚ)) := by
    apply hln
    unfold listed at hl
    unfold documentFreq
    cases hf : StdMap.find word s.word_to_document_freqs_ with
    | none => rw [hf] at hl; exact absurd hl (by simp)
    | some freqs => exact ratio_ge_one s hs.wellFormed hN word freqs hf
  exact mul_nonneg (by exact_mod_cast htf) hidf

end SearchServer

theorem tiedServer_reachable : SearchServer.Reachable tiedServer :=
  SearchServer.reachable_runCalls {} SearchServer.Reachable.fresh _

theorem ratedServer_reachable : SearchServer.Reachable ratedServer :=
  SearchServer.reachable_runCalls {} SearchServer.Reachable.fresh _

/-! ## The claims -/

namespace SearchServer

variable {R : Type} [LinearOrderedField R]

/-- C1, as the code has it: for an id that is not stored yet, the rating
computed by `ComputeAverageRating`, stored by `AddDocument` and reported in the
entries of `FindTopDocuments` is `0` for no ratings and otherwise the sum of the
ratings divided by their number, truncated toward zero, when the sum and the
number of ratings fit in an `int`; a negative mean that is no integer is
rounded up. -/
theorem rating_is_truncated_mean (s : SearchServer) (document_id : Int) (document : Str)
    (status : DocumentStatus) (ratings : List Int)
    (hnew : StdMap.find document_id s.documents_ = none)
    (hlen : ratings.length < 2147483648)
    (hsum : -2147483648 ≤ ratings.sum ∧ ratings.sum < 2147483648) :
    ComputeAverageRating ratings = truncatedMean ratings ∧
    (ratings = [] → truncatedMean ratings = 0) ∧
    (ratings ≠ [] → truncatedMean ratings = Int.tdiv ratings.sum (ratings.length : Int)) ∧
    StdMap.find document_id (s.AddDocument document_id document status ratings).documents_ =
      some ⟨truncatedMean ratings, status⟩ ∧
    (∀ (F : Type) [LinearOrderedField F] (ln : ℚ → F) (raw_query : Str)
      (p : Int → DocumentStatus → Int → Bool) (l : List (Document F)),
      FindTopDocuments ln (s.AddDocument document_id document status ratings) raw_query p =
        some l →
      ∀ d ∈ l, d.id = document_id → d.rating = truncatedMean ratings) ∧
    ComputeAverageRating [2, -5, -4, 6, 3] = 0 ∧ ComputeAverageRating [7, -9, -4] = -2 ∧
    ComputeAverageRating [7, -9, -5] = -2 := by
  have hstored : StdMap.find document_id
      (s.AddDocument document_id document status ratings).documents_ =
      some ⟨truncatedMean ratings, status⟩ := by
    show StdMap.find document_id (StdMap.emplace document_id _ s.documents_) = _
    rw [StdMap.find_emplace_new _ _ _ hnew, computeAverageRating_eq ratings hlen hsum]
  refine ⟨computeAverageRating_eq ratings hlen hsum, ?_, ?_, hstored, ?_, by decide, by decide,
    by decide⟩
  · intro h; simp [truncatedMean, h]
  · intro h; simp [truncatedMean, h]
  · intro F _ ln raw_query p l hl d hd hid
    obtain ⟨docs, hall, -, hsub⟩ := findTop_sub ln _ raw_query p l hl
    obtain ⟨data, hdata, hr⟩ := findAll_rating ln _ _ p docs hall d (hsub d hd)
    rw [hid, hstored] at hdata
    simp only [Option.some.injEq] at hdata
    rw [hr, ← hdata]

theorem rating_is_truncated_mean_witness :
    StdMap.find 1 ({} : SearchServer).documents_ = none ∧
    ([7, -9, -5] : List Int).length < 2147483648 ∧
    ((-2147483648 : Int) ≤ ([7, -9, -5] : List Int).sum ∧
      ([7, -9, -5] : List Int).sum < 2147483648) ∧
    ComputeAverageRating [7, -9, -5] = -2 ∧
    StdMap.find 1
      (({} : SearchServer).AddDocument 1 "grey hound".toList DocumentStatus.ACTUAL
        [7, -9, -5]).documents_ = some ⟨-2, DocumentStatus.ACTUAL⟩ :=
  ⟨by decide, by decide, by decide,
    (rating_is_truncated_mean ({} : SearchServer) 1 "grey hound".toList DocumentStatus.ACTUAL
      [7, -9, -5] (by decide) (by decide) (by decide)).1,
    (rating_is_truncated_mean ({} : SearchServer) 1 "grey hound".toList DocumentStatus.ACTUAL
      [7, -9, -5] (by decide) (by decide) (by decide)).2.2.2.1⟩

/-- C1 as stated fails when the id is already stored: after
`AddDocument(1, "dog", BANNED, {1})` the call `AddDocument(1, "cat", ACTUAL, {5})`
leaves the stored rating `1`, and `FindTopDocuments` reports the rating `1` for
the document, not the mean `5` of the ratings handed in. -/
theorem rating_of_stored_id_is_kept :
    duplicateIdServer =
      (({} : SearchServer).AddDocument 1 "dog".toList DocumentStatus.BANNED [1]).AddDocument 1
        "cat".toList DocumentStatus.ACTUAL [5] ∧
    ([5] : List Int).sum = 5 ∧ truncatedMean [5] = 5 ∧ ComputeAverageRating [5] = 5 ∧
    StdMap.find 1 duplicateIdServer.documents_ = some ⟨1, DocumentStatus.BANNED⟩ ∧
    FindTopDocuments sampleLn duplicateIdServer "cat".toList (fun _ _ _ => true) =
      some [⟨1, 0, 1⟩] := by
  refine ⟨rfl, by decide, by decide, by decide, by decide, by decide!⟩

/-- C2: `FindTopDocuments` returns in every reachable state, and in the list
it returns every entry `a` and the entry `b` right behind it satisfy: if
`|a.relevance - b.relevance| < 1e-6` then `a.rating ≥ b.rating`, otherwise
`a.relevance > b.relevance`. The last pass of the sort inserts every candidate
from the end of the range before it, which puts neighbours in order for a
comparator that is asymmetric; this holds for every number of candidates. -/
theorem findTopDocuments_sorted (ln : ℚ → R) (s : SearchServer) (raw_query : Str)
    (p : Int → DocumentStatus → Int → Bool) :
    (Reachable s → (FindTopDocuments ln s raw_query p).isSome = true) ∧
    ∀ l, FindTopDocuments ln s raw_query p = some l →
      l.Chain' (fun a b =>
        if |a.relevance - b.relevance| < 1 / 1000000 then a.rating ≥ b.rating
        else a.relevance > b.relevance) := by
  refine ⟨fun hs => findTop_isSome ln s hs raw_query p, ?_⟩
  intro l hl
  obtain ⟨docs, -, rfl, -⟩ := findTop_sub ln s raw_query p l hl
  have h := (chain_stdSort compareDocuments compareDocuments_asymm docs).take
    MAX_RESULT_DOCUMENT_COUNT
  exact h.imp (fun a b hab => inOrder_of_compare a b hab)

theorem findTopDocuments_sorted_witness :
    Reachable sortingServer ∧
    FindTopDocuments sampleLn sortingServer "white cat long tail grey".toList actualOnly =
      some [⟨5, 1, 2⟩, ⟨38, 1 / 2, 3⟩, ⟨1, 3 / 7, 8⟩, ⟨0, 1 / 8, 0⟩] ∧
    (FindTopDocuments sampleLn sortingServer "white cat long tail grey".toList
      actualOnly).isSome = true ∧
    ([⟨5, 1, 2⟩, ⟨38, 1 / 2, 3⟩, ⟨1, 3 / 7, 8⟩, ⟨0, 1 / 8, 0⟩] : List (Document ℚ)).Chain'
      (fun a b =>
        if |a.relevance - b.relevance| < 1 / 1000000 then a.rating ≥ b.rating
        else a.relevance > b.relevance) ∧
    FindTopDocuments sampleLn ratedServer "cat".toList actualOnly =
      some [⟨14, 0, 4⟩, ⟨4, 0, 4⟩, ⟨9, 0, 4⟩, ⟨3, 0, 3⟩, ⟨13, 0, 3⟩] ∧
    ([⟨14, 0, 4⟩, ⟨4, 0, 4⟩, ⟨9, 0, 4⟩, ⟨3, 0, 3⟩, ⟨13, 0, 3⟩] : List (Document ℚ)).Chain'
      (fun a b =>
        if |a.relevance - b.relevance| < 1 / 1000000 then a.rating ≥ b.rating
        else a.relevance > b.relevance) :=
  ⟨sortingServer_reachable, by decide!,
    (findTopDocuments_sorted sampleLn sortingServer "white cat long tail grey".toList
      actualOnly).1 sortingServer_reachable,
    (findTopDocuments_sorted sampleLn sortingServer "white cat long tail grey".toList
      actualOnly).2 _ (by decide!),
    by decide!,
    (findTopDocuments_sorted sampleLn ratedServer "cat".toList actualOnly).2 _ (by decide!)⟩

/-- C3: `FindTopDocuments` returns in every reachable state, and the list it
returns has at most `MAX_RESULT_DOCUMENT_COUNT = 5` entries: with `docs` the
candidates of `FindAllDocuments`, its length is `min 5 docs.length` and it is
the first `min 5 docs.length` entries of the candidates as `std::sort` leaves
them. -/
theorem findTopDocuments_length (ln : ℚ → R) (s : SearchServer) (raw_query : Str)
    (p : Int → DocumentStatus → Int → Bool) :
    (Reachable s → (FindTopDocuments ln s raw_query p).isSome = true) ∧
    ∀ l, FindTopDocuments ln s raw_query p = some l →
      MAX_RESULT_DOCUMENT_COUNT = 5 ∧ l.length ≤ 5 ∧
      ∃ docs, FindAllDocuments ln s (s.ParseQuery raw_query) p = some docs ∧
        l.length = min 5 docs.length ∧
        l = (stdSort compareDocuments docs).take (min 5 docs.length) := by
  refine ⟨fun hs => findTop_isSome ln s hs raw_query p, ?_⟩
  intro l hl
  obtain ⟨docs, hall, rfl, -⟩ := findTop_sub ln s raw_query p l hl
  have hlen : ((stdSort compareDocuments docs).take MAX_RESULT_DOCUMENT_COUNT).length =
      min 5 docs.length := by
    rw [List.length_take, length_stdSort]
    rfl
  refine ⟨rfl, ?_, docs, hall, hlen, ?_⟩
  · rw [hlen]; exact min_le_left _ _
  · have h := take_min_length 5 (stdSort compareDocuments docs)
    rw [length_stdSort] at h
    exact h

theorem findTopDocuments_length_witness :
    Reachable sixCatsServer ∧
    FindTopDocuments sampleLn sixCatsServer "cat dog".toList actualOnly =
      some [⟨2, 5 / 2, 9⟩, ⟨4, 0, 7⟩, ⟨6, 0, 5⟩, ⟨1, 0, 4⟩, ⟨5, 0, 3⟩] ∧
    FindAllDocuments sampleLn sixCatsServer (sixCatsServer.ParseQuery "cat dog".toList)
      actualOnly =
      some [⟨1, 0, 4⟩, ⟨2, 5 / 2, 9⟩, ⟨3, 0, 1⟩, ⟨4, 0, 7⟩, ⟨5, 0, 3⟩, ⟨6, 0, 5⟩] ∧
    (FindTopDocuments sampleLn sixCatsServer "cat dog".toList actualOnly).isSome = true ∧
    (MAX_RESULT_DOCUMENT_COUNT = 5 ∧
      ([⟨2, 5 / 2, 9⟩, ⟨4, 0, 7⟩, ⟨6, 0, 5⟩, ⟨1, 0, 4⟩, ⟨5, 0, 3⟩] :
        List (Document ℚ)).length ≤ 5 ∧
      ∃ docs, FindAllDocuments sampleLn sixCatsServer
          (sixCatsServer.ParseQuery "cat dog".toList) actualOnly = some docs ∧
        ([⟨2, 5 / 2, 9⟩, ⟨4, 0, 7⟩, ⟨6, 0, 5⟩, ⟨1, 0, 4⟩, ⟨5, 0, 3⟩] :
          List (Document ℚ)).length = min 5 docs.length ∧
        [⟨2, 5 / 2, 9⟩, ⟨4, 0, 7⟩, ⟨6, 0, 5⟩, ⟨1, 0, 4⟩, ⟨5, 0, 3⟩] =
          (stdSort compareDocuments docs).take (min 5 docs.length)) ∧
    Reachable tiedServer ∧
    (FindAllDocuments sampleLn tiedServer (tiedServer.ParseQuery "cat".toList)
      actualOnly).map List.length = some 17 ∧
    FindTopDocuments sampleLn tiedServer "cat".toList actualOnly =
      some [⟨9, 0, 1⟩, ⟨17, 0, 1⟩, ⟨16, 0, 1⟩, ⟨15, 0, 1⟩, ⟨14, 0, 1⟩] ∧
    (∃ docs, FindAllDocuments sampleLn tiedServer (tiedServer.ParseQuery "cat".toList)
        actualOnly = some docs ∧
      ([⟨9, 0, 1⟩, ⟨17, 0, 1⟩, ⟨16, 0, 1⟩, ⟨15, 0, 1⟩, ⟨14, 0, 1⟩] :
        List (Document ℚ)).length = min 5 docs.length ∧
      [⟨9, 0, 1⟩, ⟨17, 0, 1⟩, ⟨16, 0, 1⟩, ⟨15, 0, 1⟩, ⟨14, 0, 1⟩] =
        (stdSort compareDocuments docs).take (min 5 docs.length)) :=
  ⟨sixCatsServer_reachable, by decide!, by decide!,
    (findTopDocuments_length sampleLn sixCatsServer "cat dog".toList actualOnly).1
      sixCatsServer_reachable,
    (findTopDocuments_length sampleLn sixCatsServer "cat dog".toList actualOnly).2 _
      (by decide!),
    tiedServer_reachable, by decide!, by decide!,
    ((findTopDocuments_length sampleLn tiedServer "cat".toList actualOnly).2 _
      (by decide!)).2.2⟩

/-- C4: `FindTopDocuments` returns in every reachable state, and no entry of
the list it returns has an id that the inverted index lists under a minus word
of the parsed query. -/
theorem findTopDocuments_excludes_minus_words (ln : ℚ → R) (s : SearchServer)
    (raw_query : Str) (p : Int → DocumentStatus → Int → Bool) :
    (Reachable s → (FindTopDocuments ln s raw_query p).isSome = true) ∧
    ∀ l, FindTopDocuments ln s raw_query p = some l →
      ∀ word ∈ (s.ParseQuery raw_query).minus_words, ∀ id, s.listed word id = true →
        ∀ d ∈ l, d.id ≠ id := by
  refine ⟨fun hs => findTop_isSome ln s hs raw_query p, ?_⟩
  intro l hl word hword id hlisted d hd hid
  obtain ⟨docs, hall, -, hsub⟩ := findTop_sub ln s raw_query p l hl
  have hmem : d.id ∈ docs.map Document.id := List.mem_map_of_mem Document.id (hsub d hd)
  have := ((findAll_mem_ids ln s _ p docs hall d.id).1 hmem).2.2 word hword
  rw [hid, hlisted] at this
  exact absurd this (by simp)

theorem findTopDocuments_excludes_minus_words_witness :
    Reachable minusWordsServer ∧
    FindTopDocuments sampleLn minusWordsServer "dog -cat".toList actualOnly =
      some [⟨3, 2 / 9, 2⟩] ∧
    "cat".toList ∈ (minusWordsServer.ParseQuery "dog -cat".toList).minus_words ∧
    minusWordsServer.listed "cat".toList 38 = true ∧
    (FindTopDocuments sampleLn minusWordsServer "dog -cat".toList actualOnly).isSome = true ∧
    ∀ d ∈ ([⟨3, 2 / 9, 2⟩] : List (Document ℚ)), d.id ≠ 38 :=
  ⟨minusWordsServer_reachable, by decide!, by decide, by decide,
    (findTopDocuments_excludes_minus_words sampleLn minusWordsServer "dog -cat".toList
      actualOnly).1 minusWordsServer_reachable,
    (findTopDocuments_excludes_minus_words sampleLn minusWordsServer "dog -cat".toList
      actualOnly).2 _ (by decide!) "cat".toList (by decide) 38 (by decide)⟩

/-- C5: for a stored document that the inverted index lists under a minus word
of the parsed query, `MatchDocument` returns the empty word list and the status
stored for the id. -/
theorem matchDocument_minus_word (s : SearchServer) (raw_query : Str) (document_id : Int)
    (data : DocumentData) (hstored : StdMap.find document_id s.documents_ = some data)
    (hminus : ∃ word ∈ (s.ParseQuery raw_query).minus_words,
      s.listed word document_id = true) :
    MatchDocument s raw_query document_id = some ([], data.status) := by
  unfold MatchDocument
  simp only [hstored]
  rw [matchMinusWords_hit s document_id _ _ hminus]

theorem matchDocument_minus_word_witness :
    StdMap.find 1 minusWordsServer.documents_ = some ⟨1, DocumentStatus.ACTUAL⟩ ∧
    (∃ word ∈ (minusWordsServer.ParseQuery "cat playing -with".toList).minus_words,
      minusWordsServer.listed word 1 = true) ∧
    MatchDocument minusWordsServer "cat playing -with".toList 1 =
      some ([], DocumentStatus.ACTUAL) :=
  ⟨by decide, ⟨"with".toList, by decide, by decide⟩,
    matchDocument_minus_word minusWordsServer "cat playing -with".toList 1
      ⟨1, DocumentStatus.ACTUAL⟩ (by decide) ⟨"with".toList, by decide, by decide⟩⟩

/-- C6: for a stored document that the inverted index lists under no minus
word of the parsed query, `MatchDocument` returns the status stored for the id
and a word list that holds exactly the plus words under which the document is
listed, each once and in strictly ascending order, the order of strings being
the lexicographic order of their characters. -/
theorem matchDocument_plus_words (s : SearchServer) (raw_query : Str) (document_id : Int)
    (data : DocumentData) (hstored : StdMap.find document_id s.documents_ = some data)
    (hminus : ∀ word ∈ (s.ParseQuery raw_query).minus_words,
      s.listed word document_id = false) :
    ∃ words, MatchDocument s raw_query document_id = some (words, data.status) ∧
      (∀ word, word ∈ words ↔
        word ∈ (s.ParseQuery raw_query).plus_words ∧ s.listed word document_id = true) ∧
      words.Nodup ∧ words.Sorted (· < ·) ∧
      ∀ a b : Str, a < b ↔ List.Lex (fun c d : Char => c < d) a b := by
  refine ⟨(s.ParseQuery raw_query).plus_words.filter (fun word => s.listed word document_id),
    ?_, ?_, ?_, ?_, fun _ _ => Iff.rfl⟩
  · unfold MatchDocument
    simp only [hstored]
    rw [matchMinusWords_miss s document_id _ _ hminus, matchPlusWords_eq]
    simp
  · intro word
    simp [List.mem_filter]
  · exact ((parseQuery_sorted s raw_query).1.nodup).filter _
  · exact (parseQuery_sorted s raw_query).1.filter _

theorem matchDocument_plus_words_witness :
    StdMap.find 3 minusWordsServer.documents_ = some ⟨2, DocumentStatus.ACTUAL⟩ ∧
    (∀ word ∈ (minusWordsServer.ParseQuery "wolf the cat dog wolf -city".toList).minus_words,
      minusWordsServer.listed word 3 = false) ∧
    MatchDocument minusWordsServer "wolf the cat dog wolf -city".toList 3 =
      some (["dog".toList, "the".toList, "wolf".toList], DocumentStatus.ACTUAL) ∧
    ∃ words, MatchDocument minusWordsServer "wolf the cat dog wolf -city".toList 3 =
        some (words, DocumentStatus.ACTUAL) ∧
      (∀ word, word ∈ words ↔
        word ∈ (minusWordsServer.ParseQuery "wolf the cat dog wolf -city".toList).plus_words ∧
          minusWordsServer.listed word 3 = true) ∧
      words.Nodup ∧ words.Sorted (· < ·) ∧
      ∀ a b : Str, a < b ↔ List.Lex (fun c d : Char => c < d) a b :=
  ⟨by decide, by decide, by decide,
    matchDocument_plus_words minusWordsServer "wolf the cat dog wolf -city".toList 3
      ⟨2, DocumentStatus.ACTUAL⟩ (by decide) (by decide)⟩

/-- C7: `AddDocument` leaves the inverted-index entry of every stop word as it
was, so a stop word lists the same documents as before, and none at all when
the index was empty; every token handed to `SetStopWords` is such a stop
word. -/
theorem addDocument_skips_stop_words (s : SearchServer) (document_id : Int) (document : Str)
    (status : DocumentStatus) (ratings : List Int) (W : Str)
    (hW : s.IsStopWord W = true) :
    StdMap.find W (s.AddDocument document_id document status ratings).word_to_document_freqs_ =
      StdMap.find W s.word_to_document_freqs_ ∧
    (∀ id, (s.AddDocument document_id document status ratings).listed W id = s.listed W id) ∧
    (s.word_to_document_freqs_ = [] →
      ∀ id, (s.AddDocument document_id document status ratings).listed W id = false) ∧
    (∀ (s₀ : SearchServer) (text : Str), s = s₀.SetStopWords text →
      ∀ word ∈ SplitIntoWords text, s.IsStopWord word = true) := by
  have hfind : StdMap.find W
      (s.AddDocument document_id document status ratings).word_to_document_freqs_ =
      StdMap.find W s.word_to_document_freqs_ := by
    show StdMap.find W (List.foldl _ _ _) = _
    apply find_foldl_modify_of_not_mem
    rw [splitIntoWordsNoStop_eq]
    intro hmem
    have := (List.mem_filter.1 hmem).2
    simp [hW] at this
  have hlisted : ∀ id,
      (s.AddDocument document_id document status ratings).listed W id = s.listed W id := by
    intro id
    unfold listed
    rw [hfind]
  refine ⟨hfind, hlisted, ?_, ?_⟩
  · intro hempty id
    rw [hlisted]
    simp [listed, hempty, StdMap.find]
  · rintro s₀ text rfl word hword
    exact (isStopWord_setStopWords s₀ text word).2 (Or.inr hword)

theorem addDocument_skips_stop_words_witness :
    (({} : SearchServer).SetStopWords "in the".toList).IsStopWord "in".toList = true ∧
    StdMap.find "in".toList
      ((({} : SearchServer).SetStopWords "in the".toList).AddDocument 42
        "cat in the city".toList DocumentStatus.ACTUAL [1, 2, 3]).word_to_document_freqs_ =
      none ∧
    (∀ id, ((({} : SearchServer).SetStopWords "in the".toList).AddDocument 42
        "cat in the city".toList DocumentStatus.ACTUAL [1, 2, 3]).listed "in".toList id =
      false) ∧
    FindTopDocuments sampleLn
      ((({} : SearchServer).SetStopWords "in the".toList).AddDocument 42
        "cat in the city".toList DocumentStatus.ACTUAL [1, 2, 3]) "in".toList actualOnly =
      some [] ∧
    FindTopDocuments sampleLn
      (({} : SearchServer).AddDocument 42
        "cat in the city".toList DocumentStatus.ACTUAL [1, 2, 3]) "in".toList actualOnly =
      some [⟨42, 0, 2⟩] :=
  ⟨by decide,
    (addDocument_skips_stop_words (({} : SearchServer).SetStopWords "in the".toList) 42
      "cat in the city".toList DocumentStatus.ACTUAL [1, 2, 3] "in".toList (by decide)).1,
    (addDocument_skips_stop_words (({} : SearchServer).SetStopWords "in the".toList) 42
      "cat in the city".toList DocumentStatus.ACTUAL [1, 2, 3] "in".toList (by decide)).2.2.1
      rfl,
    by decide!, by decide!⟩

/-- C8: `FindAllDocuments` returns in every reachable state, and an id is among
the candidates it returns if and only if the id is listed under at least one
plus word, the predicate holds on the id with its stored status and rating, and
the id is listed under no minus word; with at most 5 candidates these are also
the ids of the `FindTopDocuments` result. -/
theorem findAllDocuments_candidates (ln : ℚ → R) (s : SearchServer) (query : Query)
    (p : Int → DocumentStatus → Int → Bool) :
    (Reachable s → (FindAllDocuments ln s query p).isSome = true) ∧
    ∀ docs, FindAllDocuments ln s query p = some docs →
      (∀ id, id ∈ docs.map Document.id ↔
        (∃ word ∈ query.plus_words, s.listed word id = true) ∧
        (∃ data, StdMap.find id s.documents_ = some data ∧
          p id data.status data.rating = true) ∧
        ∀ word ∈ query.minus_words, s.listed word id = false) ∧
      (docs.length ≤ 5 → ∀ raw_query, s.ParseQuery raw_query = query →
        ∃ l, FindTopDocuments ln s raw_query p = some l ∧
          ∀ id, id ∈ l.map Document.id ↔ id ∈ docs.map Document.id) := by
  refine ⟨fun hs => findAll_isSome ln s hs.wellFormed.ids_stored query p, ?_⟩
  intro docs hdocs
  refine ⟨?_, ?_⟩
  · intro id
    rw [findAll_mem_ids ln s query p docs hdocs id, accepts_iff]
  · intro hlen raw_query hq
    refine ⟨stdSort compareDocuments docs, ?_, ?_⟩
    · rw [findTop_eq, hq, hdocs]
      simp only [Option.map_some', Option.some.injEq]
      apply List.take_of_length_le
      rw [length_stdSort]
      exact hlen
    · intro id
      exact ((stdSort_perm compareDocuments docs).map Document.id).mem_iff

theorem findAllDocuments_candidates_witness :
    Reachable minusWordsServer ∧
    FindAllDocuments sampleLn minusWordsServer
      (minusWordsServer.ParseQuery "city wolf cat of is".toList) actualOnly =
      some [⟨1, 1 / 4, 1⟩, ⟨3, 2 / 3, 2⟩, ⟨38, 5 / 8, 3⟩] ∧
    minusWordsServer.listed "wolf".toList 38 = false ∧
    (FindAllDocuments sampleLn minusWordsServer
      (minusWordsServer.ParseQuery "city wolf cat of is".toList) actualOnly).isSome = true ∧
    ((∀ id, id ∈ ([⟨1, 1 / 4, 1⟩, ⟨3, 2 / 3, 2⟩, ⟨38, 5 / 8, 3⟩] : List (Document ℚ)).map
          Document.id ↔
        (∃ word ∈ (minusWordsServer.ParseQuery "city wolf cat of is".toList).plus_words,
          minusWordsServer.listed word id = true) ∧
        (∃ data, StdMap.find id minusWordsServer.documents_ = some data ∧
          actualOnly id data.status data.rating = true) ∧
        ∀ word ∈ (minusWordsServer.ParseQuery "city wolf cat of is".toList).minus_words,
          minusWordsServer.listed word id = false) ∧
      (([⟨1, 1 / 4, 1⟩, ⟨3, 2 / 3, 2⟩, ⟨38, 5 / 8, 3⟩] : List (Document ℚ)).length ≤ 5 →
        ∀ raw_query, minusWordsServer.ParseQuery raw_query =
            minusWordsServer.ParseQuery "city wolf cat of is".toList →
          ∃ l, FindTopDocuments sampleLn minusWordsServer raw_query actualOnly = some l ∧
            ∀ id, id ∈ l.map Document.id ↔
              id ∈ ([⟨1, 1 / 4, 1⟩, ⟨3, 2 / 3, 2⟩, ⟨38, 5 / 8, 3⟩] :
                List (Document ℚ)).map Document.id)) :=
  ⟨minusWordsServer_reachable, by decide!, by decide,
    (findAllDocuments_candidates sampleLn minusWordsServer
      (minusWordsServer.ParseQuery "city wolf cat of is".toList) actualOnly).1
      minusWordsServer_reachable,
    (findAllDocuments_candidates sampleLn minusWordsServer
      (minusWordsServer.ParseQuery "city wolf cat of is".toList) actualOnly).2 _ (by decide!)⟩

/-- C9: in every reachable state `FindTopDocuments` returns, the plus words of
the parsed query are pairwise distinct, and the relevance of every returned
entry is the sum, over the plus words under which its document is listed, of
the stored term frequency times `ln (N / n)`, with `N = GetDocumentCount()` and
`n` the number of documents listed under the word; the same holds for the
candidates of `FindAllDocuments` on any query. -/
theorem findTopDocuments_relevance (ln : ℚ → R) (s : SearchServer) (hs : Reachable s)
    (raw_query : Str) (p : Int → DocumentStatus → Int → Bool) :
    (∃ l, FindTopDocuments ln s raw_query p = some l ∧
      (s.ParseQuery raw_query).plus_words.Nodup ∧
      ∀ d ∈ l, d.relevance =
        (((s.ParseQuery raw_query).plus_words.filter (fun word => s.listed word d.id)).map
          (fun word => (s.termFreq word d.id : R) *
            ln ((s.GetDocumentCount : ℚ) / (s.documentFreq word : ℚ)))).sum) ∧
    ∀ (query : Query) (docs : List (Document R)),
      FindAllDocuments ln s query p = some docs →
      ∀ d ∈ docs, d.relevance =
        ((query.plus_words.filter (fun word => s.listed word d.id)).map
          (fun word => (s.termFreq word d.id : R) *
            ln ((s.GetDocumentCount : ℚ) / (s.documentFreq word : ℚ)))).sum := by
  refine ⟨?_, ?_⟩
  · have hsome := findTop_isSome ln s hs raw_query p
    cases hl : FindTopDocuments ln s raw_query p with
    | none => rw [hl] at hsome; exact absurd hsome (by simp)
    | some l =>
      refine ⟨l, rfl, (parseQuery_sorted s raw_query).1.nodup, ?_⟩
      intro d hd
      obtain ⟨docs, hall, -, hsub⟩ := findTop_sub ln s raw_query p l hl
      exact findAll_relevance ln s hs.wellFormed _ p docs hall d (hsub d hd)
  · intro query docs hall d hd
    exact findAll_relevance ln s hs.wellFormed query p docs hall d hd

theorem findTopDocuments_relevance_witness :
    Reachable relevanceServer ∧
    ∃ l, FindTopDocuments (fun q => Real.log (q : ℝ)) relevanceServer "green".toList
        actualOnly = some l ∧
      l.map Document.id = [0] ∧
      ∀ d ∈ l, d.relevance = 1 / 9 * Real.log 4 ∧
        |d.relevance - 0.154033| < 1 / 1000000 := by
  refine ⟨relevanceServer_reachable, ?_⟩
  obtain ⟨⟨l, hl, -, hrel⟩, -⟩ :=
    findTopDocuments_relevance (fun q => Real.log (q : ℝ)) relevanceServer
      relevanceServer_reachable "green".toList actualOnly
  have hquery : relevanceServer.ParseQuery "green".toList = ⟨["green".toList], []⟩ := by
    decide
  have hindex : StdMap.find "green".toList relevanceServer.word_to_document_freqs_ =
      some [(0, 1 / 9)] := by decide!
  have hcount : relevanceServer.GetDocumentCount = 4 := by decide!
  have hstored : StdMap.find 0 relevanceServer.documents_ =
      some ⟨0, DocumentStatus.ACTUAL⟩ := by decide!
  have hlisted : ∀ id, relevanceServer.listed "green".toList id = true ↔ id = 0 := by
    intro id
    unfold listed
    rw [hindex]
    simp [StdMap.keys]
  obtain ⟨docs, hall, hl', hsub⟩ := findTop_sub _ relevanceServer "green".toList actualOnly l hl
  have hmem := findAll_mem_ids _ relevanceServer _ actualOnly docs hall
  have hids : docs.map Document.id = [0] := by
    apply eq_singleton_of_sorted 0
      (findAll_ids_sorted _ relevanceServer relevanceServer_reachable.wellFormed _ _ docs hall)
    · intro x hx
      obtain ⟨⟨word, hword, hw⟩, -, -⟩ := (hmem x).1 hx
      rw [hquery] at hword
      simp only [List.mem_singleton] at hword
      subst hword
      exact (hlisted x).1 hw
    · rw [hmem 0, hquery]
      refine ⟨⟨"green".toList, List.mem_singleton_self _, (hlisted 0).2 rfl⟩, ?_, ?_⟩
      · simp [accepts, hstored, actualOnly]
      · simp
  have hlen : docs.length ≤ MAX_RESULT_DOCUMENT_COUNT := by
    have := congrArg List.length hids
    simp only [List.length_map, List.length_singleton] at this
    rw [this]
    decide
  have hlids : l.map Document.id = [0] := by
    have hperm : (l.map Document.id).Perm (docs.map Document.id) := by
      rw [hl', List.take_of_length_le (by rw [length_stdSort]; exact hlen)]
      exact (stdSort_perm compareDocuments docs).map Document.id
    rw [hids] at hperm
    exact List.perm_singleton.1 hperm
  refine ⟨l, hl, hlids, ?_⟩
  intro d hd
  have hid : d.id = 0 := by
    have : d.id ∈ l.map Document.id := List.mem_map_of_mem Document.id hd
    rw [hlids] at this
    simpa using this
  have hval : d.relevance = 1 / 9 * Real.log 4 := by
    rw [hrel d hd, hquery, hid]
    have h1 : relevanceServer.listed "green".toList 0 = true := (hlisted 0).2 rfl
    have h2 : relevanceServer.termFreq "green".toList 0 = 1 / 9 := by decide!
    have h3 : relevanceServer.documentFreq "green".toList = 1 := by decide!
    simp only [List.filter_cons, h1, if_true, List.filter_nil, List.map_cons, List.map_nil,
      List.sum_cons, List.sum_nil, add_zero, h2, h3, hcount]
    norm_num
  refine ⟨hval, ?_⟩
  rw [hval]
  exact log_four_ninth

/-- C10: `FindTopDocuments` returns in every reachable state, and every entry
of the list it returns has an id with stored metadata on which the predicate
holds (id, stored status, stored rating), and carries the stored rating. -/
theorem findTopDocuments_predicate (ln : ℚ → R) (s : SearchServer) (raw_query : Str)
    (p : Int → DocumentStatus → Int → Bool) :
    (Reachable s → (FindTopDocuments ln s raw_query p).isSome = true) ∧
    ∀ l, FindTopDocuments ln s raw_query p = some l →
      ∀ d ∈ l, ∃ data, StdMap.find d.id s.documents_ = some data ∧
        p d.id data.status data.rating = true ∧ d.rating = data.rating := by
  refine ⟨fun hs => findTop_isSome ln s hs raw_query p, ?_⟩
  intro l hl d hd
  obtain ⟨docs, hall, -, hsub⟩ := findTop_sub ln s raw_query p l hl
  obtain ⟨data, hdata, hr⟩ := findAll_rating ln s _ p docs hall d (hsub d hd)
  have hmem : d.id ∈ docs.map Document.id := List.mem_map_of_mem Document.id (hsub d hd)
  obtain ⟨data', hdata', hp⟩ :=
    (accepts_iff s p d.id).1 ((findAll_mem_ids ln s _ p docs hall d.id).1 hmem).2.1
  rw [hdata] at hdata'
  simp only [Option.some.injEq] at hdata'
  subst hdata'
  exact ⟨data, hdata, hp, hr⟩

theorem findTopDocuments_predicate_witness :
    Reachable sortingServer ∧
    FindTopDocuments sampleLn sortingServer "white cat long tail grey".toList
      (fun _ _ rating => decide (rating > 2)) = some [⟨38, 1 / 2, 3⟩, ⟨1, 3 / 7, 8⟩] ∧
    (FindTopDocuments sampleLn sortingServer "white cat long tail grey".toList
      (fun _ _ rating => decide (rating > 2))).isSome = true ∧
    ∀ d ∈ ([⟨38, 1 / 2, 3⟩, ⟨1, 3 / 7, 8⟩] : List (Document ℚ)),
      ∃ data, StdMap.find d.id sortingServer.documents_ = some data ∧
        decide (data.rating > 2) = true ∧ d.rating = data.rating :=
  ⟨sortingServer_reachable, by decide!,
    (findTopDocuments_predicate sampleLn sortingServer "white cat long tail grey".toList
      (fun _ _ rating => decide (rating > 2))).1 sortingServer_reachable,
    (findTopDocuments_predicate sampleLn sortingServer "white cat long tail grey".toList
      (fun _ _ rating => decide (rating > 2))).2 _ (by decide!)⟩

/-- C11: the status overload of `FindTopDocuments` is the predicate overload
called with the predicate `status = output_status`; it returns in every
reachable state and every entry it returns has exactly that stored status; the
call without a status is the call with `DocumentStatus::ACTUAL`. -/
theorem findTopDocuments_by_status (ln : ℚ → R) (s : SearchServer) (raw_query : Str)
    (output_status : DocumentStatus) :
    FindTopDocumentsStatus ln s raw_query output_status =
      FindTopDocuments ln s raw_query
        (fun _ status _ => decide (status = output_status)) ∧
    FindTopDocumentsDefault ln s raw_query =
      FindTopDocumentsStatus ln s raw_query DocumentStatus.ACTUAL ∧
    (Reachable s → (FindTopDocumentsStatus ln s raw_query output_status).isSome = true) ∧
    ∀ l, FindTopDocumentsStatus ln s raw_query output_status = some l →
      ∀ d ∈ l, ∃ data, StdMap.find d.id s.documents_ = some data ∧
        data.status = output_status ∧ d.rating = data.rating := by
  refine ⟨rfl, rfl, fun hs => findTop_isSome ln s hs raw_query _, ?_⟩
  intro l hl d hd
  obtain ⟨docs, hall, -, hsub⟩ := findTop_sub ln s raw_query _ l hl
  obtain ⟨data, hdata, hr⟩ := findAll_rating ln s _ _ docs hall d (hsub d hd)
  have hmem : d.id ∈ docs.map Document.id := List.mem_map_of_mem Document.id (hsub d hd)
  obtain ⟨data', hdata', hp⟩ :=
    (accepts_iff s _ d.id).1 ((findAll_mem_ids ln s _ _ docs hall d.id).1 hmem).2.1
  rw [hdata] at hdata'
  simp only [Option.some.injEq] at hdata'
  subst hdata'
  exact ⟨data, hdata, by simpa using hp, hr⟩



theorem findTopDocuments_by_status_witness :
    Reachable statusServer ∧
    FindTopDocumentsStatus sampleLn statusServer "white cat long tail grey".toList
      DocumentStatus.BANNED = some [⟨5, 1, -1⟩] ∧
    FindTopDocumentsDefault sampleLn statusServer "white cat long tail grey".toList =
      some [⟨0, 1 / 8, 0⟩] ∧
    (FindTopDocumentsStatus sampleLn statusServer "white cat long tail grey".toList
      DocumentStatus.BANNED).isSome = true ∧
    ∀ d ∈ ([⟨5, 1, -1⟩] : List (Document ℚ)),
      ∃ data, StdMap.find d.id statusServer.documents_ = some data ∧
        data.status = DocumentStatus.BANNED ∧ d.rating = data.rating :=
  ⟨statusServer_reachable, by decide!, by decide!,
    (findTopDocuments_by_status sampleLn statusServer "white cat long tail grey".toList
      DocumentStatus.BANNED).2.2.1 statusServer_reachable,
    (findTopDocuments_by_status sampleLn statusServer "white cat long tail grey".toList
      DocumentStatus.BANNED).2.2.2 _ (by decide!)⟩

/-- C12: `SplitIntoWords` returns the maximal runs of non-space characters in
order: the non-empty pieces of the text between spaces. Every word is non-empty
and holds no space, the words joined are the text with its spaces deleted (so
every other character, tab and newline included, stays inside a word), and a
text of spaces only, the empty text included, has no words. -/
theorem splitIntoWords_spec (text : Str) :
    SplitIntoWords text = maximalRuns text ∧
    SplitIntoWords text = (text.splitOn ' ').filter (fun run => decide (run ≠ [])) ∧
    (∀ w ∈ SplitIntoWords text, w ≠ [] ∧ ' ' ∉ w) ∧
    (SplitIntoWords text).flatten = text.filter (fun c => decide (c ≠ ' ')) ∧
    (∀ c ∈ text, c ≠ ' ' → ∃ w ∈ SplitIntoWords text, c ∈ w) ∧
    ((∀ c ∈ text, c = ' ') ↔ SplitIntoWords text = []) ∧
    SplitIntoWords [] = [] ∧
    SplitIntoWords "a\tb\nc,d  e ".toList = ["a\tb\nc,d".toList, "e".toList] := by
  have hflat : (SplitIntoWords text).flatten = text.filter (fun c => decide (c ≠ ' ')) := by
    unfold SplitIntoWords
    rw [splitIntoWordsLoop_flatten]
    simp
  refine ⟨splitIntoWords_eq_maximalRuns text, splitIntoWords_eq_maximalRuns text, ?_, hflat, ?_,
    ?_, by decide, by decide⟩
  · exact splitIntoWordsLoop_wordlike text [] [] (by simp) (by simp)
  · intro c hc hne
    have hmem : c ∈ (SplitIntoWords text).flatten := by
      rw [hflat]
      exact List.mem_filter.2 ⟨hc, by simpa using hne⟩
    obtain ⟨w, hw, hcw⟩ := List.mem_flatten.1 hmem
    exact ⟨w, hw, hcw⟩
  · constructor
    · intro h
      exact splitIntoWordsLoop_spaces text [] h
    · intro h c hc
      by_contra hne
      have hmem : c ∈ (SplitIntoWords text).flatten := by
        rw [hflat]
        exact List.mem_filter.2 ⟨hc, by simpa using hne⟩
      rw [h] at hmem
      simp at hmem

theorem splitIntoWords_spec_witness :
    SplitIntoWords "  cat  in the city ".toList =
      ["cat".toList, "in".toList, "the".toList, "city".toList] ∧
    maximalRuns "  cat  in the city ".toList =
      ["cat".toList, "in".toList, "the".toList, "city".toList] ∧
    (∀ c ∈ "   ".toList, c = ' ') ∧ SplitIntoWords "   ".toList = [] :=
  ⟨by decide,
    (splitIntoWords_spec "  cat  in the city ".toList).1.symm.trans (by decide),
    by decide, (splitIntoWords_spec "   ".toList).2.2.2.2.2.1.1 (by decide)⟩

/-- C13: a term is a plus word of `ParseQuery` exactly when it is a token of
the text that does not start with `-` and is no stop word, and a minus word
exactly when `-` followed by it is a token and it is no stop word; so neither
set holds a stop word, and both are kept as sets, each term once and in
ascending order. -/
theorem parseQuery_sets (s : SearchServer) (text : Str) :
    (∀ w, w ∈ (s.ParseQuery text).plus_words ↔
      w ∈ SplitIntoWords text ∧ w.head? ≠ some '-' ∧ s.IsStopWord w = false) ∧
    (∀ r, r ∈ (s.ParseQuery text).minus_words ↔
      ('-' :: r) ∈ SplitIntoWords text ∧ s.IsStopWord r = false) ∧
    (∀ w ∈ (s.ParseQuery text).plus_words, s.IsStopWord w = false) ∧
    (∀ r ∈ (s.ParseQuery text).minus_words, s.IsStopWord r = false) ∧
    (s.ParseQuery text).plus_words.Nodup ∧ (s.ParseQuery text).minus_words.Nodup ∧
    (s.ParseQuery text).plus_words.Sorted (· < ·) ∧
    (s.ParseQuery text).minus_words.Sorted (· < ·) :=
  ⟨fun w => (parseQuery_mem s text w).1, fun r => (parseQuery_mem s text r).2,
    fun w hw => ((parseQuery_mem s text w).1.1 hw).2.2,
    fun r hr => ((parseQuery_mem s text r).2.1 hr).2,
    (parseQuery_sorted s text).1.nodup, (parseQuery_sorted s text).2.nodup,
    (parseQuery_sorted s text).1, (parseQuery_sorted s text).2⟩

theorem parseQuery_sets_witness :
    (({} : SearchServer).SetStopWords "in the".toList).ParseQuery
      "dog in -the cat -city dog -city -".toList =
      ⟨["cat".toList, "dog".toList], [[], "city".toList]⟩ ∧
    ("dog".toList ∈ ((({} : SearchServer).SetStopWords "in the".toList).ParseQuery
        "dog in -the cat -city dog -city -".toList).plus_words ↔
      "dog".toList ∈ SplitIntoWords "dog in -the cat -city dog -city -".toList ∧
        "dog".toList.head? ≠ some '-' ∧
        (({} : SearchServer).SetStopWords "in the".toList).IsStopWord "dog".toList = false) :=
  ⟨by decide,
    (parseQuery_sets (({} : SearchServer).SetStopWords "in the".toList)
      "dog in -the cat -city dog -city -".toList).1 "dog".toList⟩

/-- C14, as the code has it: a term is both a plus word and a minus word of
`ParseQuery` exactly when the text holds it as a token and also holds it with
a leading `-`, it does not start with `-` and it is no stop word; the two sets
are disjoint when no token occurs both ways. -/
theorem parseQuery_common_words (s : SearchServer) (text : Str) :
    (∀ w, (w ∈ (s.ParseQuery text).plus_words ∧ w ∈ (s.ParseQuery text).minus_words) ↔
      (w ∈ SplitIntoWords text ∧ ('-' :: w) ∈ SplitIntoWords text ∧
        w.head? ≠ some '-' ∧ s.IsStopWord w = false)) ∧
    ((∀ w ∈ SplitIntoWords text, ('-' :: w) ∉ SplitIntoWords text) →
      (s.ParseQuery text).plus_words.Disjoint (s.ParseQuery text).minus_words) := by
  refine ⟨?_, ?_⟩
  · intro w
    rw [(parseQuery_mem s text w).1, (parseQuery_mem s text w).2]
    tauto
  · intro h w hp hm
    exact h w ((parseQuery_mem s text w).1.1 hp).1 ((parseQuery_mem s text w).2.1 hm).1

theorem parseQuery_common_words_witness :
    (∀ w ∈ SplitIntoWords "dog -cat".toList, ('-' :: w) ∉ SplitIntoWords "dog -cat".toList) ∧
    (({} : SearchServer).ParseQuery "dog -cat".toList).plus_words.Disjoint
      (({} : SearchServer).ParseQuery "dog -cat".toList).minus_words :=
  ⟨by decide,
    (parseQuery_common_words ({} : SearchServer) "dog -cat".toList).2 (by decide)⟩

/-- C14 as stated fails: the query `cat -cat` has `cat` both as a plus word
and as a minus word. -/
theorem parseQuery_not_disjoint :
    ¬ (({} : SearchServer).ParseQuery "cat -cat".toList).plus_words.Disjoint
      (({} : SearchServer).ParseQuery "cat -cat".toList).minus_words := by
  intro h
  exact h (show "cat".toList ∈ _ by decide) (show "cat".toList ∈ _ by decide)

/-- C15: after `AddDocument(id, text, ...)` in a reachable state that does not
store `id`, the inverted index holds for `id`, under every non-stop-word token
`t` of the text, the frequency (occurrences of `t` among the non-stop-word
tokens) / (number of non-stop-word tokens), in exact arithmetic, and no entry
for `id` under any other term; the entries of the other ids are untouched. -/
theorem addDocument_frequencies (s : SearchServer) (hs : Reachable s) (document_id : Int)
    (document : Str) (status : DocumentStatus) (ratings : List Int)
    (hnew : StdMap.find document_id s.documents_ = none) :
    s.SplitIntoWordsNoStop document =
      (SplitIntoWords document).filter (fun word => !s.IsStopWord word) ∧
    (∀ t ∈ s.SplitIntoWordsNoStop document,
      (s.AddDocument document_id document status ratings).storedFreq t document_id =
        some (((s.SplitIntoWordsNoStop document).count t : ℚ) /
          ((s.SplitIntoWordsNoStop document).length : ℚ))) ∧
    (∀ t, t ∉ s.SplitIntoWordsNoStop document →
      (s.AddDocument document_id document status ratings).storedFreq t document_id = none ∧
      (s.AddDocument document_id document status ratings).listed t document_id = false) ∧
    (∀ t i, i ≠ document_id →
      (s.AddDocument document_id document status ratings).storedFreq t i =
        s.storedFreq t i) := by
  have hwf := hs.wellFormed
  refine ⟨splitIntoWordsNoStop_eq s document, ?_, ?_, ?_⟩
  · intro t ht
    rw [storedFreq_addDocument s hwf, if_pos ⟨rfl, ht⟩,
      storedFreq_of_not_stored s hwf document_id hnew t]
    simp only [Option.getD_none, zero_add, Option.some.injEq]
    rw [mul_one_div]
  · intro t ht
    have h : (s.AddDocument document_id document status ratings).storedFreq t document_id =
        none := by
      rw [storedFreq_addDocument s hwf, if_neg (fun h => ht h.2),
        storedFreq_of_not_stored s hwf document_id hnew t]
    refine ⟨h, ?_⟩
    rw [listed_eq_isSome, h]
    rfl
  · intro t i hi
    rw [storedFreq_addDocument s hwf, if_neg (fun h => hi h.1)]

theorem addDocument_frequencies_witness :
    Reachable (({} : SearchServer).SetStopWords "with".toList) ∧
    StdMap.find 1 (({} : SearchServer).SetStopWords "with".toList).documents_ = none ∧
    "cat".toList ∈ (({} : SearchServer).SetStopWords "with".toList).SplitIntoWordsNoStop
      "cat playing with cat".toList ∧
    ((({} : SearchServer).SetStopWords "with".toList).AddDocument 1
      "cat playing with cat".toList DocumentStatus.ACTUAL [1]).storedFreq "cat".toList 1 =
      some (2 / 3) ∧
    ((({} : SearchServer).SetStopWords "with".toList).AddDocument 1
      "cat playing with cat".toList DocumentStatus.ACTUAL [1]).storedFreq "with".toList 1 =
      none := by
  have h := addDocument_frequencies (({} : SearchServer).SetStopWords "with".toList)
    (Reachable.setStopWords _ _ Reachable.fresh) 1 "cat playing with cat".toList
    DocumentStatus.ACTUAL [1] (by decide)
  refine ⟨Reachable.setStopWords _ _ Reachable.fresh, by decide, by decide, ?_, ?_⟩
  · rw [h.2.1 "cat".toList (by decide)]
    decide!
  · exact (h.2.2.1 "with".toList (by decide)).1

/-- C16: in a state produced by `SetStopWords` and by `AddDocument` calls with
pairwise distinct ids, for every id that the inverted index lists under some
term, the frequencies stored for the id sum to exactly `1` over all terms. -/
theorem frequencies_sum_to_one (s : SearchServer) (hs : ReachableDistinct s) (id : Int)
    (hid : ∃ word, s.listed word id = true) : s.totalFreq id = 1 := by
  induction hs generalizing id with
  | fresh =>
    obtain ⟨word, hw⟩ := hid
    simp [listed, StdMap.find] at hw
  | setStopWords s text _ ih => exact ih id hid
  | addDocument s document_id document status ratings hrd hnew ih =>
    have hwf := hrd.reachable.wellFormed
    obtain ⟨word, hw⟩ := hid
    rw [listed_eq_isSome, storedFreq_addDocument s hwf] at hw
    rw [totalFreq_addDocument s hwf]
    by_cases hi : id = document_id
    · subst hi
      have hnone : ∀ t, s.storedFreq t id = none :=
        storedFreq_of_not_stored s hwf id hnew
      have hmem : word ∈ s.SplitIntoWordsNoStop document := by
        by_contra hmem
        rw [if_neg (fun h => hmem h.2), hnone word] at hw
        exact absurd hw (by simp)
      have hlen : ((s.SplitIntoWordsNoStop document).length : ℚ) ≠ 0 := by
        have : (s.SplitIntoWordsNoStop document).length ≠ 0 := by
          intro h0
          rw [List.length_eq_zero] at h0
          rw [h0] at hmem
          simp at hmem
        exact_mod_cast this
      have hzero : s.totalFreq id = 0 := by
        apply totalFreq_of_not_listed s hwf
        intro t
        rw [listed_eq_isSome, hnone t]
        rfl
      rw [hzero, if_pos rfl, mul_one_div, div_self hlen, zero_add]
    · rw [if_neg (fun h => hi h.1)] at hw
      rw [if_neg hi, add_zero]
      exact ih id ⟨word, by rw [listed_eq_isSome]; exact hw⟩


theorem frequencies_sum_to_one_witness :
    ReachableDistinct sortingServer ∧
    (∃ word, sortingServer.listed word 5 = true) ∧
    sortingServer.storedFreq "white".toList 5 = some (1 / 8) ∧
    sortingServer.totalFreq 5 = 1 :=
  ⟨sortingServer_distinct, ⟨"white".toList, by decide⟩, by decide!,
    frequencies_sum_to_one sortingServer sortingServer_distinct 5 ⟨"white".toList, by decide⟩⟩

/-- C17: after `SetStopWords(text)` the stop words are the former stop words
together with the tokens of `text`: nothing is removed, a second call adds its
tokens to those of the first, and in a reachable state a second call with the
same text leaves the state of the first call. -/
theorem setStopWords_union (s : SearchServer) (text : Str) :
    (∀ w, w ∈ (s.SetStopWords text).stop_words_ ↔
      w ∈ s.stop_words_ ∨ w ∈ SplitIntoWords text) ∧
    (∀ w, (s.SetStopWords text).IsStopWord w = true ↔
      s.IsStopWord w = true ∨ w ∈ SplitIntoWords text) ∧
    (∀ w ∈ s.stop_words_, w ∈ (s.SetStopWords text).stop_words_) ∧
    (∀ text₂ w, w ∈ ((s.SetStopWords text).SetStopWords text₂).stop_words_ ↔
      w ∈ s.stop_words_ ∨ w ∈ SplitIntoWords text ∨ w ∈ SplitIntoWords text₂) ∧
    (∀ w, w ∈ ((s.SetStopWords text).SetStopWords text).stop_words_ ↔
      w ∈ (s.SetStopWords text).stop_words_) ∧
    (Reachable s →
      (s.SetStopWords text).stop_words_.Sorted (· < ·) ∧
      (s.SetStopWords text).SetStopWords text = s.SetStopWords text) := by
  refine ⟨mem_stop_words_setStopWords s text, isStopWord_setStopWords s text, ?_, ?_, ?_, ?_⟩
  · intro w hw
    exact (mem_stop_words_setStopWords s text w).2 (Or.inl hw)
  · intro text₂ w
    rw [mem_stop_words_setStopWords, mem_stop_words_setStopWords, or_assoc]
  · intro w
    rw [mem_stop_words_setStopWords]
    constructor
    · rintro (h | h)
      · exact h
      · exact (mem_stop_words_setStopWords s text w).2 (Or.inr h)
    · exact Or.inl
  · intro hs
    exact ⟨StdSet.sorted_foldl_insert _ _ hs.stop_words_sorted,
      setStopWords_twice s text hs.stop_words_sorted⟩

theorem setStopWords_union_witness :
    Reachable (({} : SearchServer).SetStopWords "in the".toList) ∧
    ((({} : SearchServer).SetStopWords "in the".toList).SetStopWords
      "a the at".toList).stop_words_ =
      ["a".toList, "at".toList, "in".toList, "the".toList] ∧
    ((({} : SearchServer).SetStopWords "in the".toList).SetStopWords
        "a the at".toList).SetStopWords "a the at".toList =
      (({} : SearchServer).SetStopWords "in the".toList).SetStopWords "a the at".toList :=
  ⟨Reachable.setStopWords _ _ Reachable.fresh, by decide,
    ((setStopWords_union (({} : SearchServer).SetStopWords "in the".toList)
      "a the at".toList).2.2.2.2.2 (Reachable.setStopWords _ _ Reachable.fresh)).2⟩


/-- C18: `GetDocumentCount` is `0` on a fresh server; after a sequence of calls
the server stores one document per distinct id handed to `AddDocument`, so
after calls with `n` pairwise distinct ids (`n` below `2^31`) it returns `n`,
whatever the texts; `SetStopWords` does not change it. -/
theorem getDocumentCount_spec (calls : List Call) :
    GetDocumentCount {} = 0 ∧
    (runCalls {} calls).documents_.length = (addedIds calls).toFinset.card ∧
    ((addedIds calls).Nodup → (addedIds calls).length < 2147483648 →
      (runCalls {} calls).GetDocumentCount = ((addedIds calls).length : Int)) ∧
    (∀ (s : SearchServer) (text : Str),
      (s.SetStopWords text).GetDocumentCount = s.GetDocumentCount) := by
  refine ⟨by decide, length_documents_runCalls calls, ?_, fun _ _ => rfl⟩
  intro hnodup hlt
  unfold GetDocumentCount static_cast_int
  rw [length_documents_runCalls, List.toFinset_card_of_nodup hnodup]
  exact wrapInt_of_range _ (by omega) (by omega)

theorem getDocumentCount_spec_witness :
    (addedIds [Call.setStopWords "in the".toList,
      Call.addDocument 42 "cat in the city".toList DocumentStatus.ACTUAL [1, 2, 3],
      Call.addDocument 7 "in the".toList DocumentStatus.BANNED [],
      Call.addDocument 3 "".toList DocumentStatus.ACTUAL [5]]).Nodup ∧
    (addedIds [Call.setStopWords "in the".toList,
      Call.addDocument 42 "cat in the city".toList DocumentStatus.ACTUAL [1, 2, 3],
      Call.addDocument 7 "in the".toList DocumentStatus.BANNED [],
      Call.addDocument 3 "".toList DocumentStatus.ACTUAL [5]]).length < 2147483648 ∧
    (runCalls {} [Call.setStopWords "in the".toList,
      Call.addDocument 42 "cat in the city".toList DocumentStatus.ACTUAL [1, 2, 3],
      Call.addDocument 7 "in the".toList DocumentStatus.BANNED [],
      Call.addDocument 3 "".toList DocumentStatus.ACTUAL [5]]).GetDocumentCount = 3 :=
  ⟨by decide, by decide,
    (getDocumentCount_spec [Call.setStopWords "in the".toList,
      Call.addDocument 42 "cat in the city".toList DocumentStatus.ACTUAL [1, 2, 3],
      Call.addDocument 7 "in the".toList DocumentStatus.BANNED [],
      Call.addDocument 3 "".toList DocumentStatus.ACTUAL [5]]).2.2.1 (by decide) (by decide)⟩

/-- C19, as the code has it: a document added with status `ACTUAL` under an id
that was not stored before is found by every token `w` of its text that does
not start with `-`, in every later state without stop words: when at most 5
`ACTUAL` documents are listed under `w`, `FindTopDocuments(w)` has an entry with
its id, and when no other document is listed under `w` that is the only
entry. -/
theorem added_document_is_found (ln : ℚ → R) (s₀ : SearchServer) (hs₀ : Reachable s₀)
    (document_id : Int) (document : Str) (ratings : List Int)
    (hnew : StdMap.find document_id s₀.documents_ = none) (later : List Call) (w : Str)
    (hw : w ∈ SplitIntoWords document) (hminus : w.head? ≠ some '-')
    (hstop : (runCalls (s₀.AddDocument document_id document DocumentStatus.ACTUAL ratings)
      later).stop_words_ = []) :
    ∃ l, FindTopDocumentsDefault ln
        (runCalls (s₀.AddDocument document_id document DocumentStatus.ACTUAL ratings) later)
        w = some l ∧
      document_id ∈ (runCalls (s₀.AddDocument document_id document DocumentStatus.ACTUAL
        ratings) later).actualListedIds w ∧
      (((runCalls (s₀.AddDocument document_id document DocumentStatus.ACTUAL ratings)
          later).actualListedIds w).length ≤ 5 →
        document_id ∈ l.map Document.id) ∧
      ((∀ id, (runCalls (s₀.AddDocument document_id document DocumentStatus.ACTUAL ratings)
          later).listed w id = true → id = document_id) →
        l.map Document.id = [document_id] ∧ l.length = 1) := by
  have hs₁ : Reachable (s₀.AddDocument document_id document DocumentStatus.ACTUAL ratings) :=
    Reachable.addDocument s₀ document_id document DocumentStatus.ACTUAL ratings hs₀
  have hs := reachable_runCalls _ hs₁ later
  have hstop₁ := stop_words_nil_of_runCalls _ later hstop
  have hstop₀ : s₀.stop_words_ = [] := hstop₁
  have hnostop : ∀ (t : SearchServer), t.stop_words_ = [] → ∀ x, t.IsStopWord x = false := by
    intro t ht x
    cases hx : t.IsStopWord x with
    | false => rfl
    | true =>
      rw [isStopWord_iff, ht] at hx
      simp at hx
  obtain ⟨hwne, hwsp⟩ := (splitIntoWords_spec document).2.2.1 w hw
  have hwords : w ∈ s₀.SplitIntoWordsNoStop document := by
    rw [splitIntoWordsNoStop_eq]
    exact List.mem_filter.2 ⟨hw, by simp [hnostop s₀ hstop₀ w]⟩
  have hl₁ : (s₀.AddDocument document_id document DocumentStatus.ACTUAL ratings).listed w
      document_id = true := by
    rw [listed_eq_isSome, storedFreq_addDocument s₀ hs₀.wellFormed, if_pos ⟨rfl, hwords⟩]
    rfl
  have hd₁ : StdMap.find document_id
      (s₀.AddDocument document_id document DocumentStatus.ACTUAL ratings).documents_ =
      some ⟨ComputeAverageRating ratings, DocumentStatus.ACTUAL⟩ :=
    StdMap.find_emplace_new _ _ _ hnew
  obtain ⟨hl, hd⟩ := stored_runCalls _ hs₁ later w document_id _ hl₁ hd₁
  generalize runCalls (s₀.AddDocument document_id document DocumentStatus.ACTUAL ratings)
    later = s at hs hstop hl hd ⊢
  have hquery : s.ParseQuery w = ⟨[w], []⟩ :=
    parseQuery_token s w hwne hwsp hminus (hnostop s hstop w)
  have hsome := findTop_isSome ln s hs w actualOnly
  cases hres : FindTopDocuments ln s w actualOnly with
  | none => rw [hres] at hsome; exact absurd hsome (by simp)
  | some l =>
    obtain ⟨docs, hall, hl', -⟩ := findTop_sub ln s w actualOnly l hres
    rw [hquery] at hall
    have hids := findAll_single_word ln s hs.wellFormed w actualOnly docs hall
    have hacc : s.accepts actualOnly document_id = true := by
      simp [accepts, hd, actualOnly]
    have hmem : document_id ∈ s.actualListedIds w :=
      List.mem_filter.2 ⟨(mem_listedIds s w document_id).2 hl, hacc⟩
    have hperm : docs.length ≤ 5 → (l.map Document.id).Perm (docs.map Document.id) := by
      intro hlen
      rw [hl', List.take_of_length_le (by rw [length_stdSort]; exact hlen)]
      exact (stdSort_perm compareDocuments docs).map Document.id
    have hlen_eq : docs.length = (s.actualListedIds w).length := by
      rw [← List.length_map docs Document.id, hids]
      rfl
    refine ⟨l, hres, hmem, ?_, ?_⟩
    · intro hlen
      rw [(hperm (by rw [hlen_eq]; exact hlen)).mem_iff, hids]
      exact hmem
    · intro honly
      have hsingle : docs.map Document.id = [document_id] := by
        apply eq_singleton_of_sorted document_id
          (findAll_ids_sorted ln s hs.wellFormed _ actualOnly docs hall)
        · intro x hx
          rw [hids] at hx
          exact honly x ((mem_listedIds s w x).1 (List.mem_filter.1 hx).1)
        · rw [hids]; exact hmem
      have hlen1 : docs.length = 1 := by
        have := congrArg List.length hsingle
        simpa using this
      have hp := hperm (by omega)
      rw [hsingle] at hp
      have hlid := List.perm_singleton.1 hp
      refine ⟨hlid, ?_⟩
      have := congrArg List.length hlid
      simpa using this

/-- C19 as stated fails when the id is already stored: the second
`AddDocument(1, "cat", ACTUAL, ...)` keeps the status `BANNED` of the first, so
the query `cat` returns nothing although `cat` is a token of the document. -/
theorem added_document_not_found :
    duplicateIdServer.stop_words_ = [] ∧
    "cat".toList ∈ SplitIntoWords "cat".toList ∧
    "cat".toList.head? ≠ some '-' ∧
    duplicateIdServer.listedIds "cat".toList = [1] ∧
    StdMap.find 1 duplicateIdServer.documents_ = some ⟨1, DocumentStatus.BANNED⟩ ∧
    FindTopDocumentsDefault sampleLn duplicateIdServer "cat".toList = some [] :=
  ⟨by decide, by decide, by decide, by decide, by decide, by decide!⟩

theorem added_document_is_found_witness :
    Reachable ({} : SearchServer) ∧
    StdMap.find 3 ({} : SearchServer).documents_ = none ∧
    "dog".toList ∈ SplitIntoWords "the dog is a domesticated descendant of the wolf".toList ∧
    "dog".toList.head? ≠ some '-' ∧
    (runCalls (({} : SearchServer).AddDocument 3
      "the dog is a domesticated descendant of the wolf".toList DocumentStatus.ACTUAL [0, 5, 2])
      [Call.addDocument 1 "cat playing with cat".toList DocumentStatus.ACTUAL
        [1]]).stop_words_ = [] ∧
    FindTopDocumentsDefault sampleLn
      (runCalls (({} : SearchServer).AddDocument 3
        "the dog is a domesticated descendant of the wolf".toList DocumentStatus.ACTUAL
        [0, 5, 2])
        [Call.addDocument 1 "cat playing with cat".toList DocumentStatus.ACTUAL [1]])
      "dog".toList = some [⟨3, 1 / 9, 2⟩] ∧
    ∃ l, FindTopDocumentsDefault sampleLn
        (runCalls (({} : SearchServer).AddDocument 3
          "the dog is a domesticated descendant of the wolf".toList DocumentStatus.ACTUAL
          [0, 5, 2])
          [Call.addDocument 1 "cat playing with cat".toList DocumentStatus.ACTUAL [1]])
        "dog".toList = some l ∧
      3 ∈ (runCalls (({} : SearchServer).AddDocument 3
        "the dog is a domesticated descendant of the wolf".toList DocumentStatus.ACTUAL
        [0, 5, 2])
        [Call.addDocument 1 "cat playing with cat".toList DocumentStatus.ACTUAL
          [1]]).actualListedIds "dog".toList ∧
      (((runCalls (({} : SearchServer).AddDocument 3
          "the dog is a domesticated descendant of the wolf".toList DocumentStatus.ACTUAL
          [0, 5, 2])
          [Call.addDocument 1 "cat playing with cat".toList DocumentStatus.ACTUAL
            [1]]).actualListedIds "dog".toList).length ≤ 5 →
        3 ∈ l.map Document.id) ∧
      ((∀ id, (runCalls (({} : SearchServer).AddDocument 3
          "the dog is a domesticated descendant of the wolf".toList DocumentStatus.ACTUAL
          [0, 5, 2])
          [Call.addDocument 1 "cat playing with cat".toList DocumentStatus.ACTUAL
            [1]]).listed "dog".toList id = true → id = 3) →
        l.map Document.id = [3] ∧ l.length = 1) :=
  ⟨Reachable.fresh, by decide, by decide, by decide, by decide, by decide!,
    added_document_is_found sampleLn {} Reachable.fresh 3
      "the dog is a domesticated descendant of the wolf".toList [0, 5, 2] (by decide)
      [Call.addDocument 1 "cat playing with cat".toList DocumentStatus.ACTUAL [1]]
      "dog".toList (by decide) (by decide) (by decide)⟩


/-- C20: in a reachable state with at least one document (and fewer than `2^31`)
and for a query of one token `w` that the index lists for every stored
document, the inverse document frequency of `w` is `ln (N / N) = ln 1 = 0` and
every entry returned by `FindTopDocuments` has relevance `0`, below `1e-6` in
absolute value. -/
theorem relevance_zero_for_common_word (ln : ℚ → R) (hln : ln 1 = 0) (s : SearchServer)
    (hs : Reachable s) (hpos : s.documents_ ≠ []) (hN : s.documents_.length < 2147483648)
    (raw_query w : Str) (hq : SplitIntoWords raw_query = [w])
    (hall : ∀ id ∈ StdMap.keys s.documents_, s.listed w id = true)
    (p : Int → DocumentStatus → Int → Bool) :
    ComputeWordInverseDocumentFreq ln s w = some 0 ∧
    ∃ l, FindTopDocuments ln s raw_query p = some l ∧
      ∀ d ∈ l, d.relevance = 0 ∧ |d.relevance| < 1 / 1000000 := by
  have hwf := hs.wellFormed
  obtain ⟨hdf, freqs, hfind, hfl⟩ := documentFreq_eq_length s hwf w hpos hall
  have hcount := getDocumentCount_eq_length s hN
  have hlen0 : ((s.documents_.length : ℚ)) ≠ 0 := by
    have : s.documents_.length ≠ 0 := fun h => hpos (List.length_eq_zero.1 h)
    exact_mod_cast this
  have hratio : ((s.GetDocumentCount : ℚ)) / (s.documentFreq w : ℚ) = 1 := by
    rw [hcount, hdf]
    simp only [Int.cast_natCast]
    exact div_self hlen0
  refine ⟨?_, ?_⟩
  · unfold ComputeWordInverseDocumentFreq
    rw [hfind]
    simp only [Option.some.injEq]
    rw [mul_one, hfl, ← hdf, hratio, hln]
  · have hsome := findTop_isSome ln s hs raw_query p
    cases hl : FindTopDocuments ln s raw_query p with
    | none => rw [hl] at hsome; exact absurd hsome (by simp)
    | some l =>
    refine ⟨l, rfl, ?_⟩
    intro d hd
    obtain ⟨docs, hdocs, -, hsub⟩ := findTop_sub ln s raw_query p l hl
    have hzero : d.relevance = 0 := by
      rw [findAll_relevance ln s hwf _ p docs hdocs d (hsub d hd)]
      unfold relevanceSum
      apply List.sum_eq_zero
      intro x hx
      obtain ⟨word, hword, rfl⟩ := List.mem_map.1 hx
      have hplus := ((parseQuery_mem s raw_query word).1.1 (List.mem_filter.1 hword).1).1
      rw [hq, List.mem_singleton] at hplus
      subst hplus
      rw [hratio, hln, mul_zero]
    refine ⟨hzero, ?_⟩
    rw [hzero, abs_zero]
    norm_num

theorem relevance_zero_for_common_word_witness :
    Real.log ((1 : ℚ) : ℝ) = 0 ∧
    Reachable relevanceServer ∧
    relevanceServer.documents_ ≠ [] ∧
    relevanceServer.documents_.length < 2147483648 ∧
    SplitIntoWords "cat".toList = ["cat".toList] ∧
    (∀ id ∈ StdMap.keys relevanceServer.documents_,
      relevanceServer.listed "cat".toList id = true) ∧
    FindTopDocuments sampleLn relevanceServer "cat".toList actualOnly =
      some [⟨1, 0, 8⟩, ⟨38, 0, 3⟩, ⟨0, 0, 0⟩, ⟨5, 0, -1⟩] ∧
    ComputeWordInverseDocumentFreq (fun q => Real.log (q : ℝ)) relevanceServer "cat".toList =
      some 0 ∧
    ∃ l, FindTopDocuments (fun q => Real.log (q : ℝ)) relevanceServer "cat".toList
        actualOnly = some l ∧
      ∀ d ∈ l, d.relevance = 0 ∧ |d.relevance| < 1 / 1000000 :=
  ⟨by simp, relevanceServer_reachable, by decide, by decide, by decide, by decide, by decide!,
    relevance_zero_for_common_word (fun q => Real.log (q : ℝ)) (by simp) relevanceServer
      relevanceServer_reachable (by decide) (by decide) "cat".toList "cat".toList (by decide)
      (by decide) actualOnly⟩

/-- C21: the parsed plus words of a raw query are empty exactly when every
token starts with `-` or is a stop word (as for `-cat` and for the empty
query), and then `FindTopDocuments` returns the empty list, in every state and
for every predicate. -/
theorem findTopDocuments_no_plus_words (ln : ℚ → R) (s : SearchServer) (raw_query : Str)
    (p : Int → DocumentStatus → Int → Bool) :
    ((s.ParseQuery raw_query).plus_words = [] ↔
      ∀ w ∈ SplitIntoWords raw_query, w.head? = some '-' ∨ s.IsStopWord w = true) ∧
    ((s.ParseQuery raw_query).plus_words = [] →
      FindTopDocuments ln s raw_query p = some []) := by
  refine ⟨?_, ?_⟩
  · constructor
    · intro h w hw
      by_contra hcon
      rw [not_or] at hcon
      have hmem : w ∈ (s.ParseQuery raw_query).plus_words :=
        (parseQuery_mem s raw_query w).1.2 ⟨hw, hcon.1, by simpa using hcon.2⟩
      rw [h] at hmem
      simp at hmem
    · intro h
      apply List.eq_nil_iff_forall_not_mem.2
      intro w hw
      obtain ⟨htok, hhead, hstop⟩ := (parseQuery_mem s raw_query w).1.1 hw
      rcases h w htok with h1 | h1
      · exact hhead h1
      · rw [hstop] at h1
        exact absurd h1 (by simp)
  · intro h
    rw [findTop_eq, findAll_no_plus_words ln s _ h p]
    rfl

theorem findTopDocuments_no_plus_words_witness :
    (minusWordsServer.ParseQuery "-cat".toList).plus_words = [] ∧
    minusWordsServer.listed "cat".toList 1 = true ∧
    FindTopDocuments sampleLn minusWordsServer "-cat".toList actualOnly = some [] ∧
    (∀ w ∈ SplitIntoWords "-cat  -city".toList,
      w.head? = some '-' ∨ minusWordsServer.IsStopWord w = true) ∧
    FindTopDocuments sampleLn minusWordsServer "-cat  -city".toList (fun _ _ _ => true) =
      some [] ∧
    FindTopDocuments sampleLn minusWordsServer "".toList actualOnly = some [] :=
  ⟨by decide, by decide,
    (findTopDocuments_no_plus_words sampleLn minusWordsServer "-cat".toList actualOnly).2
      (by decide),
    by decide,
    (findTopDocuments_no_plus_words sampleLn minusWordsServer "-cat  -city".toList
      (fun _ _ _ => true)).2
      ((findTopDocuments_no_plus_words sampleLn minusWordsServer "-cat  -city".toList
        (fun _ _ _ => true)).1.2 (by decide)),
    (findTopDocuments_no_plus_words sampleLn minusWordsServer "".toList actualOnly).2
      (by decide)⟩

/-- C23, refuted as stated: `AddDocument` on a text whose tokens are all stop
words, or on the empty text, does not fail and does change the server: the
metadata is stored under the new id and `GetDocumentCount` grows from 0 to 1;
afterwards `MatchDocument` returns normally for that id. -/
theorem addDocument_without_words_is_stored :
    (∀ w ∈ SplitIntoWords "in the".toList,
      (({} : SearchServer).SetStopWords "in the".toList).IsStopWord w = true) ∧
    (({} : SearchServer).SetStopWords "in the".toList).GetDocumentCount = 0 ∧
    ((({} : SearchServer).SetStopWords "in the".toList).AddDocument 7 "in the".toList
      DocumentStatus.BANNED [4, 5]).GetDocumentCount = 1 ∧
    ((({} : SearchServer).SetStopWords "in the".toList).AddDocument 7 "in the".toList
      DocumentStatus.BANNED [4, 5]).documents_ = [(7, ⟨4, DocumentStatus.BANNED⟩)] ∧
    ((({} : SearchServer).SetStopWords "in the".toList).AddDocument 7 "in the".toList
      DocumentStatus.BANNED [4, 5]).MatchDocument "cat".toList 7 =
        some ([], DocumentStatus.BANNED) ∧
    (({} : SearchServer).AddDocument 3 "  ".toList DocumentStatus.ACTUAL []).documents_ =
      [(3, ⟨0, DocumentStatus.ACTUAL⟩)] ∧
    (({} : SearchServer).AddDocument 3 "".toList DocumentStatus.ACTUAL []).GetDocumentCount =
      1 := by
  refine ⟨by decide, by decide, by decide, by decide, by decide, by decide, by decide⟩

/-- C23, as the code has it: when every token of the text is a stop word (the
empty and the all-space text included), `AddDocument` completes, leaves the
inverted index and the stop words unchanged, and still records the metadata:
for an id that is not stored yet the rating and status are stored and the
number of documents grows by one; for a stored id of a reachable state the
metadata map is unchanged. -/
theorem addDocument_without_words (s : SearchServer) (document_id : Int) (document : Str)
    (status : DocumentStatus) (ratings : List Int)
    (h : ∀ w ∈ SplitIntoWords document, s.IsStopWord w = true) :
    (s.AddDocument document_id document status ratings).word_to_document_freqs_ =
      s.word_to_document_freqs_ ∧
    (s.AddDocument document_id document status ratings).stop_words_ = s.stop_words_ ∧
    (StdMap.find document_id s.documents_ = none →
      StdMap.find document_id (s.AddDocument document_id document status ratings).documents_ =
          some ⟨ComputeAverageRating ratings, status⟩ ∧
        (s.AddDocument document_id document status ratings).documents_.length =
          s.documents_.length + 1) ∧
    (Reachable s → (StdMap.find document_id s.documents_).isSome = true →
      (s.AddDocument document_id document status ratings).documents_ = s.documents_) := by
  have hw : s.SplitIntoWordsNoStop document = [] := (splitIntoWordsNoStop_eq_nil s document).2 h
  refine ⟨?_, rfl, ?_, ?_⟩
  · show List.foldl _ s.word_to_document_freqs_ (s.SplitIntoWordsNoStop document) = _
    rw [hw]
    rfl
  · intro hnew
    exact ⟨StdMap.find_emplace_new _ _ _ hnew, StdMap.length_emplace_new _ _ _ hnew⟩
  · intro hs hstored
    exact StdMap.emplace_of_mem _ _ _ hs.wellFormed.documents_sorted
      ((StdMap.find_isSome_iff _ _).1 hstored)

theorem addDocument_without_words_witness :
    (∀ w ∈ SplitIntoWords "in  the".toList,
      (minusWordsServer.SetStopWords "in the".toList).IsStopWord w = true) ∧
    StdMap.find 7 (minusWordsServer.SetStopWords "in the".toList).documents_ = none ∧
    ((minusWordsServer.SetStopWords "in the".toList).AddDocument 7 "in  the".toList
      DocumentStatus.BANNED [4, 5]).word_to_document_freqs_ =
        minusWordsServer.word_to_document_freqs_ ∧
    StdMap.find 7 ((minusWordsServer.SetStopWords "in the".toList).AddDocument 7
      "in  the".toList DocumentStatus.BANNED [4, 5]).documents_ =
        some ⟨ComputeAverageRating [4, 5], DocumentStatus.BANNED⟩ ∧
    ((minusWordsServer.SetStopWords "in the".toList).AddDocument 7 "in  the".toList
      DocumentStatus.BANNED [4, 5]).documents_.length = 3 + 1 :=
  ⟨by decide, by decide,
    (addDocument_without_words (minusWordsServer.SetStopWords "in the".toList) 7
      "in  the".toList DocumentStatus.BANNED [4, 5] (by decide)).1,
    ((addDocument_without_words (minusWordsServer.SetStopWords "in the".toList) 7
      "in  the".toList DocumentStatus.BANNED [4, 5] (by decide)).2.2.1 (by decide)).1,
    ((addDocument_without_words (minusWordsServer.SetStopWords "in the".toList) 7
      "in  the".toList DocumentStatus.BANNED [4, 5] (by decide)).2.2.1 (by decide)).2⟩

/-- C24, refuted as stated: a query with the token `-` or with a token that
starts with two `-` is not rejected. It is parsed, `-` giving the empty minus
word and `--city` the minus word `-city`, and `FindTopDocuments` and
`MatchDocument` return normally, here with the result of the query `cat`. -/
theorem parseQuery_accepts_dashes :
    ParseQuery {} "cat -".toList = ⟨["cat".toList], [[]]⟩ ∧
    ParseQuery {} "cat --city".toList = ⟨["cat".toList], ["-city".toList]⟩ ∧
    FindTopDocuments sampleLn minusWordsServer "cat -".toList actualOnly =
      some [⟨1, 1 / 4, 1⟩, ⟨38, 1 / 8, 3⟩] ∧
    FindTopDocuments sampleLn minusWordsServer "cat --city".toList actualOnly =
      some [⟨1, 1 / 4, 1⟩, ⟨38, 1 / 8, 3⟩] ∧
    FindTopDocuments sampleLn minusWordsServer "cat -city".toList actualOnly =
      some [⟨1, 1 / 4, 1⟩] ∧
    minusWordsServer.MatchDocument "cat --city -".toList 38 =
      some (["cat".toList], DocumentStatus.ACTUAL) := by
  refine ⟨by decide, by decide, by decide!, by decide!, by decide!, by decide⟩

/-- C24, as the code has it: in every reachable state a raw query with such
tokens is parsed like any other: the empty word is a minus word exactly when
`-` is a token, and `-r` is a minus word exactly when `--r` is a token and `-r`
is not a stop word; no document is listed under the empty word, so the token
`-` excludes nothing; `FindTopDocuments` returns a list, and `MatchDocument`
returns for every stored id. -/
theorem parseQuery_dash_tokens (ln : ℚ → R) (s : SearchServer) (hs : Reachable s)
    (raw_query : Str) :
    (([] : Str) ∈ (s.ParseQuery raw_query).minus_words ↔ ['-'] ∈ SplitIntoWords raw_query) ∧
    (∀ r : Str, ('-' :: r) ∈ (s.ParseQuery raw_query).minus_words ↔
      ('-' :: '-' :: r) ∈ SplitIntoWords raw_query ∧ s.IsStopWord ('-' :: r) = false) ∧
    (∀ id, s.listed [] id = false) ∧
    (∀ p : Int → DocumentStatus → Int → Bool, ∃ l, FindTopDocuments ln s raw_query p = some l) ∧
    (∀ document_id data, StdMap.find document_id s.documents_ = some data →
      ∃ words, s.MatchDocument raw_query document_id = some (words, data.status)) := by
  refine ⟨?_, ?_, ?_, ?_, ?_⟩
  · rw [(parseQuery_mem s raw_query []).2]
    constructor
    · exact fun h => h.1
    · intro h
      refine ⟨h, ?_⟩
      cases hst : s.IsStopWord [] with
      | false => rfl
      | true => exact absurd ((isStopWord_iff s []).1 hst) hs.nil_not_stop_word
  · intro r
    exact (parseQuery_mem s raw_query ('-' :: r)).2
  · intro id
    unfold listed
    rw [hs.nil_not_indexed]
  · intro p
    exact Option.isSome_iff_exists.1 (findTop_isSome ln s hs raw_query p)
  · intro document_id data hd
    unfold MatchDocument
    rw [hd]
    exact ⟨_, rfl⟩

theorem parseQuery_dash_tokens_witness :
    Reachable minusWordsServer ∧
    ['-'] ∈ SplitIntoWords "cat - --city".toList ∧
    ([] : Str) ∈ (minusWordsServer.ParseQuery "cat - --city".toList).minus_words ∧
    "-city".toList ∈ (minusWordsServer.ParseQuery "cat - --city".toList).minus_words ∧
    ∃ l, FindTopDocuments sampleLn minusWordsServer "cat - --city".toList actualOnly =
      some l :=
  ⟨minusWordsServer_reachable, by decide,
    (parseQuery_dash_tokens sampleLn minusWordsServer minusWordsServer_reachable
      "cat - --city".toList).1.2 (by decide),
    ((parseQuery_dash_tokens sampleLn minusWordsServer minusWordsServer_reachable
      "cat - --city".toList).2.1 "city".toList).2 ⟨by decide, by decide⟩,
    (parseQuery_dash_tokens sampleLn minusWordsServer minusWordsServer_reachable
      "cat - --city".toList).2.2.2.1 actualOnly⟩

/-- C25: `MatchDocument` fails exactly when the id has no entry in the metadata
map, whatever the query: for a stored id it returns the matched words with the
stored status, and right after `AddDocument` with an id it returns normally for
that id. -/
theorem matchDocument_fails_iff (s : SearchServer) (raw_query : Str) (document_id : Int) :
    (s.MatchDocument raw_query document_id = none ↔
      StdMap.find document_id s.documents_ = none) ∧
    (∀ data, StdMap.find document_id s.documents_ = some data →
      ∃ words, s.MatchDocument raw_query document_id = some (words, data.status)) ∧
    (∀ (document : Str) (status : DocumentStatus) (ratings : List Int),
      ((s.AddDocument document_id document status ratings).MatchDocument raw_query
        document_id).isSome = true) := by
  have key : ∀ (t : SearchServer),
      (t.MatchDocument raw_query document_id = none ↔
        StdMap.find document_id t.documents_ = none) := by
    intro t
    unfold MatchDocument
    cases StdMap.find document_id t.documents_ with
    | none => simp
    | some data => simp
  refine ⟨key s, ?_, ?_⟩
  · intro data hd
    unfold MatchDocument
    rw [hd]
    exact ⟨_, rfl⟩
  · intro document status ratings
    have hsome : (StdMap.find document_id
        (s.AddDocument document_id document status ratings).documents_).isSome = true :=
      StdMap.find_emplace_self _ _ _
    cases hm : (s.AddDocument document_id document status ratings).MatchDocument raw_query
        document_id with
    | none =>
      rw [(key _).1 hm] at hsome
      exact absurd hsome (by simp)
    | some r => rfl

theorem matchDocument_fails_iff_witness :
    StdMap.find 2 minusWordsServer.documents_ = none ∧
    minusWordsServer.MatchDocument "cat -city".toList 2 = none ∧
    minusWordsServer.MatchDocument "cat -city".toList 38 = some ([], DocumentStatus.ACTUAL) ∧
    minusWordsServer.MatchDocument "cat -city".toList 1 =
      some (["cat".toList], DocumentStatus.ACTUAL) :=
  ⟨by decide,
    (matchDocument_fails_iff minusWordsServer "cat -city".toList 2).1.2 (by decide),
    by decide, by decide⟩

/-- C26: `SetStopWords` changes only the stop-word set: the inverted index and
the metadata map of the new state are those of the old one, so every document
listed under a term stays listed with the same frequency, also under a term
that is a stop word from now on, and `GetDocumentCount` is unchanged. -/
theorem setStopWords_frame (s : SearchServer) (text : Str) :
    (s.SetStopWords text).word_to_document_freqs_ = s.word_to_document_freqs_ ∧
    (s.SetStopWords text).documents_ = s.documents_ ∧
    (s.SetStopWords text).GetDocumentCount = s.GetDocumentCount ∧
    (∀ w id, (s.SetStopWords text).listed w id = s.listed w id) ∧
    (∀ w id, (s.SetStopWords text).storedFreq w id = s.storedFreq w id) ∧
    (∀ w id, w ∈ SplitIntoWords text → s.listed w id = true →
      (s.SetStopWords text).IsStopWord w = true ∧ (s.SetStopWords text).listed w id = true) := by
  refine ⟨rfl, rfl, rfl, fun _ _ => rfl, fun _ _ => rfl, ?_⟩
  intro w id hw hl
  exact ⟨(isStopWord_iff _ _).2 ((mem_stop_words_setStopWords s text w).2 (Or.inr hw)), hl⟩

theorem setStopWords_frame_witness :
    "in".toList ∈ SplitIntoWords "in the".toList ∧
    minusWordsServer.listed "in".toList 38 = true ∧
    minusWordsServer.IsStopWord "in".toList = false ∧
    (minusWordsServer.SetStopWords "in the".toList).IsStopWord "in".toList = true ∧
    (minusWordsServer.SetStopWords "in the".toList).listed "in".toList 38 = true :=
  ⟨by decide, by decide, by decide,
    ((setStopWords_frame minusWordsServer "in the".toList).2.2.2.2.2 "in".toList 38
      (by decide) (by decide)).1,
    ((setStopWords_frame minusWordsServer "in the".toList).2.2.2.2.2 "in".toList 38
      (by decide) (by decide)).2⟩

/-- C27: in every state produced by `SetStopWords` and `AddDocument` calls from
a fresh server, every id listed under a term of the inverted index has an entry
in the metadata map, so the metadata lookups of `FindAllDocuments` succeed and
`FindAllDocuments` and `FindTopDocuments` return a list for every query and
predicate. -/
theorem reachable_ids_stored (ln : ℚ → R) (s : SearchServer) (hs : Reachable s) :
    (∀ word freqs, StdMap.find word s.word_to_document_freqs_ = some freqs →
      ∀ id ∈ StdMap.keys freqs, ∃ data, StdMap.find id s.documents_ = some data) ∧
    (∀ (query : Query) (p : Int → DocumentStatus → Int → Bool),
      ∃ docs, FindAllDocuments ln s query p = some docs) ∧
    (∀ (raw_query : Str) (p : Int → DocumentStatus → Int → Bool),
      ∃ l, FindTopDocuments ln s raw_query p = some l) := by
  refine ⟨?_, ?_, ?_⟩
  · intro word freqs hf id hid
    have hl : s.listed word id = true := (listed_eq_true_iff s word id).2 ⟨freqs, hf, hid⟩
    exact Option.isSome_iff_exists.1 (hs.wellFormed.ids_stored word id hl)
  · intro query p
    exact Option.isSome_iff_exists.1 (findAll_isSome ln s hs.wellFormed.ids_stored query p)
  · intro raw_query p
    exact Option.isSome_iff_exists.1 (findTop_isSome ln s hs raw_query p)

theorem reachable_ids_stored_witness :
    Reachable statusServer ∧
    StdMap.find "cat".toList statusServer.word_to_document_freqs_ =
      some [(5, 1 / 8), (38, 1 / 2)] ∧
    (∀ id ∈ StdMap.keys [((5 : Int), (1 / 8 : ℚ)), (38, 1 / 2)],
      ∃ data, StdMap.find id statusServer.documents_ = some data) ∧
    (∃ docs, FindAllDocuments sampleLn statusServer ⟨["cat".toList], []⟩
      (fun _ _ _ => true) = some docs) ∧
    FindAllDocuments sampleLn danglingServer ⟨["cat".toList], []⟩ (fun _ _ _ => true) = none :=
  ⟨statusServer_reachable, by decide!,
    (reachable_ids_stored sampleLn statusServer statusServer_reachable).1 "cat".toList _
      (by decide!),
    (reachable_ids_stored sampleLn statusServer statusServer_reachable).2.1 _ _,
    by decide!⟩

/-- C28: in every reachable state with fewer than `2^31` documents, every term
of the inverted index lists at least one and at most `GetDocumentCount()`
documents, so the quotient taken by `ComputeWordInverseDocumentFreq` has a
non-zero divisor and is at least 1; with a logarithm that is non-negative from
1 on, every inverse document frequency is non-negative, every stored term
frequency is positive, and every relevance returned by `FindTopDocuments` is
non-negative (repeated ids included). -/
theorem document_frequency_bounds (ln : ℚ → R) (hln : ∀ x : ℚ, 1 ≤ x → 0 ≤ ln x)
    (s : SearchServer) (hs : Reachable s) (hN : s.documents_.length < 2147483648) :
    (∀ word freqs, StdMap.find word s.word_to_document_freqs_ = some freqs →
      1 ≤ freqs.length ∧ (freqs.length : Int) ≤ s.GetDocumentCount ∧
      1 ≤ (s.GetDocumentCount : ℚ) * 1 / (freqs.length : ℚ) ∧
      ∃ idf, ComputeWordInverseDocumentFreq ln s word = some idf ∧ 0 ≤ idf) ∧
    (∀ word id q, s.storedFreq word id = some q → 0 < q) ∧
    (∀ (raw_query : Str) (p : Int → DocumentStatus → Int → Bool),
      ∃ l, FindTopDocuments ln s raw_query p = some l ∧ ∀ d ∈ l, 0 ≤ d.relevance) := by
  refine ⟨?_, ?_, ?_⟩
  · intro word freqs hf
    obtain ⟨h1, h2⟩ := length_freqs_le s hs.wellFormed word freqs hf
    have hratio : 1 ≤ (s.GetDocumentCount : ℚ) * 1 / (freqs.length : ℚ) := by
      rw [mul_one]
      exact ratio_ge_one s hs.wellFormed hN word freqs hf
    refine ⟨h1, ?_, hratio, ?_⟩
    · rw [getDocumentCount_eq_length s hN]
      exact_mod_cast h2
    · unfold ComputeWordInverseDocumentFreq
      rw [hf]
      exact ⟨_, rfl, hln _ hratio⟩
  · intro word id q hq
    exact hs.storedFreq_pos word id q hq
  · intro raw_query p
    obtain ⟨l, hl⟩ := Option.isSome_iff_exists.1 (findTop_isSome ln s hs raw_query p)
    refine ⟨l, hl, ?_⟩
    intro d hd
    obtain ⟨docs, hdocs, _, hsub⟩ := findTop_sub ln s raw_query p l hl
    rw [findAll_relevance ln s hs.wellFormed _ p docs hdocs d (hsub d hd)]
    exact relevanceSum_nonneg ln hln s hs hN _ _

theorem document_frequency_bounds_witness :
    (∀ x : ℚ, 1 ≤ x → 0 ≤ Real.log (x : ℝ)) ∧
    Reachable sortingServer ∧
    sortingServer.documents_.length < 2147483648 ∧
    sortingServer.GetDocumentCount = 4 ∧
    StdMap.find "cat".toList sortingServer.word_to_document_freqs_ =
      some [(5, 1 / 8), (38, 1 / 2)] ∧
    (∃ idf, ComputeWordInverseDocumentFreq (fun q => Real.log (q : ℝ)) sortingServer
      "cat".toList = some idf ∧ 0 ≤ idf) ∧
    ∃ l, FindTopDocuments (fun q => Real.log (q : ℝ)) sortingServer
        "white cat long tail".toList actualOnly = some l ∧
      ∀ d ∈ l, 0 ≤ d.relevance :=
  ⟨fun x hx => Real.log_nonneg (by exact_mod_cast hx), sortingServer_reachable, by decide,
    by decide, by decide!,
    ((document_frequency_bounds (fun q => Real.log (q : ℝ))
      (fun x hx => Real.log_nonneg (by exact_mod_cast hx)) sortingServer
      sortingServer_reachable (by decide)).1 "cat".toList [(5, 1 / 8), (38, 1 / 2)]
      (by decide!)).2.2.2,
    (document_frequency_bounds (fun q => Real.log (q : ℝ))
      (fun x hx => Real.log_nonneg (by exact_mod_cast hx)) sortingServer
      sortingServer_reachable (by decide)).2.2 "white cat long tail".toList actualOnly⟩

/-- C29, refuted as stated: the comparator of the sort is not transitive. Of
three documents with relevances `0`, `0.6e-6`, `1.2e-6` and ratings `3`, `2`,
`1`, the first goes before the second and the second before the third by the
ratings, and the third goes before the first by the relevance. -/
theorem compareDocuments_not_transitive :
    compareDocuments (⟨1, 0, 3⟩ : Document ℚ) ⟨2, 6 / 10000000, 2⟩ = true ∧
    compareDocuments (⟨2, 6 / 10000000, 2⟩ : Document ℚ) ⟨3, 12 / 10000000, 1⟩ = true ∧
    compareDocuments (⟨1, 0, 3⟩ : Document ℚ) ⟨3, 12 / 10000000, 1⟩ = false ∧
    compareDocuments (⟨3, 12 / 10000000, 1⟩ : Document ℚ) ⟨1, 0, 3⟩ = true := by
  refine ⟨by decide!, by decide!, by decide!, by decide!⟩

/-- C29, as the code has it: the comparator of the sort is irreflexive and
asymmetric, and it is transitive on three documents among which being tied
(relevances less than `1e-6` apart) is transitive, as when the relevances are
pairwise less than `1e-6` apart or pairwise at least `1e-6` apart. -/
theorem compareDocuments_strict (a b c : Document R) :
    compareDocuments a a = false ∧
    (compareDocuments a b = true → compareDocuments b a = false) ∧
    ((tied a b → tied b c → tied a c) → (tied a b → tied a c → tied b c) →
      (tied a c → tied b c → tied a b) →
      compareDocuments a b = true → compareDocuments b c = true →
      compareDocuments a c = true) := by
  refine ⟨compareDocuments_irrefl a, compareDocuments_asymm a b, ?_⟩
  intro h1 h2 h3 hab hbc
  by_cases tab : tied a b <;> by_cases tbc : tied b c
  · rw [compareDocuments_of_tied a b tab, decide_eq_true_eq] at hab
    rw [compareDocuments_of_tied b c tbc, decide_eq_true_eq] at hbc
    rw [compareDocuments_of_tied a c (h1 tab tbc), decide_eq_true_eq]
    exact gt_trans hab hbc
  · have tac : ¬ tied a c := fun h => tbc (h2 tab h)
    rw [compareDocuments_of_not_tied b c tbc, decide_eq_true_eq] at hbc
    rw [compareDocuments_of_not_tied a c tac, decide_eq_true_eq]
    unfold tied at tab tbc tac
    rw [abs_lt] at tab
    rw [not_lt] at tbc
    rw [abs_of_pos (sub_pos.2 hbc)] at tbc
    linarith
  · have tac : ¬ tied a c := fun h => tab (h3 h tbc)
    rw [compareDocuments_of_not_tied a b tab, decide_eq_true_eq] at hab
    rw [compareDocuments_of_not_tied a c tac, decide_eq_true_eq]
    unfold tied at tab tbc tac
    rw [abs_lt] at tbc
    rw [not_lt] at tab
    rw [abs_of_pos (sub_pos.2 hab)] at tab
    linarith
  · rw [compareDocuments_of_not_tied a b tab, decide_eq_true_eq] at hab
    rw [compareDocuments_of_not_tied b c tbc, decide_eq_true_eq] at hbc
    have hac : a.relevance > c.relevance := gt_trans hab hbc
    have tac : ¬ tied a c := by
      unfold tied at tab tbc ⊢
      rw [not_lt] at tab tbc ⊢
      rw [abs_of_pos (sub_pos.2 hab)] at tab
      rw [abs_of_pos (sub_pos.2 hbc)] at tbc
      rw [abs_of_pos (sub_pos.2 hac)]
      have : (0 : R) < 1 / 1000000 := by norm_num
      linarith
    rw [compareDocuments_of_not_tied a c tac, decide_eq_true_eq]
    exact hac

theorem compareDocuments_strict_witness :
    compareDocuments (⟨1, 1 / 4, 3⟩ : Document ℚ) ⟨38, 1 / 4, 2⟩ = true ∧
    compareDocuments (⟨38, 1 / 4, 2⟩ : Document ℚ) ⟨5, 1 / 8, 7⟩ = true ∧
    compareDocuments (⟨38, 1 / 4, 2⟩ : Document ℚ) ⟨1, 1 / 4, 3⟩ = false ∧
    compareDocuments (⟨1, 1 / 4, 3⟩ : Document ℚ) ⟨5, 1 / 8, 7⟩ = true :=
  ⟨by decide!, by decide!,
    (compareDocuments_strict (⟨1, 1 / 4, 3⟩ : Document ℚ) ⟨38, 1 / 4, 2⟩ ⟨5, 1 / 8, 7⟩).2.1
      (by decide!),
    (compareDocuments_strict (⟨1, 1 / 4, 3⟩ : Document ℚ) ⟨38, 1 / 4, 2⟩ ⟨5, 1 / 8, 7⟩).2.2
      (fun _ h => absurd h (by unfold tied; decide!))
      (fun _ h => absurd h (by unfold tied; decide!))
      (fun h _ => absurd h (by unfold tied; decide!))
      (by decide!) (by decide!)⟩

/-- C30: in a reachable state, `AddDocument` with an id that is already stored
completes and gives a reachable state: for every word of the new text (stop
words dropped) the frequency stored for the id becomes the old one, `0` when
there was none, plus the count of the word over the word count of the new
text, and no other entry of the index changes; the metadata map is unchanged,
so the id keeps its rating and status and `GetDocumentCount` is unchanged. -/
theorem addDocument_stored_id (s : SearchServer) (hs : Reachable s) (document_id : Int)
    (data : DocumentData) (hd : StdMap.find document_id s.documents_ = some data)
    (document : Str) (status : DocumentStatus) (ratings : List Int) :
    Reachable (s.AddDocument document_id document status ratings) ∧
    (∀ t i, (s.AddDocument document_id document status ratings).storedFreq t i =
      if i = document_id ∧ t ∈ s.SplitIntoWordsNoStop document then
        some ((s.storedFreq t document_id).getD 0 +
          ((s.SplitIntoWordsNoStop document).count t : ℚ) *
            (1 / ((s.SplitIntoWordsNoStop document).length : ℚ)))
      else s.storedFreq t i) ∧
    (s.AddDocument document_id document status ratings).documents_ = s.documents_ ∧
    StdMap.find document_id (s.AddDocument document_id document status ratings).documents_ =
      some data ∧
    (s.AddDocument document_id document status ratings).GetDocumentCount =
      s.GetDocumentCount := by
  have hdocs : (s.AddDocument document_id document status ratings).documents_ =
      s.documents_ :=
    StdMap.emplace_of_mem _ _ _ hs.wellFormed.documents_sorted
      ((StdMap.find_isSome_iff _ _).1 (by rw [hd]; rfl))
  refine ⟨Reachable.addDocument s document_id document status ratings hs,
    storedFreq_addDocument s hs.wellFormed document_id document status ratings, hdocs, ?_, ?_⟩
  · rw [hdocs]
    exact hd
  · unfold GetDocumentCount
    rw [hdocs]

theorem addDocument_stored_id_witness :
    Reachable minusWordsServer ∧
    StdMap.find 38 minusWordsServer.documents_ = some ⟨3, DocumentStatus.ACTUAL⟩ ∧
    minusWordsServer.storedFreq "cat".toList 38 = some (1 / 4) ∧
    (minusWordsServer.AddDocument 38 "cat dog".toList DocumentStatus.BANNED
      [9]).storedFreq "cat".toList 38 = some (3 / 4) ∧
    (minusWordsServer.AddDocument 38 "cat dog".toList DocumentStatus.BANNED
      [9]).storedFreq "dog".toList 38 = some (1 / 2) ∧
    StdMap.find 38 (minusWordsServer.AddDocument 38 "cat dog".toList DocumentStatus.BANNED
      [9]).documents_ = some ⟨3, DocumentStatus.ACTUAL⟩ ∧
    (minusWordsServer.AddDocument 38 "cat dog".toList DocumentStatus.BANNED
      [9]).GetDocumentCount = minusWordsServer.GetDocumentCount ∧
    minusWordsServer.GetDocumentCount = 3 :=
  ⟨minusWordsServer_reachable, by decide, by decide!, by decide!, by decide!,
    (addDocument_stored_id minusWordsServer minusWordsServer_reachable 38
      ⟨3, DocumentStatus.ACTUAL⟩ (by decide) "cat dog".toList DocumentStatus.BANNED
      [9]).2.2.2.1,
    (addDocument_stored_id minusWordsServer minusWordsServer_reachable 38
      ⟨3, DocumentStatus.ACTUAL⟩ (by decide) "cat dog".toList DocumentStatus.BANNED
      [9]).2.2.2.2,
    by decide⟩

end SearchServer
